import Mathlib

/-!
# gengine: the rule-engine pool of `engine/gengine_pool.go`

A shallow embedding of the pool (`GenginePool`), of its execute entry points,
of its update paths and of the incremental merge `updateIncremental`, followed
by the properties established about them.

Conventions of the embedding.

* Go maps are association lists with pairwise distinct keys (`GoMap`).
* Go pointers to rule builders are slot numbers of `rbSlice`.
* Locks are left out: every operation is taken in the sequential view, with the
  goroutine of `putGengineLocked` run to completion before the next operation.
* A call that does not return normally (a runtime panic, or the acquire loop
  that never finds an instance) is a value of `Go` other than `ok`.
* Packages that are not part of the sources (`context`, `builder`, `base`,
  `tool`, and the executors of `gengine.go`) enter either as parameters or as
  definitions modelled from the specification; each says so.
-/

namespace Gengine

/-! ## Go values and results -/

/-- A host value stored in a Go interface; only its identity is kept. -/
abbrev HostValue := Nat

/-- Go `interface{}`: `none` is the nil interface. -/
abbrev Iface := Option HostValue

/-- Result of running Go code: `ok` when it returns, `panic` for a runtime
panic (index out of range, nil dereference), `spin` when the acquire loop of
`getGengine` never exits. -/
inductive Go (α : Type) where
  | ok (a : α) : Go α
  | panic : Go α
  | spin : Go α
  deriving DecidableEq, Repr

/-- Sequencing of Go code: the first abnormal result is the result. -/
def Go.bind {α β : Type} (x : Go α) (f : α → Go β) : Go β :=
  match x with
  | .ok a => f a
  | .panic => .panic
  | .spin => .spin

instance : Monad Go where
  pure := Go.ok
  bind := Go.bind

/-- Go `error` values produced by the pool, one constructor per message. -/
inductive Error where
  /-- Message "pool length must be bigger than 0, and poolMaxLen must bigger than poolMinLen". -/
  | poolLength : Error
  /-- Message "exec model must be SORT_MODEL(1) or ... now it is %d". -/
  | execModel (em : Int) : Error
  /-- Message "build rule from string err: %+v". -/
  | build (e : String) : Error
  /-- Message "if you want to clear all rules, use method pool.ClearPoolRules()". -/
  | useClear : Error
  /-- An error returned by an executor. -/
  | exec (e : String) : Error
  /-- Message "%+v" of the grammar or parse errors collected by `getKc`. -/
  | grammar (e : String) : Error
  /-- Message "no rules to update or add.". -/
  | noRules : Error
  deriving DecidableEq, Repr

/-- The configuration errors of `NewGenginePool` and `SetExecModel`. -/
def Error.isConfiguration : Error → Bool
  | .poolLength => true
  | .execModel _ => true
  | _ => false

/-! ## Go maps -/

/-- Go `map[string]V` as an association list. -/
abbrev GoMap (V : Type) := List (String × V)

/-- Map read `m[k]` with the comma-ok result. -/
def GoMap.get {V : Type} : GoMap V → String → Option V
  | [], _ => none
  | (k', v) :: t, k => if k' = k then some v else GoMap.get t k

/-- Map write `m[k] = v`: the last write wins, a new key is added. -/
def GoMap.set {V : Type} : GoMap V → String → V → GoMap V
  | [], k, v => [(k, v)]
  | (k', v') :: t, k, v => if k' = k then (k, v) :: t else (k', v') :: GoMap.set t k v

/-- Map delete `delete(m, k)`. -/
def GoMap.del {V : Type} (m : GoMap V) (k : String) : GoMap V :=
  m.filter fun p => decide (p.1 ≠ k)

/-- Keys of a map. -/
def GoMap.keys {V : Type} (m : GoMap V) : List String :=
  m.map Prod.fst

/-- Values of a map. -/
def GoMap.values {V : Type} (m : GoMap V) : List V :=
  m.map Prod.snd

/-- Whether `k` is a key: the `ok` of `_, ok := m[k]`. -/
def GoMap.has {V : Type} (m : GoMap V) (k : String) : Bool :=
  (m.get k).isSome

/-! ## Data model -/

/-- Rule entity of package `base`: its name, its priority, and its description
standing for the parsed body. -/
structure RuleEntity where
  RuleName : String
  Salience : Int
  RuleDescription : String
  deriving DecidableEq, Repr, Inhabited

/-- Knowledge context of package `base`: the three KB structures. -/
structure KnowledgeContext where
  RuleEntities : GoMap RuleEntity
  SortRules : List RuleEntity
  SortRulesIndexMap : GoMap Nat
  deriving DecidableEq, Repr

/-- Modelled from the spec: the data context of package `context`, which is not
among the sources. Section 4.3: a mapping from names to bindings. -/
structure DataContext where
  base : GoMap Iface
  deriving DecidableEq, Repr

/-- Modelled from the spec: `DataContext.Add` of the missing package
`context`. Section 4.3: registers a binding, last write wins. -/
def DataContext.Add (dc : DataContext) (key : String) (obj : Iface) : DataContext :=
  ⟨dc.base.set key obj⟩

/-- Modelled from the spec: `DataContext.Del` of the missing package
`context`. Section 4.3: removes the bindings of the given names. -/
def DataContext.Del (dc : DataContext) (keys : List String) : DataContext :=
  ⟨keys.foldl GoMap.del dc.base⟩

/-- Rule builder of package `builder`: a knowledge context and a data context. -/
structure RuleBuilder where
  Kc : KnowledgeContext
  Dc : DataContext
  deriving DecidableEq, Repr

/-- Modelled from the spec: `KnowledgeContext.ClearRules` of the missing
package `base`. Section 4.2: `clear()` empties all three structures. -/
def KnowledgeContext.ClearRules (_kc : KnowledgeContext) : KnowledgeContext :=
  ⟨[], [], []⟩

/-- Stop-tag handed in by the caller. -/
structure Stag where
  StopTag : Bool
  deriving DecidableEq, Repr

def SORT_MODEL : Int := 1

def CONCOURRENT_MODEL : Int := 2

def MIX_MODEL : Int := 3

def INVERSE_MIX_MODEL : Int := 4

/-- Pool member. `rulebuilder` is the pointer set by `prepare`, kept as the
slot of `rbSlice` it points to; the stateless `gengine` field is left out. -/
structure gengineWrapper where
  tag : Nat
  rulebuilder : Option Nat
  addition : Bool
  deriving DecidableEq, Repr

/-- Pool state, without its locks. -/
structure GenginePool where
  freeGengines : List gengineWrapper
  ruleBuilder : Option RuleBuilder
  execModel : Int
  apis : GoMap Iface
  additionGengines : List gengineWrapper
  additionNum : Int
  clear : Bool
  rbSlice : List RuleBuilder
  max : Int
  deriving DecidableEq, Repr

/-! ## Executors (`gengine.go`, not among the sources) -/

/-- One call of a method of `Gengine` on the wrapper's rule builder, with the
arguments the pool passes besides the rule builder. -/
inductive ExecutorCall where
  | Execute (b : Bool) : ExecutorCall
  | ExecuteWithStopTagDirect (b : Bool) (sTag : Stag) : ExecutorCall
  | ExecuteConcurrent : ExecutorCall
  | ExecuteMixModel : ExecutorCall
  | ExecuteMixModelWithStopTagDirect (sTag : Stag) : ExecutorCall
  | ExecuteInverseMixModel : ExecutorCall
  | ExecuteSelectedRules (names : List String) : ExecutorCall
  | ExecuteSelectedRulesWithControl (b : Bool) (names : List String) : ExecutorCall
  | ExecuteSelectedRulesWithControlAndStopTag (b : Bool) (sTag : Stag)
      (names : List String) : ExecutorCall
  | ExecuteSelectedRulesConcurrent (names : List String) : ExecutorCall
  | ExecuteSelectedRulesMixModel (names : List String) : ExecutorCall
  | ExecuteSelectedRulesInverseMixModel (names : List String) : ExecutorCall
  deriving DecidableEq, Repr

/-- The stop-tag an executor call carries, if it takes one. -/
def ExecutorCall.stag : ExecutorCall → Option Stag
  | .ExecuteWithStopTagDirect _ s => some s
  | .ExecuteMixModelWithStopTagDirect s => some s
  | .ExecuteSelectedRulesWithControlAndStopTag _ s _ => some s
  | _ => none

/-- What an executor leaves behind: the data context of the rule builder after
the run, the returned error, and the names of the rules whose `when` was
evaluated. -/
structure ExecOutcome where
  Dc : DataContext
  err : Option Error
  evaluated : List String
  deriving DecidableEq, Repr

/-- The executors of `gengine.go` as a parameter of the pool: any function from
the call and the rule builder it runs on to an outcome. -/
abbrev Executor := ExecutorCall → RuleBuilder → ExecOutcome

/-- The rule names an executor call schedules: all of `SortRules`, or the
listed names that exist. -/
def ExecutorCall.scheduled (c : ExecutorCall) (rb : RuleBuilder) : List String :=
  let all := rb.Kc.SortRules.map RuleEntity.RuleName
  let sel := fun (names : List String) => names.filter fun n => rb.Kc.RuleEntities.has n
  match c with
  | .ExecuteSelectedRules names => sel names
  | .ExecuteSelectedRulesWithControl _ names => sel names
  | .ExecuteSelectedRulesWithControlAndStopTag _ _ names => sel names
  | .ExecuteSelectedRulesConcurrent names => sel names
  | .ExecuteSelectedRulesMixModel names => sel names
  | .ExecuteSelectedRulesInverseMixModel names => sel names
  | _ => all

/-- Modelled from the spec: the executors of `gengine.go`, which is not among
the sources, for rule sets whose bodies raise no error and do not set the
stop-tag. Sections 4.5 and 8: every scheduled rule has its `when` evaluated;
when a stop-tag is supplied every rule checks it before `when` and is skipped if
it is set, so a stop-tag set before the run leaves no rule evaluated and the run
returns success. Names in the data context are neither added nor removed. -/
def specExecutor : Executor := fun c rb =>
  match c.stag with
  | some ⟨true⟩ => ⟨rb.Dc, none, []⟩
  | _ => ⟨rb.Dc, none, c.scheduled rb⟩

/-- What an execute entry point of the pool reports: the returned error, the
executor call it dispatched (if any), and the rules that call evaluated. -/
structure ExecResult where
  err : Option Error
  dispatched : Option ExecutorCall
  evaluated : List String
  deriving DecidableEq, Repr

/-- The result `return nil` reached without any executor call. -/
def ExecResult.nothing : ExecResult :=
  ⟨none, none, []⟩

/-! ## The builder (`builder.BuildRuleFromString`, not among the sources) -/

/-- The parser and builder behind `RuleBuilder.BuildRuleFromString`, as a
parameter: the knowledge context built from a source, or the build error. -/
abbrev Builder := String → Except String KnowledgeContext

/-- The empty knowledge context of `builder.NewRuleBuilder`. -/
def KnowledgeContext.empty : KnowledgeContext :=
  ⟨[], [], []⟩

/-- Source function `makeRuleBuilder`: a fresh data context holding the host
bindings, and the knowledge context built from the source (left empty for the
empty string). -/
def makeRuleBuilder (build : Builder) (ruleStr : String) (apiOuter : GoMap Iface) :
    Except Error RuleBuilder :=
  let dataContext : DataContext :=
    apiOuter.foldl (fun dc kv => dc.Add kv.1 kv.2) ⟨[]⟩
  if ruleStr ≠ "" then
    match build ruleStr with
    | .error e => .error (.build e)
    | .ok kc => .ok ⟨kc, dataContext⟩
  else
    .ok ⟨KnowledgeContext.empty, dataContext⟩

/-- The loop `for i := 0; i < n; i++ { rb, e := makeRuleBuilder(...); ... }`
filling the per-instance builders, returning at the first error. -/
def makeRuleBuilders (build : Builder) (ruleStr : String) (apiOuter : GoMap Iface) :
    Nat → Except Error (List RuleBuilder)
  | 0 => .ok []
  | n + 1 =>
    match makeRuleBuilder build ruleStr apiOuter with
    | .error e => .error e
    | .ok rb =>
      match makeRuleBuilders build ruleStr apiOuter n with
      | .error e => .error e
      | .ok rbs => .ok (rb :: rbs)

/-! ## Pool construction and updates -/

/-- Source function `NewGenginePool`. -/
def NewGenginePool (build : Builder) (poolMinLen poolMaxLen : Int) (em : Int)
    (rulesStr : String) (apiOuter : GoMap Iface) : Except Error GenginePool :=
  if ¬ (0 < poolMinLen ∧ poolMinLen < poolMaxLen) then
    .error .poolLength
  else if em ≠ SORT_MODEL ∧ em ≠ CONCOURRENT_MODEL ∧ em ≠ MIX_MODEL ∧ em ≠ INVERSE_MIX_MODEL then
    .error (.execModel em)
  else
    let fg : List gengineWrapper :=
      (List.range poolMinLen.toNat).map fun i => ⟨i, none, false⟩
    let ag : List gengineWrapper :=
      (List.range (poolMaxLen - poolMinLen).toNat).map fun j => ⟨j + poolMinLen.toNat, none, true⟩
    match makeRuleBuilder build rulesStr apiOuter with
    | .error e => .error e
    | .ok srcRb =>
      match makeRuleBuilders build rulesStr apiOuter poolMaxLen.toNat with
      | .error e => .error e
      | .ok rbs =>
        .ok {
          ruleBuilder := some srcRb
          freeGengines := fg
          apis := apiOuter
          execModel := em
          additionNum := poolMaxLen - poolMinLen
          additionGengines := ag
          clear := false
          rbSlice := rbs
          max := poolMaxLen }

/-- Source method `UpdatePooledRules`: the pool afterwards and the returned
error. -/
def GenginePool.UpdatePooledRules (build : Builder) (gp : GenginePool) (ruleStr : String) :
    GenginePool × Option Error :=
  match makeRuleBuilder build ruleStr gp.apis with
  | .error e => (gp, some e)
  | .ok rbi =>
    if rbi.Kc.RuleEntities.length = 0 then
      (gp, some .useClear)
    else
      match makeRuleBuilders build ruleStr gp.apis gp.max.toNat with
      | .error e => (gp, some e)
      | .ok rbs => ({ gp with rbSlice := rbs, ruleBuilder := some rbi, clear := false }, none)

/-- The loop of `ClearPoolRules`: `gp.rbSlice[i].Kc.ClearRules()` for
`i = from, ..., from + n - 1`; an index outside the slice panics. -/
def clearLoop : Nat → Nat → List RuleBuilder → Go (List RuleBuilder)
  | 0, _, rbs => .ok rbs
  | n + 1, i, rbs =>
    match rbs[i]? with
    | none => .panic
    | some rb => clearLoop n (i + 1) (rbs.set i { rb with Kc := rb.Kc.ClearRules })

/-- Source method `ClearPoolRules`. -/
def GenginePool.ClearPoolRules (gp : GenginePool) : Go GenginePool :=
  match clearLoop gp.max.toNat 0 gp.rbSlice with
  | .ok rbs => .ok { gp with ruleBuilder := none, clear := true, rbSlice := rbs }
  | .panic => .panic
  | .spin => .spin

/-- Source method `SetExecModel`. -/
def GenginePool.SetExecModel (gp : GenginePool) (execModel : Int) : GenginePool × Option Error :=
  if execModel ≠ SORT_MODEL ∧ execModel ≠ CONCOURRENT_MODEL ∧ execModel ≠ MIX_MODEL ∧
      execModel ≠ INVERSE_MIX_MODEL then
    (gp, some (.execModel execModel))
  else
    ({ gp with execModel := execModel }, none)

/-- Source method `GetExecModel`. -/
def GenginePool.GetExecModel (gp : GenginePool) : Int :=
  gp.execModel

/-- Source method `IsExist`. -/
def GenginePool.IsExist (gp : GenginePool) (ruleName : String) : Bool :=
  match gp.clear, gp.ruleBuilder with
  | false, some rb => rb.Kc.RuleEntities.has ruleName
  | _, _ => false

/-- Source method `GetRulesNumber`. -/
def GenginePool.GetRulesNumber (gp : GenginePool) : Nat :=
  match gp.clear, gp.ruleBuilder with
  | false, some rb => rb.Kc.RuleEntities.length
  | _, _ => 0

/-! ## Acquire, release, injection -/

/-- Source method `getGengine`, sequential view: the first core instance if
there is one, else the first overflow instance; with both lists empty and no
other goroutine to release an instance the loop never exits. -/
def GenginePool.getGengine (gp : GenginePool) : Go (gengineWrapper × GenginePool) :=
  match gp.freeGengines with
  | gw :: rest => .ok (gw, { gp with freeGengines := rest })
  | [] =>
    match gp.additionGengines with
    | gw :: rest => .ok (gw, { gp with additionGengines := rest })
    | [] => .spin

/-- Source method `putGengineLocked`, with its goroutine run to completion. -/
def GenginePool.putGengineLocked (gp : GenginePool) (gw : gengineWrapper) : GenginePool :=
  if gw.addition then
    { gp with additionGengines := gp.additionGengines ++ [gw] }
  else
    { gp with freeGengines := gp.freeGengines ++ [gw] }

/-- The effect of `gw.rulebuilder.Dc.Add(key, obj)` for the builder in `slot`. -/
def GenginePool.dcAdd (gp : GenginePool) (slot : Nat) (key : String) (obj : Iface) :
    GenginePool :=
  { gp with rbSlice := gp.rbSlice.modify (fun rb => { rb with Dc := rb.Dc.Add key obj }) slot }

/-- The effect of `gw.rulebuilder.Dc.Del(keys...)` for the builder in `slot`. -/
def GenginePool.dcDel (gp : GenginePool) (slot : Nat) (keys : List String) : GenginePool :=
  { gp with rbSlice := gp.rbSlice.modify (fun rb => { rb with Dc := rb.Dc.Del keys }) slot }

/-- Source method `clearInjected` of the wrapper: nothing for a nil rule
builder, else `Dc.Del(keys...)`. -/
def gengineWrapper.clearInjected (gw : gengineWrapper) (gp : GenginePool)
    (keys : List String) : GenginePool :=
  match gw.rulebuilder with
  | none => gp
  | some slot => gp.dcDel slot keys

/-- Source method `prepare`: acquire an instance, point it at its rule builder
`rbSlice[tag]`, and inject the request and the response. -/
def GenginePool.prepare (gp : GenginePool) (reqName : String) (req : Iface)
    (respName : String) (resp : Iface) : Go (gengineWrapper × GenginePool) :=
  match gp.getGengine with
  | .panic => .panic
  | .spin => .spin
  | .ok (gw, gp) =>
    match gp.rbSlice[gw.tag]? with
    | none => .panic
    | some _ =>
      let gw := { gw with rulebuilder := some gw.tag }
      let gp := if reqName ≠ "" ∧ req ≠ none then gp.dcAdd gw.tag reqName req else gp
      let gp := if respName ≠ "" ∧ resp ≠ none then gp.dcAdd gw.tag respName resp else gp
      .ok (gw, gp)

/-- Source method `prepareWithMultiInput`: acquire an instance and inject the
entries of `data` that have a non-empty name and a non-nil value. -/
def GenginePool.prepareWithMultiInput (gp : GenginePool) (data : GoMap Iface) :
    Go (gengineWrapper × GenginePool) :=
  match gp.getGengine with
  | .panic => .panic
  | .spin => .spin
  | .ok (gw, gp) =>
    match gp.rbSlice[gw.tag]? with
    | none => .panic
    | some _ =>
      let gw := { gw with rulebuilder := some gw.tag }
      let gp := data.foldl
        (fun gp kv => if kv.1 ≠ "" ∧ kv.2 ≠ none then gp.dcAdd gw.tag kv.1 kv.2 else gp) gp
      .ok (gw, gp)

/-- Source function `getKeys`. -/
def getKeys (data : GoMap Iface) : List String :=
  data.keys

/-- A call `gw.gengine.<method>(gw.rulebuilder, ...)`: the executor runs on the
wrapper's rule builder and leaves its data context behind. `none` stands for
the final `return nil` reached when no model matches. -/
def GenginePool.invoke (G : Executor) (gp : GenginePool) (gw : gengineWrapper)
    (call : Option ExecutorCall) : Go (GenginePool × ExecResult) :=
  match call with
  | none => .ok (gp, ExecResult.nothing)
  | some c =>
    match gw.rulebuilder with
    | none => .panic
    | some slot =>
      match gp.rbSlice[slot]? with
      | none => .panic
      | some rb =>
        let out := G c rb
        .ok ({ gp with rbSlice := gp.rbSlice.set slot { rb with Dc := out.Dc } },
          ⟨out.err, some c, out.evaluated⟩)

/-- The deferred `gw.rulebuilder.Dc.Del(keys...)` of `ExecuteRules`, which
dereferences the wrapper's rule builder without a nil check. -/
def GenginePool.deferDel (gp : GenginePool) (gw : gengineWrapper) (keys : List String) :
    Go GenginePool :=
  match gw.rulebuilder with
  | none => .panic
  | some slot => .ok (gp.dcDel slot keys)

/-! ## The twelve execute entry points

Each returns the pool afterwards and what the call reported. The deferred
function of the source runs after the executor has returned: it removes names
from the data context and releases the instance. -/

/-- Source method `ExecuteRules`: the deferred function calls
`gw.rulebuilder.Dc.Del(reqName, respName)`. -/
def GenginePool.ExecuteRules (G : Executor) (gp : GenginePool) (reqName : String) (req : Iface)
    (respName : String) (resp : Iface) :
    Go (GenginePool × ExecResult) :=
  if gp.clear then
    .ok (gp, ExecResult.nothing)
  else do
    let (gw, gp) ← gp.prepare reqName req respName resp
    let call : Option ExecutorCall :=
      if gp.execModel = SORT_MODEL then some (.Execute true)
      else if gp.execModel = CONCOURRENT_MODEL then some (.ExecuteConcurrent)
      else if gp.execModel = MIX_MODEL then some (.ExecuteMixModel)
      else if gp.execModel = INVERSE_MIX_MODEL then some (.ExecuteInverseMixModel)
      else none
    let (gp, res) ← gp.invoke G gw call
    let gp ← gp.deferDel gw [reqName, respName]
    .ok (gp.putGengineLocked gw, res)

/-- Source method `ExecuteRulesWithMultiInput`: the deferred function calls
`gw.clearInjected(getKeys(data)...)`. -/
def GenginePool.ExecuteRulesWithMultiInput (G : Executor) (gp : GenginePool) (data : GoMap Iface) :
    Go (GenginePool × ExecResult) :=
  if gp.clear then
    .ok (gp, ExecResult.nothing)
  else do
    let (gw, gp) ← gp.prepareWithMultiInput data
    let call : Option ExecutorCall :=
      if gp.execModel = SORT_MODEL then some (.Execute true)
      else if gp.execModel = CONCOURRENT_MODEL then some (.ExecuteConcurrent)
      else if gp.execModel = MIX_MODEL then some (.ExecuteMixModel)
      else if gp.execModel = INVERSE_MIX_MODEL then some (.ExecuteInverseMixModel)
      else none
    let (gp, res) ← gp.invoke G gw call
    let gp := gw.clearInjected gp (getKeys data)
    .ok (gp.putGengineLocked gw, res)

/-- Source method `ExecuteRulesWithStopTag`: the deferred function calls
`gw.clearInjected(reqName, reqName)`. -/
def GenginePool.ExecuteRulesWithStopTag (G : Executor) (gp : GenginePool) (reqName : String) (req : Iface)
    (respName : String) (resp : Iface) (stag : Stag) :
    Go (GenginePool × ExecResult) :=
  if gp.clear then
    .ok (gp, ExecResult.nothing)
  else do
    let (gw, gp) ← gp.prepare reqName req respName resp
    let call : Option ExecutorCall :=
      if gp.execModel = SORT_MODEL then some (.ExecuteWithStopTagDirect true stag)
      else if gp.execModel = CONCOURRENT_MODEL then some (.ExecuteConcurrent)
      else if gp.execModel = MIX_MODEL then some (.ExecuteMixModelWithStopTagDirect stag)
      else if gp.execModel = INVERSE_MIX_MODEL then some (.ExecuteInverseMixModel)
      else none
    let (gp, res) ← gp.invoke G gw call
    let gp := gw.clearInjected gp [reqName, reqName]
    .ok (gp.putGengineLocked gw, res)

/-- Source method `ExecuteRulesWithMultiInputAndStopTag`. -/
def GenginePool.ExecuteRulesWithMultiInputAndStopTag (G : Executor) (gp : GenginePool) (data : GoMap Iface)
    (stag : Stag) :
    Go (GenginePool × ExecResult) :=
  if gp.clear then
    .ok (gp, ExecResult.nothing)
  else do
    let (gw, gp) ← gp.prepareWithMultiInput data
    let call : Option ExecutorCall :=
      if gp.execModel = SORT_MODEL then some (.ExecuteWithStopTagDirect true stag)
      else if gp.execModel = CONCOURRENT_MODEL then some (.ExecuteConcurrent)
      else if gp.execModel = MIX_MODEL then some (.ExecuteMixModelWithStopTagDirect stag)
      else if gp.execModel = INVERSE_MIX_MODEL then some (.ExecuteInverseMixModel)
      else none
    let (gp, res) ← gp.invoke G gw call
    let gp := gw.clearInjected gp (getKeys data)
    .ok (gp.putGengineLocked gw, res)

/-- Source method `ExecuteSelectedRulesWithMultiInput`. -/
def GenginePool.ExecuteSelectedRulesWithMultiInput (G : Executor) (gp : GenginePool) (data : GoMap Iface)
    (names : List String) :
    Go (GenginePool × ExecResult) :=
  if gp.clear then
    .ok (gp, ExecResult.nothing)
  else do
    let (gw, gp) ← gp.prepareWithMultiInput data
    let call : Option ExecutorCall :=
      some (.ExecuteSelectedRules names)
    let (gp, res) ← gp.invoke G gw call
    let gp := gw.clearInjected gp (getKeys data)
    .ok (gp.putGengineLocked gw, res)

/-- Source method `ExecuteSelectedRulesWithControlWithMultiInput`. -/
def GenginePool.ExecuteSelectedRulesWithControlWithMultiInput (G : Executor) (gp : GenginePool) (data : GoMap Iface)
    (b : Bool) (names : List String) :
    Go (GenginePool × ExecResult) :=
  if gp.clear then
    .ok (gp, ExecResult.nothing)
  else do
    let (gw, gp) ← gp.prepareWithMultiInput data
    let call : Option ExecutorCall :=
      some (.ExecuteSelectedRulesWithControl b names)
    let (gp, res) ← gp.invoke G gw call
    let gp := gw.clearInjected gp (getKeys data)
    .ok (gp.putGengineLocked gw, res)

/-- Source method `ExecuteSelectedRulesWithControlAndStopTagWithMultiInput`. -/
def GenginePool.ExecuteSelectedRulesWithControlAndStopTagWithMultiInput (G : Executor) (gp : GenginePool) (data : GoMap Iface)
    (b : Bool) (stag : Stag) (names : List String) :
    Go (GenginePool × ExecResult) :=
  if gp.clear then
    .ok (gp, ExecResult.nothing)
  else do
    let (gw, gp) ← gp.prepareWithMultiInput data
    let call : Option ExecutorCall :=
      some (.ExecuteSelectedRulesWithControlAndStopTag b stag names)
    let (gp, res) ← gp.invoke G gw call
    let gp := gw.clearInjected gp (getKeys data)
    .ok (gp.putGengineLocked gw, res)

/-- Source method `ExecuteSelectedRulesConcurrentWithMultiInput`. -/
def GenginePool.ExecuteSelectedRulesConcurrentWithMultiInput (G : Executor) (gp : GenginePool) (data : GoMap Iface)
    (names : List String) :
    Go (GenginePool × ExecResult) :=
  if gp.clear then
    .ok (gp, ExecResult.nothing)
  else do
    let (gw, gp) ← gp.prepareWithMultiInput data
    let call : Option ExecutorCall :=
      some (.ExecuteSelectedRulesConcurrent names)
    let (gp, res) ← gp.invoke G gw call
    let gp := gw.clearInjected gp (getKeys data)
    .ok (gp.putGengineLocked gw, res)

/-- Source method `ExecuteSelectedRulesMixModelWithMultiInput`. -/
def GenginePool.ExecuteSelectedRulesMixModelWithMultiInput (G : Executor) (gp : GenginePool) (data : GoMap Iface)
    (names : List String) :
    Go (GenginePool × ExecResult) :=
  if gp.clear then
    .ok (gp, ExecResult.nothing)
  else do
    let (gw, gp) ← gp.prepareWithMultiInput data
    let call : Option ExecutorCall :=
      some (.ExecuteSelectedRulesMixModel names)
    let (gp, res) ← gp.invoke G gw call
    let gp := gw.clearInjected gp (getKeys data)
    .ok (gp.putGengineLocked gw, res)

/-- Source method `ExecuteInverseMixModelWithMultiInput`. -/
def GenginePool.ExecuteInverseMixModelWithMultiInput (G : Executor) (gp : GenginePool) (data : GoMap Iface) :
    Go (GenginePool × ExecResult) :=
  if gp.clear then
    .ok (gp, ExecResult.nothing)
  else do
    let (gw, gp) ← gp.prepareWithMultiInput data
    let call : Option ExecutorCall :=
      some (.ExecuteInverseMixModel)
    let (gp, res) ← gp.invoke G gw call
    let gp := gw.clearInjected gp (getKeys data)
    .ok (gp.putGengineLocked gw, res)

/-- Source method `ExecuteSelectedRulesInverseMixModelWithMultiInput`. -/
def GenginePool.ExecuteSelectedRulesInverseMixModelWithMultiInput (G : Executor) (gp : GenginePool) (data : GoMap Iface)
    (names : List String) :
    Go (GenginePool × ExecResult) :=
  if gp.clear then
    .ok (gp, ExecResult.nothing)
  else do
    let (gw, gp) ← gp.prepareWithMultiInput data
    let call : Option ExecutorCall :=
      some (.ExecuteSelectedRulesInverseMixModel names)
    let (gp, res) ← gp.invoke G gw call
    let gp := gw.clearInjected gp (getKeys data)
    .ok (gp.putGengineLocked gw, res)

/-- Source method `ExecuteSelected`. -/
def GenginePool.ExecuteSelected (G : Executor) (gp : GenginePool) (data : GoMap Iface)
    (names : List String) :
    Go (GenginePool × ExecResult) :=
  if gp.clear then
    .ok (gp, ExecResult.nothing)
  else do
    let (gw, gp) ← gp.prepareWithMultiInput data
    let call : Option ExecutorCall :=
      if gp.execModel = SORT_MODEL then some (.ExecuteSelectedRules names)
      else if gp.execModel = CONCOURRENT_MODEL then some (.ExecuteSelectedRulesConcurrent names)
      else if gp.execModel = MIX_MODEL then some (.ExecuteSelectedRulesMixModel names)
      else if gp.execModel = INVERSE_MIX_MODEL then some (.ExecuteSelectedRulesInverseMixModel names)
      else none
    let (gp, res) ← gp.invoke G gw call
    let gp := gw.clearInjected gp (getKeys data)
    .ok (gp.putGengineLocked gw, res)

/-- A call of one of the twelve execute methods of the pool, with its
arguments. -/
inductive ExecuteEntry where
  | ExecuteRules (reqName : String) (req : Iface) (respName : String) (resp : Iface) :
      ExecuteEntry
  | ExecuteRulesWithMultiInput (data : GoMap Iface) : ExecuteEntry
  | ExecuteRulesWithStopTag (reqName : String) (req : Iface) (respName : String)
      (resp : Iface) (stag : Stag) : ExecuteEntry
  | ExecuteRulesWithMultiInputAndStopTag (data : GoMap Iface) (stag : Stag) : ExecuteEntry
  | ExecuteSelectedRulesWithMultiInput (data : GoMap Iface) (names : List String) :
      ExecuteEntry
  | ExecuteSelectedRulesWithControlWithMultiInput (data : GoMap Iface) (b : Bool)
      (names : List String) : ExecuteEntry
  | ExecuteSelectedRulesWithControlAndStopTagWithMultiInput (data : GoMap Iface) (b : Bool)
      (stag : Stag) (names : List String) : ExecuteEntry
  | ExecuteSelectedRulesConcurrentWithMultiInput (data : GoMap Iface)
      (names : List String) : ExecuteEntry
  | ExecuteSelectedRulesMixModelWithMultiInput (data : GoMap Iface)
      (names : List String) : ExecuteEntry
  | ExecuteInverseMixModelWithMultiInput (data : GoMap Iface) : ExecuteEntry
  | ExecuteSelectedRulesInverseMixModelWithMultiInput (data : GoMap Iface)
      (names : List String) : ExecuteEntry
  | ExecuteSelected (data : GoMap Iface) (names : List String) : ExecuteEntry
  deriving DecidableEq, Repr

/-- Running an execute method of the pool. -/
def GenginePool.execute (G : Executor) (gp : GenginePool) :
    ExecuteEntry → Go (GenginePool × ExecResult)
  | .ExecuteRules reqName req respName resp => gp.ExecuteRules G reqName req respName resp
  | .ExecuteRulesWithMultiInput data => gp.ExecuteRulesWithMultiInput G data
  | .ExecuteRulesWithStopTag reqName req respName resp stag =>
    gp.ExecuteRulesWithStopTag G reqName req respName resp stag
  | .ExecuteRulesWithMultiInputAndStopTag data stag =>
    gp.ExecuteRulesWithMultiInputAndStopTag G data stag
  | .ExecuteSelectedRulesWithMultiInput data names =>
    gp.ExecuteSelectedRulesWithMultiInput G data names
  | .ExecuteSelectedRulesWithControlWithMultiInput data b names =>
    gp.ExecuteSelectedRulesWithControlWithMultiInput G data b names
  | .ExecuteSelectedRulesWithControlAndStopTagWithMultiInput data b stag names =>
    gp.ExecuteSelectedRulesWithControlAndStopTagWithMultiInput G data b stag names
  | .ExecuteSelectedRulesConcurrentWithMultiInput data names =>
    gp.ExecuteSelectedRulesConcurrentWithMultiInput G data names
  | .ExecuteSelectedRulesMixModelWithMultiInput data names =>
    gp.ExecuteSelectedRulesMixModelWithMultiInput G data names
  | .ExecuteInverseMixModelWithMultiInput data => gp.ExecuteInverseMixModelWithMultiInput G data
  | .ExecuteSelectedRulesInverseMixModelWithMultiInput data names =>
    gp.ExecuteSelectedRulesInverseMixModelWithMultiInput G data names
  | .ExecuteSelected data names => gp.ExecuteSelected G data names

/-! ## Incremental merge (`updateIncremental`)

The slice `newSortRules` is modelled with its backing array, because the
branch that replaces a rule by one of different salience declares a second,
shadowing `newSortRules` with `:=` and never assigns the outer variable: the
outer slice sees the result only through the array both share. -/

/-- Go slice of rule-entity pointers that starts at the first cell of its
backing array: `buf` is the array up to the capacity, `len` the length. -/
structure Slice where
  buf : List RuleEntity
  len : Nat
  deriving DecidableEq, Repr

/-- The elements `s[0], ..., s[len-1]`. -/
def Slice.elems (s : Slice) : List RuleEntity :=
  s.buf.take s.len

/-- Growth policy of `append`, a parameter: the number of spare cells a
reallocation adds, from the old capacity and the length needed. -/
abbrev Growth := Nat → Nat → Nat

/-- Go `append(s[:n], xs...)`, with `xs` read before anything is written (the
copy is a memmove). When the result fits the capacity it is written into the
array of `s`, and the flag is `true`; otherwise a new array is allocated and
the array of `s` is left as it was. -/
def Slice.appendAt (spare : Growth) (s : Slice) (n : Nat) (xs : List RuleEntity) :
    Slice × Bool :=
  if n + xs.length ≤ s.buf.length then
    (⟨s.buf.take n ++ xs ++ s.buf.drop (n + xs.length), n + xs.length⟩, true)
  else
    (⟨s.buf.take n ++ xs ++ List.replicate (spare s.buf.length (n + xs.length)) default,
      n + xs.length⟩, false)

/-- Modelled from the spec: `tool.BinarySearch` of the missing package `tool`.
Section 4.2: it returns `(low, mid)`, `low` the first position with strictly
lower salience (the length when there is none) and `mid` the first position
with equal salience; `mid` is 0 when no position has equal salience, which is
the value the caller reads as "not valid". -/
def BinarySearch (arr : List RuleEntity) (salience : Int) : Nat × Nat :=
  (arr.findIdx (fun e => decide (e.Salience < salience)),
    if arr.any (fun e => decide (e.Salience = salience)) then
      arr.findIdx (fun e => decide (e.Salience = salience))
    else 0)

/-- The loop `for k, v := range newSortRules { indexMap[v.RuleName] = k }`,
continued from index `i` with the map `m` built so far. -/
def indexMapFrom : GoMap Nat → Nat → List RuleEntity → GoMap Nat
  | m, _, [] => m
  | m, i, e :: t => indexMapFrom (m.set e.RuleName i) (i + 1) t

/-- The rebuilt `name → index` map of a sequence of rules. -/
def buildIndexMap (l : List RuleEntity) : GoMap Nat :=
  indexMapFrom [] 0 l

/-- The position at which the insertion block inserts: with
`low, mid := tool.BinarySearch(arr, salience)`, it is `low` if `mid == 0` and
`mid` otherwise. -/
def insertPos (arr : List RuleEntity) (salience : Int) : Nat :=
  if (BinarySearch arr salience).2 = 0 then (BinarySearch arr salience).1
  else (BinarySearch arr salience).2

/-- The insertion block, which the source has twice: `BinarySearch`, then
`newRe := append(ire, s[pos:]...)` (a fresh array, `ire` having capacity 1),
then `append(s[:pos], newRe...)`, where `pos` is `low` if `mid == 0` and `mid`
otherwise. A slice bound out of range panics. -/
def insertRule (spare : Growth) (s : Slice) (v : RuleEntity) : Go (Slice × Bool) :=
  let pos := insertPos s.elems v.Salience
  if pos ≤ s.len ∧ pos ≤ s.buf.length then
    let newRe := v :: s.elems.drop pos
    .ok (s.appendAt spare pos newRe)
  else
    .panic

/-- The variables the loop of `updateIncremental` works on. -/
structure MergeState where
  newRuleEntities : GoMap RuleEntity
  newSortRules : Slice
  SortRulesIndexMap : GoMap Nat
  deriving DecidableEq, Repr

/-- One iteration of `for k, v := range kc.RuleEntities`. The call
`v.Initialize(rb.Dc)` only attaches the data context to the rule and is left
out. -/
def mergeStep (spare : Growth) (st : MergeState) (kv : String × RuleEntity) : Go MergeState :=
  let k := kv.1
  let v := kv.2
  match st.newRuleEntities.get k with
  | some vm =>
    let index := (st.SortRulesIndexMap.get v.RuleName).getD 0
    if v.Salience = vm.Salience then
      if index < st.newSortRules.len then
        .ok { newRuleEntities := st.newRuleEntities.set k v
              newSortRules := ⟨st.newSortRules.buf.set index v, st.newSortRules.len⟩
              SortRulesIndexMap := st.SortRulesIndexMap }
      else
        .panic
    else
      if index ≤ st.newSortRules.buf.length ∧ index + 1 ≤ st.newSortRules.len then
        let r1 := st.newSortRules.appendAt spare index (st.newSortRules.elems.drop (index + 1))
        let outer1 : Slice := if r1.2 then ⟨r1.1.buf, st.newSortRules.len⟩ else st.newSortRules
        match insertRule spare r1.1 v with
        | .ok r2 =>
          let outer2 : Slice := if r1.2 && r2.2 then ⟨r2.1.buf, outer1.len⟩ else outer1
          .ok { newRuleEntities := st.newRuleEntities.set k v
                newSortRules := outer2
                SortRulesIndexMap := buildIndexMap r2.1.elems }
        | .panic => .panic
        | .spin => .spin
      else
        .panic
  | none =>
    match insertRule spare st.newSortRules v with
    | .ok r =>
      .ok { newRuleEntities := st.newRuleEntities.set k v
            newSortRules := r.1
            SortRulesIndexMap := buildIndexMap r.1.elems }
    | .panic => .panic
    | .spin => .spin

/-- The loop over the update's rules, in the order given. -/
def mergeLoop (spare : Growth) : List (String × RuleEntity) → MergeState → Go MergeState
  | [], st => .ok st
  | kv :: rest, st =>
    match mergeStep spare st kv with
    | .ok st1 => mergeLoop spare rest st1
    | .panic => .panic
    | .spin => .spin

/-- Source function `updateIncremental`. The loop over the Go map
`kc.RuleEntities` visits its entries in the order of the association list; Go
fixes no order, and every order is some list. -/
def updateIncremental (spare : Growth) (kc : KnowledgeContext) (rb : RuleBuilder) :
    Go RuleBuilder :=
  let st0 : MergeState :=
    { newRuleEntities := rb.Kc.RuleEntities
      newSortRules := ⟨rb.Kc.SortRules, rb.Kc.SortRules.length⟩
      SortRulesIndexMap := rb.Kc.SortRulesIndexMap }
  match mergeLoop spare kc.RuleEntities st0 with
  | .ok st =>
    .ok { rb with Kc :=
      { RuleEntities := st.newRuleEntities
        SortRules := st.newSortRules.elems
        SortRulesIndexMap := st.SortRulesIndexMap } }
  | .panic => .panic
  | .spin => .spin

/-! ## Incremental update of the pool (`UpdatePooledRulesIncremental`) -/

/-- The order in which a `range` statement over a Go map yields its entries, a
parameter: `visit i m` is the map `m` listed in the order of the `i`-th run of
the loop of `updateIncremental` within one update of the pool (0 for the
authoritative builder, `i + 1` for instance `i`). -/
abbrev Visit := Nat → GoMap RuleEntity → GoMap RuleEntity

/-- Source function `getKc`: the knowledge context the parser's listener
fills, the grammar or parse errors as an error, and an error for a source
without any rule. The parser is the parameter `parse`. -/
def getKc (parse : Builder) (ruleString : String) : Except Error KnowledgeContext :=
  match parse ruleString with
  | .error e => .error (.grammar e)
  | .ok kc =>
    if kc.RuleEntities.length = 0 then .error .noRules
    else .ok kc

/-- The loop `for i := 0; i < n; i++ { kc, e := getKc(ruleStr); ... }` filling
`kcs`, returning at the first error. -/
def getKcs (parse : Builder) (ruleStr : String) : Nat → Except Error (List KnowledgeContext)
  | 0 => .ok []
  | n + 1 =>
    match getKc parse ruleStr with
    | .error e => .error e
    | .ok kc =>
      match getKcs parse ruleStr n with
      | .error e => .error e
      | .ok kcs => .ok (kc :: kcs)

/-- The loop `for i := ...; i < ...; i++ { updateIncremental(kcs[i],
gp.rbSlice[i]) }`, for `n` more instances from instance `i` on. The rule
builder is updated through its pointer, so the slot holds the result; an index
outside `kcs` or `rbSlice` panics. -/
def updateInstances (spare : Growth) (visit : Visit) (kcs : List KnowledgeContext) :
    Nat → Nat → List RuleBuilder → Go (List RuleBuilder)
  | 0, _, rbs => .ok rbs
  | n + 1, i, rbs =>
    match kcs[i]?, rbs[i]? with
    | some kc, some rb =>
      match updateIncremental spare { kc with RuleEntities := visit (i + 1) kc.RuleEntities } rb with
      | .ok rb1 => updateInstances spare visit kcs n (i + 1) (rbs.set i rb1)
      | .panic => .panic
      | .spin => .spin
    | _, _ => .panic

/-- Source method `UpdatePooledRulesIncremental`: the pool afterwards and the
returned error. `updateIncremental(kci, gp.ruleBuilder)` reads `rb.Kc` at once:
with a nil `gp.ruleBuilder` it panics. -/
def GenginePool.UpdatePooledRulesIncremental (spare : Growth) (visit : Visit) (parse : Builder)
    (gp : GenginePool) (ruleStr : String) : Go (GenginePool × Option Error) :=
  match getKc parse ruleStr with
  | .error e => .ok (gp, some e)
  | .ok kci =>
    match getKcs parse ruleStr gp.max.toNat with
    | .error e => .ok (gp, some e)
    | .ok kcs =>
      match gp.ruleBuilder with
      | none => .panic
      | some rb =>
        match updateIncremental spare { kci with RuleEntities := visit 0 kci.RuleEntities } rb with
        | .panic => .panic
        | .spin => .spin
        | .ok rb1 =>
          match updateInstances spare visit kcs gp.max.toNat 0 gp.rbSlice with
          | .panic => .panic
          | .spin => .spin
          | .ok rbs =>
            .ok ({ gp with ruleBuilder := some rb1, rbSlice := rbs, clear := false }, none)

/-! ## Concrete inputs used in the examples -/

/-- Rule `R` with salience 5. -/
def demoRule : RuleEntity :=
  ⟨"R", 5, "v=1"⟩

/-- The knowledge context holding only `demoRule`. -/
def demoKc : KnowledgeContext :=
  ⟨[("R", demoRule)], [demoRule], [("R", 0)]⟩

/-- A builder that knows three kinds of source: one rule, no rule, and text
that does not parse. -/
def demoBuilder : Builder := fun s =>
  if s = "rule R" then .ok demoKc
  else if s = "// no rule" then .ok KnowledgeContext.empty
  else .error "grammar"

/-- The pool `NewGenginePool(1, 2, em, "rule R", {"x": 7})`: one core and one
overflow instance, with the host binding `x`. -/
def demoPool (em : Int) : GenginePool :=
  match NewGenginePool demoBuilder 1 2 em "rule R" [("x", some 7)] with
  | .ok gp => gp
  | .error _ => ⟨[], none, em, [], [], 0, true, [], 0⟩

/-- The names bound in the data context of the instance in `slot` once a call
has returned. -/
def boundAfter (r : Go (GenginePool × ExecResult)) (slot : Nat) : Option (List String) :=
  match r with
  | .ok (gp, _) => (gp.rbSlice[slot]?).map fun rb => rb.Dc.base.keys
  | _ => none

/-- Whether an acquire succeeds at once and finds the rule builder of the
acquired instance: some list is non-empty and the tag at its head is a slot of
`rbSlice`. -/
def GenginePool.acquirable (gp : GenginePool) : Bool :=
  match gp.getGengine with
  | .ok (gw, _) => decide (gw.tag < gp.rbSlice.length)
  | _ => false

/-- An executor that evaluates every scheduled rule and never looks at the
stop-tag it is handed: a second instance of the executors, next to the one
modelled from the spec. -/
def eagerExecutor : Executor := fun c rb =>
  ⟨rb.Dc, none, c.scheduled rb⟩

/-- Outcome of a source the full update must refuse: it builds to zero rules
(the error names `ClearPoolRules`) or it fails to build (the build error). -/
def refusal (build : Builder) (ruleStr : String) (apis : GoMap Iface) : Option Error :=
  match makeRuleBuilder build ruleStr apis with
  | .error e => some e
  | .ok rbi => if rbi.Kc.RuleEntities.length = 0 then some .useClear else none

/-- The executor call the two stop-tag entry points choose for a model. -/
def stopTagDispatch (em : Int) (stag : Stag) : Option ExecutorCall :=
  if em = SORT_MODEL then some (.ExecuteWithStopTagDirect true stag)
  else if em = CONCOURRENT_MODEL then some .ExecuteConcurrent
  else if em = MIX_MODEL then some (.ExecuteMixModelWithStopTagDirect stag)
  else if em = INVERSE_MIX_MODEL then some .ExecuteInverseMixModel
  else none

/-- What a call reported, when it returned. -/
def resultOf (r : Go (GenginePool × ExecResult)) : Option ExecResult :=
  match r with
  | .ok (_, res) => some res
  | _ => none

/-! ## Value-level view of the merge, used in the proofs -/

/-- The sequence the insertion block produces from the sequence `arr`. -/
def insertAtPos (arr : List RuleEntity) (v : RuleEntity) : List RuleEntity :=
  arr.take (insertPos arr v.Salience) ++ v :: arr.drop (insertPos arr v.Salience)

/-- One iteration of the loop of `updateIncremental` on the three KB
structures, with `newSortRules` taken as the sequence of its elements. -/
def mergeStepL (K : KnowledgeContext) (kv : String × RuleEntity) : KnowledgeContext :=
  match K.RuleEntities.get kv.1 with
  | some vm =>
    if kv.2.Salience = vm.Salience then
      { RuleEntities := K.RuleEntities.set kv.1 kv.2
        SortRules := K.SortRules.set ((K.SortRulesIndexMap.get kv.2.RuleName).getD 0) kv.2
        SortRulesIndexMap := K.SortRulesIndexMap }
    else
      { RuleEntities := K.RuleEntities.set kv.1 kv.2
        SortRules := insertAtPos
          (K.SortRules.eraseIdx ((K.SortRulesIndexMap.get kv.2.RuleName).getD 0)) kv.2
        SortRulesIndexMap := buildIndexMap (insertAtPos
          (K.SortRules.eraseIdx ((K.SortRulesIndexMap.get kv.2.RuleName).getD 0)) kv.2) }
  | none =>
    { RuleEntities := K.RuleEntities.set kv.1 kv.2
      SortRules := insertAtPos K.SortRules kv.2
      SortRulesIndexMap := buildIndexMap (insertAtPos K.SortRules kv.2) }

/-- The three structures the loop state stands for. -/
def MergeState.toKc (st : MergeState) : KnowledgeContext :=
  ⟨st.newRuleEntities, st.newSortRules.elems, st.SortRulesIndexMap⟩

/-- A Go map of rules as the parser builds it: distinct keys, each rule stored
under its own name. -/
def KeyedByName (m : GoMap RuleEntity) : Prop :=
  m.keys.Nodup ∧ ∀ p ∈ m, p.2.RuleName = p.1

/-- Mutual consistency of the three KB structures: `SortRules` holds every
entity of `RuleEntities` exactly once and nothing else, and for every name of
`RuleEntities`, `SortRules[SortRulesIndexMap[name]].RuleName == name`. -/
def KnowledgeContext.Consistent (K : KnowledgeContext) : Prop :=
  KeyedByName K.RuleEntities ∧
  K.SortRules.Perm K.RuleEntities.values ∧
  ∀ name ∈ K.RuleEntities.keys,
    (K.SortRulesIndexMap.get name).bind
      (fun i => (K.SortRules[i]?).map RuleEntity.RuleName) = some name

/-- Priority order: `SortRules` is non-increasing in `Salience`. -/
def SortedBySalience (l : List RuleEntity) : Prop :=
  l.Pairwise fun a b => b.Salience ≤ a.Salience

/-- The invariant carried through the loop: distinct keys, rules keyed by
name, the names of `SortRules` a rearrangement of the keys, every rule of
`SortRules` the one stored under its name, and the index map giving each
position. -/
def Inv (K : KnowledgeContext) : Prop :=
  K.RuleEntities.keys.Nodup ∧
  (∀ k e, K.RuleEntities.get k = some e → e.RuleName = k) ∧
  (K.SortRules.map RuleEntity.RuleName).Perm K.RuleEntities.keys ∧
  (∀ e ∈ K.SortRules, K.RuleEntities.get e.RuleName = some e) ∧
  (∀ i n, (K.SortRules.map RuleEntity.RuleName)[i]? = some n →
    K.SortRulesIndexMap.get n = some i)

instance (m : GoMap RuleEntity) : Decidable (KeyedByName m) := by
  unfold KeyedByName
  infer_instance

instance (K : KnowledgeContext) : Decidable K.Consistent := by
  unfold KnowledgeContext.Consistent
  infer_instance

instance (l : List RuleEntity) : Decidable (SortedBySalience l) := by
  unfold SortedBySalience
  infer_instance

/-- The entries of a map of rules stored under each rule's own name. -/
def rulesMap (l : List RuleEntity) : GoMap RuleEntity :=
  l.map fun e => (e.RuleName, e)

/-- The knowledge context of a priority-ordered sequence of rules. -/
def kcOf (l : List RuleEntity) : KnowledgeContext :=
  ⟨rulesMap l, l, buildIndexMap l⟩

/-- An update visiting the given rules in the given order. -/
def updateOf (l : List RuleEntity) : KnowledgeContext :=
  ⟨rulesMap l, [], []⟩

/-- The rule builder of a priority-ordered sequence of rules, with an empty
data context. -/
def rbOf (l : List RuleEntity) : RuleBuilder :=
  ⟨kcOf l, ⟨[]⟩⟩

/-- The `SortRules` a call of `updateIncremental` leaves, when it returns. -/
def sortRulesAfter (r : Go RuleBuilder) : Option (List RuleEntity) :=
  match r with
  | .ok rb => some rb.Kc.SortRules
  | _ => none

/-- Growth policy that never adds a spare cell. -/
def exactGrowth : Growth := fun _ _ => 0

/-- Growth policy that doubles, as the Go runtime does for small slices. -/
def doublingGrowth : Growth := fun _ needed => needed

/-- Rule `R` again, same salience 5, new body. -/
def ruleR2 : RuleEntity :=
  ⟨"R", 5, "v=2"⟩

/-- Rule `R` again, with salience 9. -/
def ruleR9 : RuleEntity :=
  ⟨"R", 9, "v=9"⟩

/-- Rule `S` with salience 7. -/
def ruleS : RuleEntity :=
  ⟨"S", 7, "w=1"⟩

/-- Rule `A` with salience 5. -/
def ruleA : RuleEntity :=
  ⟨"A", 5, "a"⟩

/-- Rule `B` with salience 5. -/
def ruleB : RuleEntity :=
  ⟨"B", 5, "b"⟩

/-- Rule `C` with salience 3. -/
def ruleC : RuleEntity :=
  ⟨"C", 3, "c"⟩

/-- Rule `C` again, same salience 3, new body. -/
def ruleC2 : RuleEntity :=
  ⟨"C", 3, "c2"⟩

/-- Rule `D` with salience 5. -/
def ruleD : RuleEntity :=
  ⟨"D", 5, "d"⟩

/-! ## Incremental merge with the search as a parameter

The package `tool` is not part of the source, so what `tool.BinarySearch`
returns is not fixed by it. The definitions below are `insertPos`,
`insertRule`, `mergeStep`, `mergeLoop` and `updateIncremental` once more, with
the search a parameter in place of the function modelled from the spec. -/

/-- The missing `tool.BinarySearch` as a parameter: a function from the
sequence searched and the salience searched for to the pair `(low, mid)`. -/
abbrev Search := List RuleEntity → Int → Nat × Nat

/-- The position at which the insertion block inserts: with
`low, mid := tool.BinarySearch(arr, salience)`, it is `low` if `mid == 0` and
`mid` otherwise. -/
def insertPosWith (search : Search) (arr : List RuleEntity) (salience : Int) : Nat :=
  if (search arr salience).2 = 0 then (search arr salience).1
  else (search arr salience).2

/-- The insertion block, which the source has twice: `BinarySearch`, then
`newRe := append(ire, s[pos:]...)` (a fresh array, `ire` having capacity 1),
then `append(s[:pos], newRe...)`, where `pos` is `low` if `mid == 0` and `mid`
otherwise. A slice bound out of range panics. -/
def insertRuleWith (search : Search) (spare : Growth) (s : Slice) (v : RuleEntity) :
    Go (Slice × Bool) :=
  let pos := insertPosWith search s.elems v.Salience
  if pos ≤ s.len ∧ pos ≤ s.buf.length then
    let newRe := v :: s.elems.drop pos
    .ok (s.appendAt spare pos newRe)
  else
    .panic

/-- One iteration of `for k, v := range kc.RuleEntities`. The call
`v.Initialize(rb.Dc)` only attaches the data context to the rule and is left
out. -/
def mergeStepWith (search : Search) (spare : Growth) (st : MergeState)
    (kv : String × RuleEntity) : Go MergeState :=
  let k := kv.1
  let v := kv.2
  match st.newRuleEntities.get k with
  | some vm =>
    let index := (st.SortRulesIndexMap.get v.RuleName).getD 0
    if v.Salience = vm.Salience then
      if index < st.newSortRules.len then
        .ok { newRuleEntities := st.newRuleEntities.set k v
              newSortRules := ⟨st.newSortRules.buf.set index v, st.newSortRules.len⟩
              SortRulesIndexMap := st.SortRulesIndexMap }
      else
        .panic
    else
      if index ≤ st.newSortRules.buf.length ∧ index + 1 ≤ st.newSortRules.len then
        let r1 := st.newSortRules.appendAt spare index (st.newSortRules.elems.drop (index + 1))
        let outer1 : Slice := if r1.2 then ⟨r1.1.buf, st.newSortRules.len⟩ else st.newSortRules
        match insertRuleWith search spare r1.1 v with
        | .ok r2 =>
          let outer2 : Slice := if r1.2 && r2.2 then ⟨r2.1.buf, outer1.len⟩ else outer1
          .ok { newRuleEntities := st.newRuleEntities.set k v
                newSortRules := outer2
                SortRulesIndexMap := buildIndexMap r2.1.elems }
        | .panic => .panic
        | .spin => .spin
      else
        .panic
  | none =>
    match insertRuleWith search spare st.newSortRules v with
    | .ok r =>
      .ok { newRuleEntities := st.newRuleEntities.set k v
            newSortRules := r.1
            SortRulesIndexMap := buildIndexMap r.1.elems }
    | .panic => .panic
    | .spin => .spin

/-- The loop over the update's rules, in the order given. -/
def mergeLoopWith (search : Search) (spare : Growth) :
    List (String × RuleEntity) → MergeState → Go MergeState
  | [], st => .ok st
  | kv :: rest, st =>
    match mergeStepWith search spare st kv with
    | .ok st1 => mergeLoopWith search spare rest st1
    | .panic => .panic
    | .spin => .spin

/-- Source function `updateIncremental`, with `tool.BinarySearch` a
parameter. The loop over the Go map `kc.RuleEntities` visits its entries in
the order of the association list. -/
def updateIncrementalWith (search : Search) (spare : Growth) (kc : KnowledgeContext)
    (rb : RuleBuilder) : Go RuleBuilder :=
  let st0 : MergeState :=
    { newRuleEntities := rb.Kc.RuleEntities
      newSortRules := ⟨rb.Kc.SortRules, rb.Kc.SortRules.length⟩
      SortRulesIndexMap := rb.Kc.SortRulesIndexMap }
  match mergeLoopWith search spare kc.RuleEntities st0 with
  | .ok st =>
    .ok { rb with Kc :=
      { RuleEntities := st.newRuleEntities
        SortRules := st.newSortRules.elems
        SortRulesIndexMap := st.SortRulesIndexMap } }
  | .panic => .panic
  | .spin => .spin

/-- What spec section 4.2 says of `mid` when some rule has the salience
searched for: it is the first position with equal salience. -/
def IsFirstEqual (arr : List RuleEntity) (salience : Int) (mid : Nat) : Prop :=
  arr.any (fun e => decide (e.Salience = salience)) = true ∧
    mid = arr.findIdx (fun e => decide (e.Salience = salience))

instance (arr : List RuleEntity) (salience : Int) (mid : Nat) :
    Decidable (IsFirstEqual arr salience mid) := by
  unfold IsFirstEqual; infer_instance

/-- What spec section 4.2 says of `low`: it is the first position with
strictly lower salience, the length when there is none. -/
def IsFirstLower (arr : List RuleEntity) (salience : Int) (low : Nat) : Prop :=
  low = arr.findIdx (fun e => decide (e.Salience < salience))

instance (arr : List RuleEntity) (salience : Int) (low : Nat) :
    Decidable (IsFirstLower arr salience low) := by
  unfold IsFirstLower; infer_instance

/-- The loop of a binary search over a sequence in descending order of
salience that returns at the first hit, with the bounds `low` and `high` as Go
`int`s: `mid = (low + high) / 2`; on a hit the result is `(low, mid)`, and
`(low, 0)` when the range is empty. The first argument bounds the number of
iterations. -/
def textbookLoop (arr : List RuleEntity) (salience : Int) : Nat → Int → Int → Nat × Nat
  | 0, low, _ => (low.toNat, 0)
  | fuel + 1, low, high =>
    if low ≤ high then
      match arr[((low + high) / 2).toNat]? with
      | none => (low.toNat, 0)
      | some e =>
        if e.Salience = salience then (low.toNat, ((low + high) / 2).toNat)
        else if salience < e.Salience then
          textbookLoop arr salience fuel ((low + high) / 2 + 1) high
        else textbookLoop arr salience fuel low ((low + high) / 2 - 1)
    else (low.toNat, 0)

/-- A second instance of the search, next to the one modelled from the spec:
binary search that returns at the first hit, which need not be the first
position with equal salience. Every iteration shrinks the range, so the loop
runs at most as often as the sequence is long. -/
def textbookSearch : Search := fun arr salience =>
  textbookLoop arr salience (arr.length + 1) 0 ((arr.length : Int) - 1)

/-- Rule `A2` with salience 5. -/
def ruleA2 : RuleEntity :=
  ⟨"A2", 5, "a2"⟩

/-- Rule `A3` with salience 5. -/
def ruleA3 : RuleEntity :=
  ⟨"A3", 5, "a3"⟩

/-! ## Callers of acquire and release -/

/-- What a caller does to the free lists: acquire an instance, or release the
`i`-th of the instances it holds. -/
inductive PoolOp where
  | acquire : PoolOp
  | release (i : Nat) : PoolOp
  deriving DecidableEq, Repr

/-- The pool together with the instances acquired and not yet released. -/
structure PoolRun where
  gp : GenginePool
  held : List gengineWrapper
  deriving DecidableEq, Repr

/-- One operation of a caller, in the sequential view: `getGengine` hands out
an instance, which is then held (an acquire that finds both lists empty does
not return and changes nothing); `putGengineLocked` takes back an instance
that is held. -/
def PoolRun.step (r : PoolRun) : PoolOp → PoolRun
  | .acquire =>
    match r.gp.getGengine with
    | .ok (gw, gp1) => ⟨gp1, gw :: r.held⟩
    | _ => r
  | .release i =>
    match r.held[i]? with
    | some gw => ⟨r.gp.putGengineLocked gw, r.held.eraseIdx i⟩
    | none => r

/-- The free lists of a run against those of the pool it started from: each
sub-pool, together with the held instances that belong to it, holds what it
held at the start, and each list holds only instances of its own kind. -/
def RunInv (gp0 : GenginePool) (r : PoolRun) : Prop :=
  (r.gp.freeGengines ++ r.held.filter fun w => !w.addition).Perm gp0.freeGengines ∧
  (r.gp.additionGengines ++ r.held.filter fun w => w.addition).Perm gp0.additionGengines ∧
  (∀ w ∈ r.gp.freeGengines, w.addition = false) ∧
  (∀ w ∈ r.gp.additionGengines, w.addition = true)

/-- The visiting order that yields every map in the order it is listed. -/
def listedOrder : Visit := fun _ m => m

/-- Two knowledge contexts hold the same rules in the same priority order up
to the order among rules of equal salience: the same entity under every name,
`SortRules` a rearrangement of one another, and the same sequence of
saliences. -/
def SameUpToTies (K1 K2 : KnowledgeContext) : Prop :=
  (∀ name, K1.RuleEntities.get name = K2.RuleEntities.get name) ∧
  K1.SortRules.Perm K2.SortRules ∧
  K1.SortRules.map RuleEntity.Salience = K2.SortRules.map RuleEntity.Salience

/-- A builder for the examples of the incremental update: "rule S" is the KB
`[S(7)]`, "rule B rule D" holds the two rules `B(5)` and `D(5)`. -/
def tieBuilder : Builder := fun s =>
  if s = "rule S" then .ok (kcOf [ruleS])
  else if s = "rule B rule D" then .ok (kcOf [ruleB, ruleD])
  else .error "grammar"

/-- The pool `NewGenginePool(1, 2, 1, "rule S", nil)`. -/
def tiePool : GenginePool :=
  match NewGenginePool tieBuilder 1 2 SORT_MODEL "rule S" [] with
  | .ok gp => gp
  | .error _ => ⟨[], none, SORT_MODEL, [], [], 0, true, [], 0⟩

/-- A visiting order in which the loop run for instance 1 (run 2 of an update
of the pool) yields the entries in reverse, and every other run as listed. -/
def reversedForInstanceOne : Visit := fun i m =>
  if i = 2 then m.reverse else m

/-- The `SortRulesIndexMap` a call of `updateIncremental` leaves, when it
returns. -/
def indexMapAfter (r : Go RuleBuilder) : Option (GoMap Nat) :=
  match r with
  | .ok rb => some rb.Kc.SortRulesIndexMap
  | _ => none

/-- The rule names, in `SortRules` order, of the authoritative KB and of every
per-instance KB after an update of the pool that returned. -/
def ruleOrders (r : Go (GenginePool × Option Error)) :
    Option (Option (List String) × List (List String)) :=
  match r with
  | .ok (gp, _) =>
    some (gp.ruleBuilder.map (fun rb => rb.Kc.SortRules.map RuleEntity.RuleName),
      gp.rbSlice.map (fun rb => rb.Kc.SortRules.map RuleEntity.RuleName))
  | _ => none

/-! # Properties -/

/-! ## Execute entry points -/

set_option maxRecDepth 100000 in
/-- C1 (code evaluated at the failing input). On the pool
`NewGenginePool(1, 2, em, "rule R", {"x": 7})`, for each of the four models,
`ExecuteRulesWithStopTag("req", 1, "resp", 2, stag)` returns with `resp` still
bound in the data context of the acquired instance (slot 0), next to the host
binding `x`; `ExecuteRules` on the same arguments leaves only `x`. -/
theorem ExecuteRulesWithStopTag_leaves_respName :
    [SORT_MODEL, CONCOURRENT_MODEL, MIX_MODEL, INVERSE_MIX_MODEL].map (fun em =>
      boundAfter ((demoPool em).ExecuteRulesWithStopTag specExecutor
        "req" (some 1) "resp" (some 2) ⟨false⟩) 0) = List.replicate 4 (some ["x", "resp"]) ∧
    [SORT_MODEL, CONCOURRENT_MODEL, MIX_MODEL, INVERSE_MIX_MODEL].map (fun em =>
      boundAfter ((demoPool em).ExecuteRules specExecutor
        "req" (some 1) "resp" (some 2)) 0) = List.replicate 4 (some ["x"]) := by
  decide

theorem clearLoop_ok (n : Nat) : ∀ (i : Nat) (rbs : List RuleBuilder), i + n ≤ rbs.length →
    ∃ rbs1, clearLoop n i rbs = .ok rbs1 := by
  induction n with
  | zero => intro i rbs _; exact ⟨rbs, rfl⟩
  | succ n ih =>
    intro i rbs h
    have hi : i < rbs.length := by omega
    simp only [clearLoop, List.getElem?_eq_getElem hi]
    apply ih
    simp only [List.length_set]
    omega

theorem SetExecModel_clear (gp : GenginePool) (m : Int) :
    (gp.SetExecModel m).1.clear = gp.clear := by
  unfold GenginePool.SetExecModel
  split <;> rfl

theorem foldl_SetExecModel_clear (models : List Int) : ∀ gp : GenginePool,
    (models.foldl (fun p m => (p.SetExecModel m).1) gp).clear = gp.clear := by
  induction models with
  | nil => intro gp; rfl
  | cons m t ih => intro gp; rw [List.foldl_cons, ih, SetExecModel_clear]

theorem execute_of_clear (G : Executor) (gp : GenginePool) (e : ExecuteEntry)
    (h : gp.clear = true) : gp.execute G e = .ok (gp, ExecResult.nothing) := by
  cases e <;>
    simp [GenginePool.execute, GenginePool.ExecuteRules, GenginePool.ExecuteRulesWithMultiInput,
      GenginePool.ExecuteRulesWithStopTag, GenginePool.ExecuteRulesWithMultiInputAndStopTag,
      GenginePool.ExecuteSelectedRulesWithMultiInput,
      GenginePool.ExecuteSelectedRulesWithControlWithMultiInput,
      GenginePool.ExecuteSelectedRulesWithControlAndStopTagWithMultiInput,
      GenginePool.ExecuteSelectedRulesConcurrentWithMultiInput,
      GenginePool.ExecuteSelectedRulesMixModelWithMultiInput,
      GenginePool.ExecuteInverseMixModelWithMultiInput,
      GenginePool.ExecuteSelectedRulesInverseMixModelWithMultiInput,
      GenginePool.ExecuteSelected, h]

/-- C4. After `ClearPoolRules` (which returns whenever `rbSlice` has its `max`
entries), and after any further `SetExecModel` calls, every one of the twelve
execute methods, for every argument list and every executor, returns nil with
the pool exactly as it was: both free lists and every data context unchanged,
and no executor call dispatched. -/
theorem execute_after_ClearPoolRules (G : Executor) (gp : GenginePool) (models : List Int)
    (e : ExecuteEntry) (hlen : gp.max.toNat ≤ gp.rbSlice.length) :
    ∃ gp1, gp.ClearPoolRules = .ok gp1 ∧ gp1.clear = true ∧
      (models.foldl (fun p m => (p.SetExecModel m).1) gp1).execute G e =
        .ok (models.foldl (fun p m => (p.SetExecModel m).1) gp1, ExecResult.nothing) := by
  obtain ⟨rbs1, h1⟩ := clearLoop_ok gp.max.toNat 0 gp.rbSlice (by omega)
  refine ⟨{ gp with ruleBuilder := none, clear := true, rbSlice := rbs1 }, ?_, rfl, ?_⟩
  · simp [GenginePool.ClearPoolRules, h1]
  · apply execute_of_clear
    rw [foldl_SetExecModel_clear]

set_option maxRecDepth 100000 in
/-- C4 at a concrete input: the pool `NewGenginePool(1, 2, 1, "rule R",
{"x": 7})` is cleared, switched to the concurrent model, and
`ExecuteRules("req", 1, "resp", 2)` is called. -/
theorem execute_after_ClearPoolRules_witness :
    (demoPool SORT_MODEL).max.toNat ≤ (demoPool SORT_MODEL).rbSlice.length ∧
    ∃ gp1, (demoPool SORT_MODEL).ClearPoolRules = .ok gp1 ∧ gp1.clear = true ∧
      ([CONCOURRENT_MODEL].foldl (fun p m => (p.SetExecModel m).1) gp1).execute specExecutor
          (.ExecuteRules "req" (some 1) "resp" (some 2)) =
        .ok ([CONCOURRENT_MODEL].foldl (fun p m => (p.SetExecModel m).1) gp1,
          ExecResult.nothing) :=
  ⟨by decide, execute_after_ClearPoolRules specExecutor (demoPool SORT_MODEL)
    [CONCOURRENT_MODEL] (.ExecuteRules "req" (some 1) "resp" (some 2)) (by decide)⟩

/-! ## Construction and full update -/

theorem makeRuleBuilder_error (build : Builder) (ruleStr : String) (apis : GoMap Iface)
    (e : Error) (h : makeRuleBuilder build ruleStr apis = .error e) :
    e.isConfiguration = false := by
  unfold makeRuleBuilder at h
  split at h
  · split at h
    · cases h; rfl
    · cases h
  · cases h

theorem makeRuleBuilders_ok (build : Builder) (ruleStr : String) (apis : GoMap Iface)
    (rb : RuleBuilder) (h : makeRuleBuilder build ruleStr apis = .ok rb) (n : Nat) :
    makeRuleBuilders build ruleStr apis n = .ok (List.replicate n rb) := by
  induction n with
  | zero => rfl
  | succ n ih => simp [makeRuleBuilders, h, ih, List.replicate_succ]

theorem makeRuleBuilders_error (build : Builder) (ruleStr : String) (apis : GoMap Iface)
    (e : Error) (h : makeRuleBuilder build ruleStr apis = .error e) (n : Nat) :
    makeRuleBuilders build ruleStr apis (n + 1) = .error e := by
  simp [makeRuleBuilders, h]

/-- C5. For every pool state and every source that builds to zero rules or
fails to build, `UpdatePooledRules` returns the corresponding error (the one
naming `ClearPoolRules` for zero rules) and the pool is the same as before:
the authoritative rule builder, every entry of `rbSlice` and the cleared flag
included. The empty string is such a source, for every builder. -/
theorem UpdatePooledRules_refuses (build : Builder) (gp : GenginePool) (ruleStr : String)
    (err : Error) (h : refusal build ruleStr gp.apis = some err) :
    gp.UpdatePooledRules build ruleStr = (gp, some err) ∧
    gp.UpdatePooledRules build "" = (gp, some .useClear) := by
  constructor
  · unfold refusal at h
    unfold GenginePool.UpdatePooledRules
    cases hm : makeRuleBuilder build ruleStr gp.apis with
    | error e => simp [hm] at h ⊢; exact h
    | ok rbi =>
      simp only [hm] at h ⊢
      by_cases h0 : rbi.Kc.RuleEntities.length = 0
      · simp [h0] at h ⊢; exact h
      · simp [h0] at h
  · simp [GenginePool.UpdatePooledRules, makeRuleBuilder, KnowledgeContext.empty]

set_option maxRecDepth 100000 in
/-- C5 at concrete inputs: on the pool `NewGenginePool(1, 2, 1, "rule R",
{"x": 7})`, a source without rule blocks is refused with the error naming
`ClearPoolRules`; `refusal` also yields the build error for text that does not
parse. -/
theorem UpdatePooledRules_refuses_witness :
    refusal demoBuilder "// no rule" (demoPool SORT_MODEL).apis = some .useClear ∧
    refusal demoBuilder "rule ?" (demoPool SORT_MODEL).apis = some (.build "grammar") ∧
    ((demoPool SORT_MODEL).UpdatePooledRules demoBuilder "// no rule"
        = (demoPool SORT_MODEL, some .useClear) ∧
      (demoPool SORT_MODEL).UpdatePooledRules demoBuilder ""
        = (demoPool SORT_MODEL, some .useClear)) :=
  ⟨by decide, by decide,
    UpdatePooledRules_refuses demoBuilder (demoPool SORT_MODEL) "// no rule" .useClear
      (by decide)⟩

/-- C6. `NewGenginePool(min, max, model, source, bindings)` fails with a
configuration error exactly when `min <= 0`, or `max <= min`, or `model` is
none of 1, 2, 3, 4. For every other `(min, max, model)` it fails with the build
error if the source fails to build, and otherwise returns a pool with `min`
core instances, `max - min` overflow instances and `max` per-instance rule
builders. -/
theorem NewGenginePool_configuration (build : Builder) (poolMinLen poolMaxLen em : Int)
    (rulesStr : String) (apiOuter : GoMap Iface) :
    ((∃ e, NewGenginePool build poolMinLen poolMaxLen em rulesStr apiOuter = .error e ∧
        e.isConfiguration = true) ↔
      (poolMinLen ≤ 0 ∨ poolMaxLen ≤ poolMinLen ∨ ¬ (em = 1 ∨ em = 2 ∨ em = 3 ∨ em = 4))) ∧
    (¬ (poolMinLen ≤ 0 ∨ poolMaxLen ≤ poolMinLen ∨ ¬ (em = 1 ∨ em = 2 ∨ em = 3 ∨ em = 4)) →
      match makeRuleBuilder build rulesStr apiOuter with
      | .error e => NewGenginePool build poolMinLen poolMaxLen em rulesStr apiOuter = .error e
      | .ok _ =>
        ∃ gp, NewGenginePool build poolMinLen poolMaxLen em rulesStr apiOuter = .ok gp ∧
          (gp.freeGengines.length : Int) = poolMinLen ∧
          (gp.additionGengines.length : Int) = poolMaxLen - poolMinLen ∧
          (gp.rbSlice.length : Int) = poolMaxLen) := by
  have hvalid : ¬ (poolMinLen ≤ 0 ∨ poolMaxLen ≤ poolMinLen ∨
        ¬ (em = 1 ∨ em = 2 ∨ em = 3 ∨ em = 4)) →
      match makeRuleBuilder build rulesStr apiOuter with
      | .error e => NewGenginePool build poolMinLen poolMaxLen em rulesStr apiOuter = .error e
      | .ok _ =>
        ∃ gp, NewGenginePool build poolMinLen poolMaxLen em rulesStr apiOuter = .ok gp ∧
          (gp.freeGengines.length : Int) = poolMinLen ∧
          (gp.additionGengines.length : Int) = poolMaxLen - poolMinLen ∧
          (gp.rbSlice.length : Int) = poolMaxLen := by
    intro hc
    have h1 : 0 < poolMinLen ∧ poolMinLen < poolMaxLen := by omega
    have h2 : ¬ (em ≠ SORT_MODEL ∧ em ≠ CONCOURRENT_MODEL ∧ em ≠ MIX_MODEL ∧
        em ≠ INVERSE_MIX_MODEL) := by
      simp only [SORT_MODEL, CONCOURRENT_MODEL, MIX_MODEL, INVERSE_MIX_MODEL]; omega
    cases hm : makeRuleBuilder build rulesStr apiOuter with
    | error e =>
      simp only [NewGenginePool, h1, h2, hm]
      simp
    | ok rb =>
      simp only [NewGenginePool, h1, h2, hm,
        makeRuleBuilders_ok build rulesStr apiOuter rb hm]
      simp
      omega
  refine ⟨⟨?_, ?_⟩, hvalid⟩
  · rintro ⟨e, he, hcfg⟩
    by_contra hc
    have := hvalid hc
    cases hm : makeRuleBuilder build rulesStr apiOuter with
    | error e1 =>
      rw [hm] at this
      simp only at this
      rw [this] at he
      cases he
      rw [makeRuleBuilder_error build rulesStr apiOuter e hm] at hcfg
      cases hcfg
    | ok rb =>
      rw [hm] at this
      obtain ⟨gp, hgp, _⟩ := this
      rw [hgp] at he
      cases he
  · intro hc
    by_cases h1 : 0 < poolMinLen ∧ poolMinLen < poolMaxLen
    · have h2 : em ≠ SORT_MODEL ∧ em ≠ CONCOURRENT_MODEL ∧ em ≠ MIX_MODEL ∧
          em ≠ INVERSE_MIX_MODEL := by
        simp only [SORT_MODEL, CONCOURRENT_MODEL, MIX_MODEL, INVERSE_MIX_MODEL]; omega
      exact ⟨.execModel em, by simp [NewGenginePool, h1, h2], rfl⟩
    · exact ⟨.poolLength, by simp [NewGenginePool, h1], rfl⟩

/-! ## Stop-tag dispatch -/

@[simp] theorem Go.ok_bind {α β : Type} (a : α) (f : α → Go β) : (Go.ok a >>= f) = f a := rfl

theorem getGengine_fields (gp gp1 : GenginePool) (gw : gengineWrapper)
    (h : gp.getGengine = .ok (gw, gp1)) :
    gp1.rbSlice = gp.rbSlice ∧ gp1.execModel = gp.execModel := by
  unfold GenginePool.getGengine at h
  split at h
  · cases h; exact ⟨rfl, rfl⟩
  · split at h
    · cases h; exact ⟨rfl, rfl⟩
    · cases h

theorem dcAdd_fields (gp : GenginePool) (slot : Nat) (key : String) (obj : Iface) :
    (gp.dcAdd slot key obj).rbSlice.length = gp.rbSlice.length ∧
    (gp.dcAdd slot key obj).execModel = gp.execModel := by
  simp [GenginePool.dcAdd]

theorem prepare_ok (gp : GenginePool) (reqName : String) (req : Iface) (respName : String)
    (resp : Iface) (h : gp.acquirable = true) :
    ∃ gw gp1, gp.prepare reqName req respName resp = .ok (gw, gp1) ∧
      gw.rulebuilder = some gw.tag ∧ gw.tag < gp1.rbSlice.length ∧
      gp1.execModel = gp.execModel := by
  unfold GenginePool.acquirable at h
  cases hg : gp.getGengine with
  | panic => simp [hg] at h
  | spin => simp [hg] at h
  | ok r =>
    obtain ⟨gw, gp0⟩ := r
    simp only [hg, decide_eq_true_eq] at h
    obtain ⟨hrb, hem⟩ := getGengine_fields gp gp0 gw hg
    have hlt : gw.tag < gp0.rbSlice.length := by rw [hrb]; exact h
    simp only [GenginePool.prepare, hg, List.getElem?_eq_getElem hlt]
    refine ⟨_, _, rfl, rfl, ?_, ?_⟩
    · split <;> split <;> simp [dcAdd_fields, hlt]
    · split <;> split <;> simp [dcAdd_fields, hem]

theorem foldl_dcAdd_fields (slot : Nat) (data : GoMap Iface) : ∀ gp : GenginePool,
    (data.foldl (fun gp kv => if kv.1 ≠ "" ∧ kv.2 ≠ none then gp.dcAdd slot kv.1 kv.2 else gp)
      gp).rbSlice.length = gp.rbSlice.length ∧
    (data.foldl (fun gp kv => if kv.1 ≠ "" ∧ kv.2 ≠ none then gp.dcAdd slot kv.1 kv.2 else gp)
      gp).execModel = gp.execModel := by
  induction data with
  | nil => intro gp; exact ⟨rfl, rfl⟩
  | cons kv t ih =>
    intro gp
    rw [List.foldl_cons]
    obtain ⟨h1, h2⟩ := ih (if kv.1 ≠ "" ∧ kv.2 ≠ none then gp.dcAdd slot kv.1 kv.2 else gp)
    rw [h1, h2]
    split <;> simp [dcAdd_fields]

theorem prepareWithMultiInput_ok (gp : GenginePool) (data : GoMap Iface)
    (h : gp.acquirable = true) :
    ∃ gw gp1, gp.prepareWithMultiInput data = .ok (gw, gp1) ∧
      gw.rulebuilder = some gw.tag ∧ gw.tag < gp1.rbSlice.length ∧
      gp1.execModel = gp.execModel := by
  unfold GenginePool.acquirable at h
  cases hg : gp.getGengine with
  | panic => simp [hg] at h
  | spin => simp [hg] at h
  | ok r =>
    obtain ⟨gw, gp0⟩ := r
    simp only [hg, decide_eq_true_eq] at h
    obtain ⟨hrb, hem⟩ := getGengine_fields gp gp0 gw hg
    have hlt : gw.tag < gp0.rbSlice.length := by rw [hrb]; exact h
    simp only [GenginePool.prepareWithMultiInput, hg, List.getElem?_eq_getElem hlt]
    refine ⟨_, _, rfl, rfl, ?_, ?_⟩
    · rw [(foldl_dcAdd_fields gw.tag data gp0).1]; exact hlt
    · rw [(foldl_dcAdd_fields gw.tag data gp0).2]; exact hem

theorem invoke_ok (G : Executor) (gp : GenginePool) (gw : gengineWrapper) (c : ExecutorCall)
    (h1 : gw.rulebuilder = some gw.tag) (h2 : gw.tag < gp.rbSlice.length) :
    ∃ gp1 rb, gp.invoke G gw (some c) = .ok (gp1, ⟨(G c rb).err, some c, (G c rb).evaluated⟩) := by
  simp only [GenginePool.invoke, h1, List.getElem?_eq_getElem h2]
  exact ⟨_, _, rfl⟩

theorem ExecuteRulesWithStopTag_ok (G : Executor) (gp : GenginePool) (reqName : String)
    (req : Iface) (respName : String) (resp : Iface) (stag : Stag) (c : ExecutorCall)
    (hclear : gp.clear = false) (hacq : gp.acquirable = true)
    (hc : stopTagDispatch gp.execModel stag = some c) :
    ∃ gw gp1 rb, gp.prepare reqName req respName resp = .ok (gw, gp1) ∧
      gp1.rbSlice[gw.tag]? = some rb ∧
      ∃ gp2, gp.ExecuteRulesWithStopTag G reqName req respName resp stag =
        .ok (gp2, ⟨(G c rb).err, some c, (G c rb).evaluated⟩) := by
  obtain ⟨gw, gp1, hp, h1, h2, h3⟩ := prepare_ok gp reqName req respName resp hacq
  refine ⟨gw, gp1, gp1.rbSlice[gw.tag], hp, List.getElem?_eq_getElem h2, ?_⟩
  unfold stopTagDispatch at hc
  rw [← h3] at hc
  simp only [GenginePool.ExecuteRulesWithStopTag, hclear, hp, Go.ok_bind, hc,
    GenginePool.invoke, h1, List.getElem?_eq_getElem h2]
  exact ⟨_, rfl⟩

theorem ExecuteRulesWithMultiInputAndStopTag_ok (G : Executor) (gp : GenginePool)
    (data : GoMap Iface) (stag : Stag) (c : ExecutorCall)
    (hclear : gp.clear = false) (hacq : gp.acquirable = true)
    (hc : stopTagDispatch gp.execModel stag = some c) :
    ∃ gw gp1 rb, gp.prepareWithMultiInput data = .ok (gw, gp1) ∧
      gp1.rbSlice[gw.tag]? = some rb ∧
      ∃ gp2, gp.ExecuteRulesWithMultiInputAndStopTag G data stag =
        .ok (gp2, ⟨(G c rb).err, some c, (G c rb).evaluated⟩) := by
  obtain ⟨gw, gp1, hp, h1, h2, h3⟩ := prepareWithMultiInput_ok gp data hacq
  refine ⟨gw, gp1, gp1.rbSlice[gw.tag], hp, List.getElem?_eq_getElem h2, ?_⟩
  unfold stopTagDispatch at hc
  rw [← h3] at hc
  simp only [GenginePool.ExecuteRulesWithMultiInputAndStopTag, hclear, hp, Go.ok_bind, hc,
    GenginePool.invoke, h1, List.getElem?_eq_getElem h2]
  exact ⟨_, rfl⟩

theorem ExecuteRulesWithStopTag_stag_irrelevant (G : Executor) (gp : GenginePool)
    (reqName : String) (req : Iface) (respName : String) (resp : Iface) (stag stag2 : Stag)
    (hacq : gp.acquirable = true)
    (hm : gp.execModel = CONCOURRENT_MODEL ∨ gp.execModel = INVERSE_MIX_MODEL) :
    gp.ExecuteRulesWithStopTag G reqName req respName resp stag2 =
      gp.ExecuteRulesWithStopTag G reqName req respName resp stag := by
  obtain ⟨gw, gp1, hp, -, -, h3⟩ := prepare_ok gp reqName req respName resp hacq
  rcases hm with hm | hm <;>
    simp [GenginePool.ExecuteRulesWithStopTag, hp, h3, hm, SORT_MODEL, CONCOURRENT_MODEL,
      MIX_MODEL, INVERSE_MIX_MODEL]

theorem ExecuteRulesWithMultiInputAndStopTag_stag_irrelevant (G : Executor)
    (gp : GenginePool) (data : GoMap Iface) (stag stag2 : Stag)
    (hacq : gp.acquirable = true)
    (hm : gp.execModel = CONCOURRENT_MODEL ∨ gp.execModel = INVERSE_MIX_MODEL) :
    gp.ExecuteRulesWithMultiInputAndStopTag G data stag2 =
      gp.ExecuteRulesWithMultiInputAndStopTag G data stag := by
  obtain ⟨gw, gp1, hp, -, -, h3⟩ := prepareWithMultiInput_ok gp data hacq
  rcases hm with hm | hm <;>
    simp [GenginePool.ExecuteRulesWithMultiInputAndStopTag, hp, h3, hm, SORT_MODEL,
      CONCOURRENT_MODEL, MIX_MODEL, INVERSE_MIX_MODEL]

/-- C3 (amended). On a pool that is not cleared and has an instance to
acquire, with one of the four models set, `ExecuteRulesWithStopTag` and
`ExecuteRulesWithMultiInputAndStopTag` return for every stop-tag, set or not,
and every executor. Under Sort and Mix the stop-tag is handed to the executor
dispatched (`ExecuteWithStopTagDirect(rb, true, stag)`,
`ExecuteMixModelWithStopTagDirect(rb, stag)`); under Concurrent and Inverse-Mix
the executor dispatched is `ExecuteConcurrent(rb)`, respectively
`ExecuteInverseMixModel(rb)`, which takes no stop-tag, and the call does
exactly what it does with any other stop-tag. In all four models the pool makes
no stop-tag check of its own: the rules evaluated and the error returned are
those of the dispatched executor on the rule builder of the acquired
instance. -/
theorem stopTag_handed_under_sort_and_mix (G : Executor) (gp : GenginePool)
    (reqName : String) (req : Iface) (respName : String) (resp : Iface) (data : GoMap Iface)
    (stag : Stag) (hclear : gp.clear = false) (hacq : gp.acquirable = true)
    (hmodel : gp.execModel = SORT_MODEL ∨ gp.execModel = CONCOURRENT_MODEL ∨
      gp.execModel = MIX_MODEL ∨ gp.execModel = INVERSE_MIX_MODEL) :
    ∃ c : ExecutorCall,
      (gp.execModel = SORT_MODEL → c = .ExecuteWithStopTagDirect true stag) ∧
      (gp.execModel = MIX_MODEL → c = .ExecuteMixModelWithStopTagDirect stag) ∧
      (gp.execModel = CONCOURRENT_MODEL → c = .ExecuteConcurrent) ∧
      (gp.execModel = INVERSE_MIX_MODEL → c = .ExecuteInverseMixModel) ∧
      (gp.execModel = SORT_MODEL ∨ gp.execModel = MIX_MODEL → c.stag = some stag) ∧
      (gp.execModel = CONCOURRENT_MODEL ∨ gp.execModel = INVERSE_MIX_MODEL → c.stag = none) ∧
      (∃ gw gpA rb gp1, gp.prepare reqName req respName resp = .ok (gw, gpA) ∧
        gpA.rbSlice[gw.tag]? = some rb ∧
        gp.ExecuteRulesWithStopTag G reqName req respName resp stag =
          .ok (gp1, ⟨(G c rb).err, some c, (G c rb).evaluated⟩)) ∧
      (∃ gw gpB rb gp2, gp.prepareWithMultiInput data = .ok (gw, gpB) ∧
        gpB.rbSlice[gw.tag]? = some rb ∧
        gp.ExecuteRulesWithMultiInputAndStopTag G data stag =
          .ok (gp2, ⟨(G c rb).err, some c, (G c rb).evaluated⟩)) ∧
      (gp.execModel = CONCOURRENT_MODEL ∨ gp.execModel = INVERSE_MIX_MODEL →
        ∀ stag2,
          gp.ExecuteRulesWithStopTag G reqName req respName resp stag2 =
            gp.ExecuteRulesWithStopTag G reqName req respName resp stag ∧
          gp.ExecuteRulesWithMultiInputAndStopTag G data stag2 =
            gp.ExecuteRulesWithMultiInputAndStopTag G data stag) := by
  have key : ∀ c, stopTagDispatch gp.execModel stag = some c →
      (∃ gw gpA rb gp1, gp.prepare reqName req respName resp = .ok (gw, gpA) ∧
        gpA.rbSlice[gw.tag]? = some rb ∧
        gp.ExecuteRulesWithStopTag G reqName req respName resp stag =
          .ok (gp1, ⟨(G c rb).err, some c, (G c rb).evaluated⟩)) ∧
      (∃ gw gpB rb gp2, gp.prepareWithMultiInput data = .ok (gw, gpB) ∧
        gpB.rbSlice[gw.tag]? = some rb ∧
        gp.ExecuteRulesWithMultiInputAndStopTag G data stag =
          .ok (gp2, ⟨(G c rb).err, some c, (G c rb).evaluated⟩)) := by
    intro c hc
    obtain ⟨gw1, gpA, rb1, p1, l1, gp1, e1⟩ :=
      ExecuteRulesWithStopTag_ok G gp reqName req respName resp stag c hclear hacq hc
    obtain ⟨gw2, gpB, rb2, p2, l2, gp2, e2⟩ :=
      ExecuteRulesWithMultiInputAndStopTag_ok G gp data stag c hclear hacq hc
    exact ⟨⟨gw1, gpA, rb1, gp1, p1, l1, e1⟩, ⟨gw2, gpB, rb2, gp2, p2, l2, e2⟩⟩
  have irr : gp.execModel = CONCOURRENT_MODEL ∨ gp.execModel = INVERSE_MIX_MODEL →
      ∀ stag2,
        gp.ExecuteRulesWithStopTag G reqName req respName resp stag2 =
          gp.ExecuteRulesWithStopTag G reqName req respName resp stag ∧
        gp.ExecuteRulesWithMultiInputAndStopTag G data stag2 =
          gp.ExecuteRulesWithMultiInputAndStopTag G data stag := fun hm stag2 =>
    ⟨ExecuteRulesWithStopTag_stag_irrelevant G gp reqName req respName resp stag stag2 hacq hm,
      ExecuteRulesWithMultiInputAndStopTag_stag_irrelevant G gp data stag stag2 hacq hm⟩
  rcases hmodel with hm | hm | hm | hm
  · obtain ⟨k1, k2⟩ := key (.ExecuteWithStopTagDirect true stag)
      (by simp [stopTagDispatch, hm])
    refine ⟨.ExecuteWithStopTagDirect true stag, fun _ => rfl, ?_, ?_, ?_, fun _ => rfl, ?_,
      k1, k2, irr⟩ <;>
      simp [hm, SORT_MODEL, CONCOURRENT_MODEL, MIX_MODEL, INVERSE_MIX_MODEL]
  · obtain ⟨k1, k2⟩ := key .ExecuteConcurrent
      (by simp [stopTagDispatch, hm, SORT_MODEL, CONCOURRENT_MODEL])
    refine ⟨.ExecuteConcurrent, ?_, ?_, fun _ => rfl, ?_, ?_, fun _ => rfl, k1, k2, irr⟩ <;>
      simp [hm, SORT_MODEL, CONCOURRENT_MODEL, MIX_MODEL, INVERSE_MIX_MODEL]
  · obtain ⟨k1, k2⟩ := key (.ExecuteMixModelWithStopTagDirect stag)
      (by simp [stopTagDispatch, hm, SORT_MODEL, CONCOURRENT_MODEL, MIX_MODEL])
    refine ⟨.ExecuteMixModelWithStopTagDirect stag, ?_, fun _ => rfl, ?_, ?_, fun _ => rfl, ?_,
      k1, k2, irr⟩ <;>
      simp [hm, SORT_MODEL, CONCOURRENT_MODEL, MIX_MODEL, INVERSE_MIX_MODEL]
  · obtain ⟨k1, k2⟩ := key .ExecuteInverseMixModel
      (by simp [stopTagDispatch, hm, SORT_MODEL, CONCOURRENT_MODEL, MIX_MODEL,
        INVERSE_MIX_MODEL])
    refine ⟨.ExecuteInverseMixModel, ?_, ?_, ?_, fun _ => rfl, ?_, fun _ => rfl, k1, k2, irr⟩ <;>
      simp [hm, SORT_MODEL, CONCOURRENT_MODEL, MIX_MODEL, INVERSE_MIX_MODEL]

set_option maxRecDepth 100000 in
/-- C3 (amended) at a concrete input: the pool `NewGenginePool(1, 2, 1,
"rule R", {"x": 7})` under the Sort model and a stop-tag that is set. The
executor dispatched is `ExecuteWithStopTagDirect(rb, true, stag)`, and what is
evaluated is what that executor evaluates: the rule `R` with the executor that
never looks at the stop-tag. -/
theorem stopTag_handed_under_sort_and_mix_witness :
    (demoPool SORT_MODEL).clear = false ∧ (demoPool SORT_MODEL).acquirable = true ∧
    resultOf ((demoPool SORT_MODEL).ExecuteRulesWithStopTag eagerExecutor
      "req" (some 1) "resp" (some 2) ⟨true⟩) =
        some ⟨none, some (.ExecuteWithStopTagDirect true ⟨true⟩), ["R"]⟩ ∧
    ∃ c : ExecutorCall,
      c = .ExecuteWithStopTagDirect true ⟨true⟩ ∧
      (∃ gw gpA rb gp1,
        (demoPool SORT_MODEL).prepare "req" (some 1) "resp" (some 2) = .ok (gw, gpA) ∧
        gpA.rbSlice[gw.tag]? = some rb ∧
        (demoPool SORT_MODEL).ExecuteRulesWithStopTag eagerExecutor
            "req" (some 1) "resp" (some 2) ⟨true⟩ =
          .ok (gp1, ⟨(eagerExecutor c rb).err, some c, (eagerExecutor c rb).evaluated⟩)) ∧
      (∃ gw gpB rb gp2,
        (demoPool SORT_MODEL).prepareWithMultiInput [("req", some 1)] = .ok (gw, gpB) ∧
        gpB.rbSlice[gw.tag]? = some rb ∧
        (demoPool SORT_MODEL).ExecuteRulesWithMultiInputAndStopTag eagerExecutor
            [("req", some 1)] ⟨true⟩ =
          .ok (gp2, ⟨(eagerExecutor c rb).err, some c, (eagerExecutor c rb).evaluated⟩)) := by
  refine ⟨by decide, by decide, by decide, ?_⟩
  obtain ⟨c, hs, -, -, -, -, -, k1, k2, -⟩ :=
    stopTag_handed_under_sort_and_mix eagerExecutor (demoPool SORT_MODEL)
      "req" (some 1) "resp" (some 2) [("req", some 1)] ⟨true⟩ (by decide) (by decide)
      (Or.inl (by decide))
  exact ⟨c, hs (by decide), k1, k2⟩

set_option maxRecDepth 100000 in
/-- C3 (counterexample). On the pool `NewGenginePool(1, 2, em, "rule R",
{"x": 7})` with `em` Concurrent or Inverse-Mix, both stop-tag entry points,
called with a stop-tag that is already set, dispatch an executor call that
carries no stop-tag, and under the executor modelled from the spec the rule
`R` is evaluated. -/
theorem stopTag_not_handed_under_concurrent :
    resultOf ((demoPool CONCOURRENT_MODEL).ExecuteRulesWithStopTag specExecutor
      "req" (some 1) "resp" (some 2) ⟨true⟩) = some ⟨none, some .ExecuteConcurrent, ["R"]⟩ ∧
    resultOf ((demoPool CONCOURRENT_MODEL).ExecuteRulesWithMultiInputAndStopTag specExecutor
      [("req", some 1)] ⟨true⟩) = some ⟨none, some .ExecuteConcurrent, ["R"]⟩ ∧
    resultOf ((demoPool INVERSE_MIX_MODEL).ExecuteRulesWithStopTag specExecutor
      "req" (some 1) "resp" (some 2) ⟨true⟩) =
        some ⟨none, some .ExecuteInverseMixModel, ["R"]⟩ ∧
    resultOf ((demoPool INVERSE_MIX_MODEL).ExecuteRulesWithMultiInputAndStopTag specExecutor
      [("req", some 1)] ⟨true⟩) = some ⟨none, some .ExecuteInverseMixModel, ["R"]⟩ ∧
    ExecutorCall.stag .ExecuteConcurrent = none ∧
    ExecutorCall.stag .ExecuteInverseMixModel = none := by
  decide

/-! ## Go maps -/

theorem GoMap.get_set_self {V : Type} (m : GoMap V) (k : String) (v : V) :
    (m.set k v).get k = some v := by
  induction m with
  | nil => simp [GoMap.set, GoMap.get]
  | cons p t ih =>
    obtain ⟨k1, v1⟩ := p
    by_cases h : k1 = k
    · simp [GoMap.set, GoMap.get, h]
    · simp [GoMap.set, GoMap.get, h, ih]

theorem GoMap.get_set_ne {V : Type} (m : GoMap V) (k k2 : String) (v : V) (hne : k2 ≠ k) :
    (m.set k v).get k2 = m.get k2 := by
  induction m with
  | nil => simp [GoMap.set, GoMap.get, Ne.symm hne]
  | cons p t ih =>
    obtain ⟨k1, v1⟩ := p
    by_cases h : k1 = k
    · subst h
      simp [GoMap.set, GoMap.get, Ne.symm hne]
    · by_cases h2 : k1 = k2
      · subst h2
        simp [GoMap.set, GoMap.get, h]
      · simp [GoMap.set, GoMap.get, h, h2, ih]

theorem GoMap.get_eq_none_iff {V : Type} (m : GoMap V) (k : String) :
    m.get k = none ↔ k ∉ m.keys := by
  induction m with
  | nil => simp [GoMap.get, GoMap.keys]
  | cons p t ih =>
    obtain ⟨k1, v1⟩ := p
    by_cases h : k1 = k
    · simp [GoMap.get, GoMap.keys, h]
    · simp only [GoMap.keys] at ih
      simp [GoMap.get, GoMap.keys, h, ih, Ne.symm h]

theorem GoMap.mem_keys_of_get {V : Type} (m : GoMap V) (k : String) (v : V)
    (h : m.get k = some v) : k ∈ m.keys := by
  by_contra hc
  rw [← GoMap.get_eq_none_iff] at hc
  rw [hc] at h
  cases h

theorem GoMap.mem_of_get {V : Type} (m : GoMap V) (k : String) (v : V)
    (h : m.get k = some v) : (k, v) ∈ m := by
  induction m with
  | nil => simp [GoMap.get] at h
  | cons p t ih =>
    obtain ⟨k1, v1⟩ := p
    by_cases h1 : k1 = k
    · simp [GoMap.get, h1] at h
      simp [h1, h]
    · simp [GoMap.get, h1] at h
      exact List.mem_cons_of_mem _ (ih h)

theorem GoMap.get_of_mem {V : Type} (m : GoMap V) (k : String) (v : V)
    (hnd : m.keys.Nodup) (h : (k, v) ∈ m) : m.get k = some v := by
  induction m with
  | nil => cases h
  | cons p t ih =>
    obtain ⟨k1, v1⟩ := p
    simp only [GoMap.keys, List.map_cons, List.nodup_cons] at hnd
    rcases List.mem_cons.1 h with heq | hin
    · cases heq
      simp [GoMap.get]
    · have hne : k1 ≠ k := by
        intro hk
        apply hnd.1
        rw [hk]
        exact List.mem_map.2 ⟨(k, v), hin, rfl⟩
      simp only [GoMap.get, hne, if_false]
      exact ih hnd.2 hin

theorem GoMap.keys_set_of_mem {V : Type} (m : GoMap V) (k : String) (v : V)
    (h : k ∈ m.keys) : (m.set k v).keys = m.keys := by
  induction m with
  | nil => simp [GoMap.keys] at h
  | cons p t ih =>
    obtain ⟨k1, v1⟩ := p
    by_cases h1 : k1 = k
    · simp [GoMap.set, GoMap.keys, h1]
    · have : k ∈ GoMap.keys t := by
        simp only [GoMap.keys, List.map_cons, List.mem_cons] at h
        rcases h with h | h
        · exact absurd h.symm h1
        · exact h
      simp only [GoMap.keys] at ih
      simp [GoMap.set, GoMap.keys, h1, ih this]

theorem GoMap.keys_set_of_not_mem {V : Type} (m : GoMap V) (k : String) (v : V)
    (h : k ∉ m.keys) : (m.set k v).keys = m.keys ++ [k] := by
  induction m with
  | nil => simp [GoMap.set, GoMap.keys]
  | cons p t ih =>
    obtain ⟨k1, v1⟩ := p
    simp only [GoMap.keys, List.map_cons, List.mem_cons, not_or] at h
    simp only [GoMap.keys] at ih
    simp [GoMap.set, GoMap.keys, Ne.symm h.1, ih h.2]

theorem GoMap.mem_keys_set {V : Type} (m : GoMap V) (k k2 : String) (v : V) :
    k2 ∈ (m.set k v).keys ↔ k2 = k ∨ k2 ∈ m.keys := by
  by_cases h : k ∈ m.keys
  · rw [GoMap.keys_set_of_mem m k v h]
    constructor
    · exact Or.inr
    · rintro (h1 | h1)
      · rw [h1]; exact h
      · exact h1
  · rw [GoMap.keys_set_of_not_mem m k v h]
    simp [or_comm]

theorem GoMap.values_eq_map_get {V : Type} [Inhabited V] (m : GoMap V) (hnd : m.keys.Nodup) :
    m.values = m.keys.map fun k => (m.get k).getD default := by
  simp only [GoMap.values, GoMap.keys, List.map_map]
  apply List.map_congr_left
  intro p hp
  simp [GoMap.get_of_mem m p.1 p.2 hnd hp]


/-! ## The rebuilt index map -/

theorem indexMapFrom_get_of_not_mem (l : List RuleEntity) : ∀ (m : GoMap Nat) (i : Nat)
    (n : String), n ∉ l.map RuleEntity.RuleName → (indexMapFrom m i l).get n = m.get n := by
  induction l with
  | nil => intro m i n _; rfl
  | cons e t ih =>
    intro m i n hn
    simp only [List.map_cons, List.mem_cons, not_or] at hn
    simp only [indexMapFrom]
    rw [ih _ _ _ hn.2, GoMap.get_set_ne _ _ _ _ hn.1]

theorem indexMapFrom_get (l : List RuleEntity) : ∀ (m : GoMap Nat) (i j : Nat)
    (e : RuleEntity), (l.map RuleEntity.RuleName).Nodup → l[j]? = some e →
    (indexMapFrom m i l).get e.RuleName = some (i + j) := by
  induction l with
  | nil => intro m i j e _ h; simp at h
  | cons x t ih =>
    intro m i j e hnd h
    simp only [List.map_cons, List.nodup_cons] at hnd
    simp only [indexMapFrom]
    cases j with
    | zero =>
      simp only [List.getElem?_cons_zero, Option.some.injEq] at h
      subst h
      rw [indexMapFrom_get_of_not_mem t _ _ _ hnd.1, GoMap.get_set_self]
      rfl
    | succ j =>
      simp only [List.getElem?_cons_succ] at h
      rw [ih _ (i + 1) j e hnd.2 h]
      congr 1
      omega

theorem buildIndexMap_get (l : List RuleEntity) (j : Nat) (e : RuleEntity)
    (hnd : (l.map RuleEntity.RuleName).Nodup) (h : l[j]? = some e) :
    (buildIndexMap l).get e.RuleName = some j := by
  have := indexMapFrom_get l [] 0 j e hnd h
  simpa [buildIndexMap] using this

/-! ## The insertion block on sequences -/

theorem insertPos_le (arr : List RuleEntity) (s : Int) : insertPos arr s ≤ arr.length := by
  unfold insertPos BinarySearch
  simp only
  by_cases hany : arr.any (fun e => decide (e.Salience = s)) = true
  · simp only [hany, if_true]
    split <;> exact List.findIdx_le_length _
  · simp only [hany]
    simpa using List.findIdx_le_length _

theorem insertAtPos_perm (arr : List RuleEntity) (v : RuleEntity) :
    (insertAtPos arr v).Perm (v :: arr) := by
  unfold insertAtPos
  refine List.perm_middle.trans ?_
  rw [List.take_append_drop]

theorem mem_insertAtPos (arr : List RuleEntity) (v e : RuleEntity) :
    e ∈ insertAtPos arr v ↔ e = v ∨ e ∈ arr := by
  rw [(insertAtPos_perm arr v).mem_iff, List.mem_cons]

theorem insertAtPos_filter (arr : List RuleEntity) (v : RuleEntity) (p : RuleEntity → Bool)
    (hp : p v = false) : (insertAtPos arr v).filter p = arr.filter p := by
  unfold insertAtPos
  rw [List.filter_append, List.filter_cons, hp]
  simp only [Bool.false_eq_true, if_false]
  rw [← List.filter_append, List.take_append_drop]

theorem insertAtPos_map_perm (arr : List RuleEntity) (v : RuleEntity) :
    ((insertAtPos arr v).map RuleEntity.RuleName).Perm
      (v.RuleName :: arr.map RuleEntity.RuleName) := by
  have := (insertAtPos_perm arr v).map RuleEntity.RuleName
  simpa using this

theorem take_findIdx_not (p : RuleEntity → Bool) (l : List RuleEntity) :
    ∀ a ∈ l.take (l.findIdx p), p a = false := by
  induction l with
  | nil => intro a h; simp at h
  | cons x t ih =>
    intro a h
    rw [List.findIdx_cons] at h
    cases hx : p x with
    | true => simp [hx] at h
    | false =>
      simp only [hx, cond_false, List.take_succ_cons, List.mem_cons] at h
      rcases h with h | h
      · rw [h]; exact hx
      · exact ih a h

theorem drop_findIdx_head (p : RuleEntity → Bool) (l : List RuleEntity) :
    l.drop (l.findIdx p) = [] ∨ ∃ hd tl, l.drop (l.findIdx p) = hd :: tl ∧ p hd = true := by
  induction l with
  | nil => left; rfl
  | cons x t ih =>
    rw [List.findIdx_cons]
    cases hx : p x with
    | true => right; exact ⟨x, t, by simp, hx⟩
    | false => simpa using ih

theorem findIdx_any (p : RuleEntity → Bool) (l : List RuleEntity) (h : l.any p = true) :
    ∃ hd tl, l.drop (l.findIdx p) = hd :: tl ∧ p hd = true := by
  rcases drop_findIdx_head p l with h0 | h1
  · exfalso
    have hlen : l.findIdx p < l.length := by
      rw [List.findIdx_lt_length]
      simpa [List.any_eq_true] using h
    have : (l.drop (l.findIdx p)).length = 0 := by rw [h0]; rfl
    rw [List.length_drop] at this
    omega
  · exact h1

theorem sorted_insertAtPos (arr : List RuleEntity) (v : RuleEntity)
    (h : SortedBySalience arr) : SortedBySalience (insertAtPos arr v) := by
  unfold SortedBySalience at h ⊢
  have hsplit : ∀ n, arr.take n ++ arr.drop n = arr := fun n => List.take_append_drop n arr
  have key : ∀ n, (∀ a ∈ arr.take n, v.Salience ≤ a.Salience) →
      (∀ b ∈ arr.drop n, b.Salience ≤ v.Salience) →
      List.Pairwise (fun a b => b.Salience ≤ a.Salience) (arr.take n ++ v :: arr.drop n) := by
    intro n h1 h2
    have hs := h
    rw [← hsplit n, List.pairwise_append] at hs
    rw [List.pairwise_append, List.pairwise_cons]
    refine ⟨hs.1, ⟨h2, hs.2.1⟩, ?_⟩
    intro a ha b hb
    rcases List.mem_cons.1 hb with hb | hb
    · rw [hb]; exact h1 a ha
    · exact hs.2.2 a ha b hb
  unfold insertAtPos insertPos BinarySearch
  simp only
  have lowCase : List.Pairwise (fun a b => b.Salience ≤ a.Salience)
      (arr.take (arr.findIdx fun e => decide (e.Salience < v.Salience)) ++
        v :: arr.drop (arr.findIdx fun e => decide (e.Salience < v.Salience))) := by
    apply key
    · intro a ha
      have := take_findIdx_not (fun e => decide (e.Salience < v.Salience)) arr a ha
      simp only [decide_eq_false_iff_not, not_lt] at this
      exact this
    · intro b hb
      rcases drop_findIdx_head (fun e => decide (e.Salience < v.Salience)) arr with h0 | h1
      · rw [h0] at hb; cases hb
      · obtain ⟨hd, tl, hdrop, hhd⟩ := h1
        simp only [decide_eq_true_eq] at hhd
        have hs := h
        rw [← hsplit (arr.findIdx fun e => decide (e.Salience < v.Salience)), hdrop,
          List.pairwise_append, List.pairwise_cons] at hs
        rw [hdrop] at hb
        rcases List.mem_cons.1 hb with hb | hb
        · rw [hb]; exact le_of_lt hhd
        · exact le_trans (hs.2.1.1 b hb) (le_of_lt hhd)
  by_cases hany : arr.any (fun e => decide (e.Salience = v.Salience)) = true
  · simp only [hany, if_true]
    split
    · exact lowCase
    · obtain ⟨hd, tl, hdrop, hhd⟩ :=
        findIdx_any (fun e => decide (e.Salience = v.Salience)) arr hany
      simp only [decide_eq_true_eq] at hhd
      have hs := h
      rw [← hsplit (arr.findIdx fun e => decide (e.Salience = v.Salience)), hdrop,
        List.pairwise_append, List.pairwise_cons] at hs
      apply key
      · intro a ha
        rw [← hhd]
        exact hs.2.2 a ha hd (List.mem_cons_self _ _)
      · intro b hb
        rw [hdrop] at hb
        rcases List.mem_cons.1 hb with hb | hb
        · rw [hb, hhd]
        · rw [← hhd]; exact hs.2.1.1 b hb
  · simp only [hany]
    simpa using lowCase


/-! ## One iteration, on sequences -/

theorem set_at_length (A B : List RuleEntity) (x v : RuleEntity) :
    (A ++ x :: B).set A.length v = A ++ v :: B := by
  induction A with
  | nil => rfl
  | cons a t ih => simp [ih]

theorem eraseIdx_at_length (A B : List RuleEntity) (x : RuleEntity) :
    (A ++ x :: B).eraseIdx A.length = A ++ B := by
  induction A with
  | nil => rfl
  | cons a t ih => simp [ih]

theorem mergeStepL_entities (K : KnowledgeContext) (kv : String × RuleEntity) :
    (mergeStepL K kv).RuleEntities = K.RuleEntities.set kv.1 kv.2 := by
  unfold mergeStepL
  split
  · split <;> rfl
  · rfl

theorem Inv.names_nodup {K : KnowledgeContext} (h : Inv K) :
    (K.SortRules.map RuleEntity.RuleName).Nodup :=
  (h.2.2.1.nodup_iff).2 h.1

theorem Inv.locate {K : KnowledgeContext} (h : Inv K) (k : String) (vm : RuleEntity)
    (hk : K.RuleEntities.get k = some vm) :
    ∃ A B, K.SortRules = A ++ vm :: B ∧ A.length = (K.SortRulesIndexMap.get k).getD 0 := by
  obtain ⟨_, _, hperm, hmem, hidx⟩ := h
  have hin : k ∈ K.SortRules.map RuleEntity.RuleName :=
    (hperm.mem_iff).2 (GoMap.mem_keys_of_get _ _ _ hk)
  obtain ⟨e, he, hname⟩ := List.mem_map.1 hin
  have hevm : e = vm := by
    have := hmem e he
    rw [hname, hk] at this
    exact (Option.some.inj this).symm
  subst hevm
  obtain ⟨i, hi⟩ := List.mem_iff_getElem?.1 he
  have hI := hidx i e.RuleName (by rw [List.getElem?_map, hi]; rfl)
  rw [hname] at hI
  have hlt : i < K.SortRules.length := by
    rcases Nat.lt_or_ge i K.SortRules.length with h1 | h1
    · exact h1
    · rw [List.getElem?_eq_none h1] at hi; cases hi
  refine ⟨K.SortRules.take i, K.SortRules.drop (i + 1), ?_, ?_⟩
  · have h1 : K.SortRules.drop i = e :: K.SortRules.drop (i + 1) := by
      rw [List.drop_eq_getElem_cons hlt]
      congr 1
      rw [List.getElem?_eq_getElem hlt] at hi
      exact Option.some.inj hi
    rw [← h1, List.take_append_drop]
  · rw [hI, List.length_take]
    simp only [Option.getD_some]
    omega

/-- The three ways an iteration can go, for a consistent state and a rule
stored under its own name. -/
theorem mergeStepL_cases (K : KnowledgeContext) (kv : String × RuleEntity) (h : Inv K)
    (hkv : kv.2.RuleName = kv.1) :
    (∃ vm A B, K.RuleEntities.get kv.1 = some vm ∧ K.SortRules = A ++ vm :: B ∧
        kv.2.Salience = vm.Salience ∧ (mergeStepL K kv).SortRules = A ++ kv.2 :: B ∧
        (mergeStepL K kv).SortRulesIndexMap = K.SortRulesIndexMap) ∨
    (∃ vm A B, K.RuleEntities.get kv.1 = some vm ∧ K.SortRules = A ++ vm :: B ∧
        kv.2.Salience ≠ vm.Salience ∧
        (mergeStepL K kv).SortRules = insertAtPos (A ++ B) kv.2 ∧
        (mergeStepL K kv).SortRulesIndexMap = buildIndexMap (insertAtPos (A ++ B) kv.2)) ∨
    (K.RuleEntities.get kv.1 = none ∧
        (mergeStepL K kv).SortRules = insertAtPos K.SortRules kv.2 ∧
        (mergeStepL K kv).SortRulesIndexMap = buildIndexMap (insertAtPos K.SortRules kv.2)) := by
  cases hg : K.RuleEntities.get kv.1 with
  | none =>
    right; right
    simp [mergeStepL, hg]
  | some vm =>
    obtain ⟨A, B, hS, hlen⟩ := h.locate kv.1 vm hg
    rw [← hkv] at hlen
    by_cases hs : kv.2.Salience = vm.Salience
    · left
      refine ⟨vm, A, B, rfl, hS, hs, ?_, ?_⟩
      · simp only [mergeStepL, hg, hs, if_true, ← hlen]
        rw [hS, set_at_length]
      · simp only [mergeStepL, hg, hs, if_true]
    · right; left
      refine ⟨vm, A, B, rfl, hS, hs, ?_, ?_⟩
      · simp only [mergeStepL, hg, hs, if_false, ← hlen]
        rw [hS, eraseIdx_at_length]
      · simp only [mergeStepL, hg, hs, if_false, ← hlen]
        rw [hS, eraseIdx_at_length]


theorem buildIndexMap_names (l : List RuleEntity)
    (hnd : (l.map RuleEntity.RuleName).Nodup) (i : Nat) (n : String)
    (h : (l.map RuleEntity.RuleName)[i]? = some n) : (buildIndexMap l).get n = some i := by
  rw [List.getElem?_map] at h
  cases he : l[i]? with
  | none => rw [he] at h; cases h
  | some e =>
    rw [he] at h
    simp only [Option.map_some', Option.some.injEq] at h
    rw [← h]
    exact buildIndexMap_get l i e hnd he

theorem Inv_mergeStepL (K : KnowledgeContext) (kv : String × RuleEntity) (h : Inv K)
    (hkv : kv.2.RuleName = kv.1) : Inv (mergeStepL K kv) := by
  have hE := mergeStepL_entities K kv
  have hcases := mergeStepL_cases K kv h hkv
  have hnames := h.names_nodup
  obtain ⟨hnd, hkey, hperm, hmem, hidx⟩ := h
  -- the two map components
  have hnd1 : (mergeStepL K kv).RuleEntities.keys.Nodup := by
    rw [hE]
    by_cases hin : kv.1 ∈ K.RuleEntities.keys
    · rw [GoMap.keys_set_of_mem _ _ _ hin]; exact hnd
    · rw [GoMap.keys_set_of_not_mem _ _ _ hin]
      exact List.Nodup.append hnd (List.nodup_singleton _) (by simpa using hin)
  have hkey1 : ∀ k e, (mergeStepL K kv).RuleEntities.get k = some e → e.RuleName = k := by
    intro k e hg
    rw [hE] at hg
    by_cases hk : k = kv.1
    · rw [hk, GoMap.get_set_self] at hg
      cases hg
      rw [hk]; exact hkv
    · rw [GoMap.get_set_ne _ _ _ _ hk] at hg
      exact hkey k e hg
  have hget_other : ∀ e : RuleEntity, e.RuleName ≠ kv.1 →
      K.RuleEntities.get e.RuleName = some e →
      (mergeStepL K kv).RuleEntities.get e.RuleName = some e := by
    intro e hne hg
    rw [hE, GoMap.get_set_ne _ _ _ _ hne]; exact hg
  have hget_self : (mergeStepL K kv).RuleEntities.get kv.2.RuleName = some kv.2 := by
    rw [hE, hkv, GoMap.get_set_self]
  rcases hcases with ⟨vm, A, B, hg, hS, _, hS1, hI1⟩ | ⟨vm, A, B, hg, hS, _, hS1, hI1⟩ |
    ⟨hg, hS1, hI1⟩
  · -- same salience: the rule is replaced in place
    have hvm : vm.RuleName = kv.1 := hkey _ _ hg
    have hkeys : (mergeStepL K kv).RuleEntities.keys = K.RuleEntities.keys := by
      rw [hE]; exact GoMap.keys_set_of_mem _ _ _ (GoMap.mem_keys_of_get _ _ _ hg)
    have hmap : (mergeStepL K kv).SortRules.map RuleEntity.RuleName =
        K.SortRules.map RuleEntity.RuleName := by
      rw [hS1, hS]; simp [hkv, hvm]
    rw [hS] at hnames hmem
    simp only [List.map_append, List.map_cons, hvm] at hnames
    have hAB : ∀ e, e ∈ A ∨ e ∈ B → e.RuleName ≠ kv.1 := by
      intro e he hname
      rw [List.nodup_append] at hnames
      rcases he with he | he
      · exact hnames.2.2 (List.mem_map.2 ⟨e, he, hname⟩) (List.mem_cons_self _ _)
      · exact (List.nodup_cons.1 hnames.2.1).1 (List.mem_map.2 ⟨e, he, hname⟩)
    refine ⟨hnd1, hkey1, ?_, ?_, ?_⟩
    · rw [hmap, hkeys]; exact hperm
    · intro e he
      rw [hS1] at he
      simp only [List.mem_append, List.mem_cons] at he
      rcases he with he | he | he
      · exact hget_other e (hAB e (Or.inl he)) (hmem e (by simp [he]))
      · rw [he]; exact hget_self
      · exact hget_other e (hAB e (Or.inr he)) (hmem e (by simp [he]))
    · intro i n hn
      rw [hmap] at hn
      rw [hI1]; exact hidx i n hn
  · -- different salience: removed, then inserted again
    have hvm : vm.RuleName = kv.1 := hkey _ _ hg
    have hkeys : (mergeStepL K kv).RuleEntities.keys = K.RuleEntities.keys := by
      rw [hE]; exact GoMap.keys_set_of_mem _ _ _ (GoMap.mem_keys_of_get _ _ _ hg)
    have hp1 : ((mergeStepL K kv).SortRules.map RuleEntity.RuleName).Perm
        K.RuleEntities.keys := by
      rw [hS1]
      refine (insertAtPos_map_perm _ _).trans ?_
      refine List.Perm.trans ?_ hperm
      rw [hS, hkv]
      simp only [List.map_append, List.map_cons, hvm]
      exact List.perm_middle.symm
    rw [hS] at hnames hmem
    simp only [List.map_append, List.map_cons, hvm] at hnames
    have hAB : ∀ e, e ∈ A ∨ e ∈ B → e.RuleName ≠ kv.1 := by
      intro e he hname
      rw [List.nodup_append] at hnames
      rcases he with he | he
      · exact hnames.2.2 (List.mem_map.2 ⟨e, he, hname⟩) (List.mem_cons_self _ _)
      · exact (List.nodup_cons.1 hnames.2.1).1 (List.mem_map.2 ⟨e, he, hname⟩)
    refine ⟨hnd1, hkey1, ?_, ?_, ?_⟩
    · rw [hkeys]; exact hp1
    · intro e he
      rw [hS1, mem_insertAtPos] at he
      simp only [List.mem_append] at he
      rcases he with he | he | he
      · rw [he]; exact hget_self
      · exact hget_other e (hAB e (Or.inl he)) (hmem e (by simp [he]))
      · exact hget_other e (hAB e (Or.inr he)) (hmem e (by simp [he]))
    · intro i n hn
      rw [hI1]
      rw [hS1] at hn hp1
      exact buildIndexMap_names _ ((hp1.nodup_iff).2 hnd) i n hn
  · -- a new rule
    have hnot : kv.1 ∉ K.RuleEntities.keys := (GoMap.get_eq_none_iff _ _).1 hg
    have hkeys : (mergeStepL K kv).RuleEntities.keys = K.RuleEntities.keys ++ [kv.1] := by
      rw [hE]; exact GoMap.keys_set_of_not_mem _ _ _ hnot
    have hp1 : ((mergeStepL K kv).SortRules.map RuleEntity.RuleName).Perm
        (K.RuleEntities.keys ++ [kv.1]) := by
      rw [hS1]
      refine (insertAtPos_map_perm _ _).trans ?_
      rw [hkv]
      refine List.Perm.trans (List.Perm.cons _ hperm) ?_
      exact (List.perm_append_singleton _ _).symm
    refine ⟨hnd1, hkey1, ?_, ?_, ?_⟩
    · rw [hkeys]; exact hp1
    · intro e he
      rw [hS1, mem_insertAtPos] at he
      rcases he with he | he
      · rw [he]; exact hget_self
      · refine hget_other e ?_ (hmem e he)
        intro hname
        apply hnot
        rw [← hname]
        exact (hperm.mem_iff).1 (List.mem_map.2 ⟨e, he, rfl⟩)
    · intro i n hn
      rw [hI1]
      rw [hS1] at hn hp1
      rw [← hkeys] at hp1
      exact buildIndexMap_names _ ((hp1.nodup_iff).2 hnd1) i n hn

theorem sorted_mergeStepL (K : KnowledgeContext) (kv : String × RuleEntity) (h : Inv K)
    (hkv : kv.2.RuleName = kv.1) (hs : SortedBySalience K.SortRules) :
    SortedBySalience (mergeStepL K kv).SortRules := by
  rcases mergeStepL_cases K kv h hkv with ⟨vm, A, B, _, hS, hsal, hS1, _⟩ |
    ⟨vm, A, B, _, hS, _, hS1, _⟩ | ⟨_, hS1, _⟩
  · rw [hS1]
    rw [hS] at hs
    unfold SortedBySalience at hs ⊢
    have e1 : (A ++ kv.2 :: B).map RuleEntity.Salience =
        (A ++ vm :: B).map RuleEntity.Salience := by simp [hsal]
    have := (List.pairwise_map (f := RuleEntity.Salience) (R := fun a b => b ≤ a)).2 hs
    rw [← e1] at this
    exact (List.pairwise_map (f := RuleEntity.Salience) (R := fun a b => b ≤ a)).1 this
  · rw [hS1]
    apply sorted_insertAtPos
    rw [hS] at hs
    unfold SortedBySalience at hs ⊢
    exact hs.sublist (List.Sublist.append (List.Sublist.refl A) (List.sublist_cons_self vm B))
  · rw [hS1]
    exact sorted_insertAtPos _ _ hs

theorem filter_mergeStepL (K : KnowledgeContext) (kv : String × RuleEntity) (h : Inv K)
    (hkv : kv.2.RuleName = kv.1) (p : RuleEntity → Bool)
    (hp : ∀ e : RuleEntity, e.RuleName = kv.1 → p e = false) :
    (mergeStepL K kv).SortRules.filter p = K.SortRules.filter p := by
  have hv : p kv.2 = false := hp kv.2 hkv
  rcases mergeStepL_cases K kv h hkv with ⟨vm, A, B, hg, hS, _, hS1, _⟩ |
    ⟨vm, A, B, hg, hS, _, hS1, _⟩ | ⟨_, hS1, _⟩
  · have hvm : p vm = false := hp vm (h.2.1 _ _ hg)
    rw [hS1, hS]
    simp [List.filter_cons, hv, hvm]
  · have hvm : p vm = false := hp vm (h.2.1 _ _ hg)
    rw [hS1, hS, insertAtPos_filter _ _ _ hv]
    simp [List.filter_cons, hvm]
  · rw [hS1, insertAtPos_filter _ _ _ hv]


/-! ## The slices of the source against sequences -/

theorem Slice.length_elems (s : Slice) (h : s.len ≤ s.buf.length) : s.elems.length = s.len := by
  simp [Slice.elems, h]

theorem Slice.take_elems (s : Slice) (n : Nat) (h : n ≤ s.len) :
    s.elems.take n = s.buf.take n := by
  simp [Slice.elems, List.take_take, h]

theorem appendAt_spec (spare : Growth) (s : Slice) (n : Nat) (xs : List RuleEntity)
    (hn : n ≤ s.buf.length) :
    (s.appendAt spare n xs).1.elems = s.buf.take n ++ xs ∧
    (s.appendAt spare n xs).1.len = n + xs.length ∧
    (s.appendAt spare n xs).1.len ≤ (s.appendAt spare n xs).1.buf.length ∧
    (n + xs.length ≤ s.buf.length →
      (s.appendAt spare n xs).2 = true ∧
      (s.appendAt spare n xs).1.buf.length = s.buf.length) := by
  have hl : (s.buf.take n ++ xs).length = n + xs.length := by
    simp [List.length_take, hn]
  unfold Slice.appendAt
  split
  · rename_i hfit
    refine ⟨?_, rfl, ?_, fun _ => ⟨rfl, ?_⟩⟩
    · simp only [Slice.elems]
      exact List.take_left' hl
    · simp only [List.length_append, List.length_take, List.length_drop]
      omega
    · simp only [List.length_append, List.length_take, List.length_drop]
      omega
  · rename_i hfit
    refine ⟨?_, rfl, ?_, fun h => absurd h hfit⟩
    · simp only [Slice.elems]
      exact List.take_left' hl
    · simp only [List.length_append, List.length_take, List.length_replicate]
      omega

theorem insertRule_spec (spare : Growth) (s : Slice) (v : RuleEntity)
    (h : s.len ≤ s.buf.length) :
    ∃ r, insertRule spare s v = .ok r ∧ r.1.elems = insertAtPos s.elems v ∧
      r.1.len = s.len + 1 ∧ r.1.len ≤ r.1.buf.length ∧
      (s.len + 1 ≤ s.buf.length → r.2 = true ∧ r.1.buf.length = s.buf.length) := by
  have hlen := s.length_elems h
  have hpos : insertPos s.elems v.Salience ≤ s.len := by
    rw [← hlen]; exact insertPos_le _ _
  have hpos2 : insertPos s.elems v.Salience ≤ s.buf.length := le_trans hpos h
  obtain ⟨a1, a2, a3, a4⟩ := appendAt_spec spare s (insertPos s.elems v.Salience)
    (v :: s.elems.drop (insertPos s.elems v.Salience)) hpos2
  have hxs : insertPos s.elems v.Salience +
      (v :: s.elems.drop (insertPos s.elems v.Salience)).length = s.len + 1 := by
    simp only [List.length_cons, List.length_drop, hlen]
    omega
  simp only [insertRule, hpos, hpos2, and_self, if_true]
  refine ⟨_, rfl, ?_, ?_, a3, ?_⟩
  · rw [a1, ← s.take_elems _ hpos]
    rfl
  · rw [a2, hxs]
  · intro hfit
    exact a4 (by rw [hxs]; exact hfit)

theorem mergeStep_refines (spare : Growth) (st : MergeState) (kv : String × RuleEntity)
    (hcap : st.newSortRules.len ≤ st.newSortRules.buf.length) (hinv : Inv st.toKc)
    (hkv : kv.2.RuleName = kv.1) :
    ∃ st1, mergeStep spare st kv = .ok st1 ∧ st1.toKc = mergeStepL st.toKc kv ∧
      st1.newSortRules.len ≤ st1.newSortRules.buf.length := by
  have hlen := st.newSortRules.length_elems hcap
  cases hg : st.newRuleEntities.get kv.1 with
  | none =>
    obtain ⟨r, hr, he, _, hc, _⟩ := insertRule_spec spare st.newSortRules kv.2 hcap
    simp only [mergeStep, hg, hr]
    refine ⟨_, rfl, ?_, ?_⟩
    · simp only [MergeState.toKc, mergeStepL, hg, he]
    · exact hc
  | some vm =>
    obtain ⟨A, B, hS, hA⟩ := hinv.locate kv.1 vm hg
    rw [← hkv] at hA
    simp only [MergeState.toKc] at hS hA
    have hidx : (st.SortRulesIndexMap.get kv.2.RuleName).getD 0 < st.newSortRules.len := by
      rw [← hA, ← hlen, hS]
      simp
    by_cases hs : kv.2.Salience = vm.Salience
    · simp only [mergeStep, hg, hs, hidx, if_true]
      refine ⟨_, rfl, ?_, ?_⟩
      · simp only [MergeState.toKc, mergeStepL, hg, hs, if_true, Slice.elems, List.set_take]
      · simp only [List.length_set]; exact hcap
    · have hb1 : (st.SortRulesIndexMap.get kv.2.RuleName).getD 0 ≤ st.newSortRules.buf.length :=
        le_trans (le_of_lt hidx) hcap
      obtain ⟨a1, a2, a3, a4⟩ := appendAt_spec spare st.newSortRules
        ((st.SortRulesIndexMap.get kv.2.RuleName).getD 0)
        (st.newSortRules.elems.drop ((st.SortRulesIndexMap.get kv.2.RuleName).getD 0 + 1)) hb1
      have hxs : (st.SortRulesIndexMap.get kv.2.RuleName).getD 0 +
          (st.newSortRules.elems.drop
            ((st.SortRulesIndexMap.get kv.2.RuleName).getD 0 + 1)).length + 1 =
          st.newSortRules.len := by
        rw [List.length_drop, hlen]; omega
      obtain ⟨b1, b2⟩ := a4 (by omega)
      obtain ⟨r2, hr2, c1, c2, c3, c4⟩ := insertRule_spec spare _ kv.2 a3
      rw [a2] at c2 c4
      obtain ⟨d1, d2⟩ := c4 (by rw [b2]; omega)
      have herase : (st.newSortRules.appendAt spare
          ((st.SortRulesIndexMap.get kv.2.RuleName).getD 0)
          (st.newSortRules.elems.drop
            ((st.SortRulesIndexMap.get kv.2.RuleName).getD 0 + 1))).1.elems =
          st.newSortRules.elems.eraseIdx ((st.SortRulesIndexMap.get kv.2.RuleName).getD 0) := by
        rw [a1, List.eraseIdx_eq_take_drop_succ, st.newSortRules.take_elems _ (le_of_lt hidx)]
      have hlen2 : r2.1.len = st.newSortRules.len := by rw [c2]; omega
      simp only [mergeStep, hg, hs, hb1, if_false, and_self, if_true, hr2,
        show (st.SortRulesIndexMap.get kv.2.RuleName).getD 0 + 1 ≤ st.newSortRules.len from hidx]
      refine ⟨_, rfl, ?_, ?_⟩
      · simp only [MergeState.toKc, mergeStepL, hg, hs, if_false, b1, d1, Bool.and_self,
          if_true]
        rw [← herase, ← c1]
        simp only [Slice.elems, hlen2]
      · simp only [b1, d1, Bool.and_self, if_true]
        rw [d2, b2]; exact hcap

theorem mergeLoop_refines (spare : Growth) (l : List (String × RuleEntity)) :
    ∀ st : MergeState, st.newSortRules.len ≤ st.newSortRules.buf.length → Inv st.toKc →
      (∀ p ∈ l, p.2.RuleName = p.1) →
      ∃ st1, mergeLoop spare l st = .ok st1 ∧ st1.toKc = l.foldl mergeStepL st.toKc := by
  induction l with
  | nil => intro st _ _ _; exact ⟨st, rfl, rfl⟩
  | cons kv t ih =>
    intro st hcap hinv hl
    obtain ⟨st1, h1, h2, h3⟩ :=
      mergeStep_refines spare st kv hcap hinv (hl kv (List.mem_cons_self _ _))
    have hinv1 : Inv st1.toKc := by
      rw [h2]; exact Inv_mergeStepL _ _ hinv (hl kv (List.mem_cons_self _ _))
    obtain ⟨st2, h4, h5⟩ := ih st1 h3 hinv1 (fun p hp => hl p (List.mem_cons_of_mem _ hp))
    refine ⟨st2, ?_, ?_⟩
    · simp only [mergeLoop, h1, h4]
    · rw [h5, h2, List.foldl_cons]

theorem updateIncremental_eq (spare : Growth) (kc : KnowledgeContext) (rb : RuleBuilder)
    (hinv : Inv rb.Kc) (hkc : ∀ p ∈ kc.RuleEntities, p.2.RuleName = p.1) :
    updateIncremental spare kc rb =
      .ok { rb with Kc := kc.RuleEntities.foldl mergeStepL rb.Kc } := by
  have h0 : (MergeState.mk rb.Kc.RuleEntities ⟨rb.Kc.SortRules, rb.Kc.SortRules.length⟩
      rb.Kc.SortRulesIndexMap).toKc = rb.Kc := by
    simp [MergeState.toKc, Slice.elems]
  obtain ⟨st1, h1, h2⟩ := mergeLoop_refines spare kc.RuleEntities
    (MergeState.mk rb.Kc.RuleEntities ⟨rb.Kc.SortRules, rb.Kc.SortRules.length⟩
      rb.Kc.SortRulesIndexMap) (le_refl _) (by rw [h0]; exact hinv) hkc
  rw [h0] at h2
  simp only [updateIncremental, h1]
  rw [← h2]
  rfl


/-! ## The merge as a whole -/

theorem Inv_of_Consistent (K : KnowledgeContext) (h : K.Consistent) : Inv K := by
  obtain ⟨⟨hnd, hkey⟩, hperm, hidx⟩ := h
  have hkeys : K.RuleEntities.values.map RuleEntity.RuleName = K.RuleEntities.keys := by
    simp only [GoMap.values, GoMap.keys, List.map_map]
    apply List.map_congr_left
    intro p hp
    exact hkey p hp
  have hnames : (K.SortRules.map RuleEntity.RuleName).Perm K.RuleEntities.keys := by
    rw [← hkeys]; exact hperm.map _
  have hnn : (K.SortRules.map RuleEntity.RuleName).Nodup := (hnames.nodup_iff).2 hnd
  refine ⟨hnd, ?_, hnames, ?_, ?_⟩
  · intro k e hg
    exact hkey (k, e) (GoMap.mem_of_get _ _ _ hg)
  · intro e he
    have : e ∈ K.RuleEntities.values := (hperm.mem_iff).1 he
    obtain ⟨p, hp, hpe⟩ := List.mem_map.1 this
    have h1 := hkey p hp
    have h2 := GoMap.get_of_mem _ p.1 p.2 hnd hp
    rw [← hpe, h1]; exact h2
  · intro i n hn
    have hin : n ∈ K.RuleEntities.keys :=
      (hnames.mem_iff).1 (List.getElem?_mem hn)
    have := hidx n hin
    cases hI : K.SortRulesIndexMap.get n with
    | none => rw [hI] at this; cases this
    | some j =>
      rw [hI] at this
      simp only [Option.some_bind] at this
      rw [← List.getElem?_map] at this
      have hi : i < (K.SortRules.map RuleEntity.RuleName).length := by
        rcases Nat.lt_or_ge i (K.SortRules.map RuleEntity.RuleName).length with h1 | h1
        · exact h1
        · rw [List.getElem?_eq_none h1] at hn; cases hn
      have hj : j < (K.SortRules.map RuleEntity.RuleName).length := by
        rcases Nat.lt_or_ge j (K.SortRules.map RuleEntity.RuleName).length with h1 | h1
        · exact h1
        · rw [List.getElem?_eq_none h1] at this; cases this
      rw [List.getElem?_eq_getElem hi] at hn
      rw [List.getElem?_eq_getElem hj] at this
      have e1 := Option.some.inj hn
      have e2 := Option.some.inj this
      have := (List.Nodup.getElem_inj_iff hnn).1 (e2.trans e1.symm)
      rw [this]

theorem Consistent_of_Inv (K : KnowledgeContext) (h : Inv K) : K.Consistent := by
  obtain ⟨hnd, hkey, hperm, hmem, hidx⟩ := h
  refine ⟨⟨hnd, ?_⟩, ?_, ?_⟩
  · intro p hp
    exact hkey p.1 p.2 (GoMap.get_of_mem _ p.1 p.2 hnd hp)
  · rw [GoMap.values_eq_map_get _ hnd]
    have h1 := hperm.map fun k => (K.RuleEntities.get k).getD default
    rw [List.map_map] at h1
    have h2 : K.SortRules.map ((fun k => (K.RuleEntities.get k).getD default) ∘
        RuleEntity.RuleName) = K.SortRules := by
      conv_rhs => rw [← List.map_id K.SortRules]
      apply List.map_congr_left
      intro e he
      simp [hmem e he]
    rw [h2] at h1
    exact h1
  · intro name hname
    have hin : name ∈ K.SortRules.map RuleEntity.RuleName := (hperm.mem_iff).2 hname
    obtain ⟨i, hi⟩ := List.mem_iff_getElem?.1 hin
    rw [hidx i name hi]
    simp only [Option.some_bind]
    rw [← List.getElem?_map]
    exact hi

theorem Inv_foldl (l : List (String × RuleEntity)) : ∀ K : KnowledgeContext, Inv K →
    (∀ p ∈ l, p.2.RuleName = p.1) → Inv (l.foldl mergeStepL K) := by
  induction l with
  | nil => intro K h _; exact h
  | cons kv t ih =>
    intro K h hl
    rw [List.foldl_cons]
    exact ih _ (Inv_mergeStepL K kv h (hl kv (List.mem_cons_self _ _)))
      (fun p hp => hl p (List.mem_cons_of_mem _ hp))

theorem sorted_foldl (l : List (String × RuleEntity)) : ∀ K : KnowledgeContext, Inv K →
    (∀ p ∈ l, p.2.RuleName = p.1) → SortedBySalience K.SortRules →
    SortedBySalience (l.foldl mergeStepL K).SortRules := by
  induction l with
  | nil => intro K _ _ hs; exact hs
  | cons kv t ih =>
    intro K h hl hs
    rw [List.foldl_cons]
    have hkv := hl kv (List.mem_cons_self _ _)
    exact ih _ (Inv_mergeStepL K kv h hkv) (fun p hp => hl p (List.mem_cons_of_mem _ hp))
      (sorted_mergeStepL K kv h hkv hs)

theorem filter_foldl (p : RuleEntity → Bool) (l : List (String × RuleEntity)) :
    ∀ K : KnowledgeContext, Inv K → (∀ q ∈ l, q.2.RuleName = q.1) →
    (∀ e : RuleEntity, e.RuleName ∈ GoMap.keys l → p e = false) →
    (l.foldl mergeStepL K).SortRules.filter p = K.SortRules.filter p := by
  induction l with
  | nil => intro K _ _ _; rfl
  | cons kv t ih =>
    intro K h hl hp
    rw [List.foldl_cons]
    have hkv := hl kv (List.mem_cons_self _ _)
    rw [ih _ (Inv_mergeStepL K kv h hkv) (fun q hq => hl q (List.mem_cons_of_mem _ hq))
      (fun e he => hp e (by simp only [GoMap.keys, List.map_cons, List.mem_cons]
                            exact Or.inr he))]
    exact filter_mergeStepL K kv h hkv p
      (fun e he => hp e (by simp [GoMap.keys, he]))

theorem entities_foldl (l : List (String × RuleEntity)) : ∀ K : KnowledgeContext,
    (l.foldl mergeStepL K).RuleEntities =
      l.foldl (fun E q => GoMap.set E q.1 q.2) K.RuleEntities := by
  induction l with
  | nil => intro K; rfl
  | cons kv t ih =>
    intro K
    rw [List.foldl_cons, List.foldl_cons, ih, mergeStepL_entities]

theorem foldl_set_keys (l : List (String × RuleEntity)) : ∀ (E : GoMap RuleEntity)
    (name : String), name ∈ (l.foldl (fun E q => GoMap.set E q.1 q.2) E).keys ↔
      name ∈ E.keys ∨ name ∈ GoMap.keys l := by
  induction l with
  | nil => intro E name; simp [GoMap.keys]
  | cons kv t ih =>
    intro E name
    rw [List.foldl_cons, ih, GoMap.mem_keys_set]
    simp only [GoMap.keys, List.map_cons, List.mem_cons]
    tauto

theorem foldl_set_get_of_not_mem (l : List (String × RuleEntity)) :
    ∀ (E : GoMap RuleEntity) (name : String), name ∉ GoMap.keys l →
      (l.foldl (fun E q => GoMap.set E q.1 q.2) E).get name = E.get name := by
  induction l with
  | nil => intro E name _; rfl
  | cons kv t ih =>
    intro E name hn
    simp only [GoMap.keys, List.map_cons, List.mem_cons, not_or] at hn
    rw [List.foldl_cons, ih _ _ hn.2, GoMap.get_set_ne _ _ _ _ hn.1]

theorem foldl_set_get_of_mem (l : List (String × RuleEntity)) :
    ∀ (E : GoMap RuleEntity), (GoMap.keys l).Nodup → ∀ q ∈ l,
      (l.foldl (fun E q => GoMap.set E q.1 q.2) E).get q.1 = some q.2 := by
  induction l with
  | nil => intro E _ q hq; cases hq
  | cons kv t ih =>
    intro E hnd q hq
    simp only [GoMap.keys, List.map_cons, List.nodup_cons] at hnd
    rw [List.foldl_cons]
    rcases List.mem_cons.1 hq with hq | hq
    · rw [hq, foldl_set_get_of_not_mem t _ _ hnd.1, GoMap.get_set_self]
    · exact ih _ hnd.2 q hq

/-- C7. `updateIncremental` preserves the mutual consistency of the three KB
structures. For every growth policy of `append`, every rule builder whose KB
is consistent and every update (a Go map of rules keyed by name, visited in any
order), `updateIncremental(kc, rb)` returns, and afterwards `SortRules` holds
every entity of `RuleEntities` exactly once and nothing else, the two have the
same length, and `SortRules[SortRulesIndexMap[name]].RuleName == name` for
every name of `RuleEntities`. Replacements with a different salience and
updates mixing replacements with additions are included. -/
theorem updateIncremental_consistent (spare : Growth) (kc : KnowledgeContext)
    (rb : RuleBuilder) (hrb : rb.Kc.Consistent) (hkc : KeyedByName kc.RuleEntities) :
    ∃ rb1, updateIncremental spare kc rb = .ok rb1 ∧ rb1.Kc.Consistent ∧
      rb1.Kc.SortRules.length = rb1.Kc.RuleEntities.length := by
  have hinv := Inv_of_Consistent _ hrb
  refine ⟨_, updateIncremental_eq spare kc rb hinv hkc.2, ?_, ?_⟩
  · exact Consistent_of_Inv _ (Inv_foldl _ _ hinv hkc.2)
  · have := (Consistent_of_Inv _ (Inv_foldl _ _ hinv hkc.2)).2.1.length_eq
    simpa [GoMap.values] using this

/-- C8. `updateIncremental` preserves priority order. For every growth policy
of `append`, every rule builder whose KB is consistent and whose `SortRules` is
non-increasing in `Salience`, and every update, `updateIncremental(kc, rb)`
returns and the resulting `SortRules` is non-increasing in `Salience`. -/
theorem updateIncremental_sorted (spare : Growth) (kc : KnowledgeContext)
    (rb : RuleBuilder) (hrb : rb.Kc.Consistent) (hkc : KeyedByName kc.RuleEntities)
    (hs : SortedBySalience rb.Kc.SortRules) :
    ∃ rb1, updateIncremental spare kc rb = .ok rb1 ∧ SortedBySalience rb1.Kc.SortRules := by
  have hinv := Inv_of_Consistent _ hrb
  exact ⟨_, updateIncremental_eq spare kc rb hinv hkc.2, sorted_foldl _ _ hinv hkc.2 hs⟩

/-- C9. Incremental merge is a stable override by name. For every growth
policy of `append`, every rule builder whose KB is consistent and every update,
`updateIncremental(kc, rb)` returns and afterwards: the key set of
`RuleEntities` is the union of the old key set and the update's; every name of
the update maps to the update's entity; every other name maps to what it
mapped to before; and the rules whose names are not in the update are in
`SortRules` in the same relative order as before. -/
theorem updateIncremental_stable_override (spare : Growth) (kc : KnowledgeContext)
    (rb : RuleBuilder) (hrb : rb.Kc.Consistent) (hkc : KeyedByName kc.RuleEntities) :
    ∃ rb1, updateIncremental spare kc rb = .ok rb1 ∧
      (∀ name, name ∈ rb1.Kc.RuleEntities.keys ↔
        name ∈ rb.Kc.RuleEntities.keys ∨ name ∈ kc.RuleEntities.keys) ∧
      (∀ q ∈ kc.RuleEntities, rb1.Kc.RuleEntities.get q.1 = some q.2) ∧
      (∀ name, name ∉ kc.RuleEntities.keys →
        rb1.Kc.RuleEntities.get name = rb.Kc.RuleEntities.get name) ∧
      rb1.Kc.SortRules.filter (fun e => !(kc.RuleEntities.has e.RuleName)) =
        rb.Kc.SortRules.filter (fun e => !(kc.RuleEntities.has e.RuleName)) := by
  have hinv := Inv_of_Consistent _ hrb
  refine ⟨_, updateIncremental_eq spare kc rb hinv hkc.2, ?_, ?_, ?_, ?_⟩
  · intro name
    simp only [entities_foldl]
    exact foldl_set_keys _ _ _
  · intro q hq
    simp only [entities_foldl]
    exact foldl_set_get_of_mem _ _ hkc.1 q hq
  · intro name hn
    simp only [entities_foldl]
    exact foldl_set_get_of_not_mem _ _ _ hn
  · apply filter_foldl _ _ _ hinv hkc.2
    intro e he
    have : kc.RuleEntities.get e.RuleName ≠ none := by
      rw [Ne, GoMap.get_eq_none_iff]
      exact fun h => h he
    cases hg : kc.RuleEntities.get e.RuleName with
    | none => exact absurd hg this
    | some v => simp [GoMap.has, hg]


set_option maxRecDepth 100000 in
/-- C7 at a concrete input: the KB `[S(7), A(5), R(5), C(3)]` updated with
`R` at salience 9 (a replacement that moves) and the new rule `B(5)`; the
result is `[R(9), S, B, A, C]`. -/
theorem updateIncremental_consistent_witness :
    (rbOf [ruleS, ruleA, demoRule, ruleC]).Kc.Consistent ∧
    KeyedByName (updateOf [ruleR9, ruleB]).RuleEntities ∧
    sortRulesAfter (updateIncremental exactGrowth (updateOf [ruleR9, ruleB])
      (rbOf [ruleS, ruleA, demoRule, ruleC])) = some [ruleR9, ruleS, ruleB, ruleA, ruleC] ∧
    ∃ rb1, updateIncremental exactGrowth (updateOf [ruleR9, ruleB])
        (rbOf [ruleS, ruleA, demoRule, ruleC]) = .ok rb1 ∧ rb1.Kc.Consistent ∧
      rb1.Kc.SortRules.length = rb1.Kc.RuleEntities.length :=
  ⟨by decide, by decide, by decide,
    updateIncremental_consistent exactGrowth (updateOf [ruleR9, ruleB])
      (rbOf [ruleS, ruleA, demoRule, ruleC]) (by decide) (by decide)⟩

set_option maxRecDepth 100000 in
/-- C8 at a concrete input: the KB `[A(5), C(3)]`, whose first position has
the salience of the new rule `B(5)`; the result `[A, B, C]` is in priority
order. -/
theorem updateIncremental_sorted_witness :
    (rbOf [ruleA, ruleC]).Kc.Consistent ∧ KeyedByName (updateOf [ruleB]).RuleEntities ∧
    SortedBySalience (rbOf [ruleA, ruleC]).Kc.SortRules ∧
    BinarySearch [ruleA, ruleC] 5 = (1, 0) ∧
    sortRulesAfter (updateIncremental doublingGrowth (updateOf [ruleB])
      (rbOf [ruleA, ruleC])) = some [ruleA, ruleB, ruleC] ∧
    ∃ rb1, updateIncremental doublingGrowth (updateOf [ruleB]) (rbOf [ruleA, ruleC]) =
        .ok rb1 ∧ SortedBySalience rb1.Kc.SortRules :=
  ⟨by decide, by decide, by decide, by decide, by decide,
    updateIncremental_sorted doublingGrowth (updateOf [ruleB]) (rbOf [ruleA, ruleC])
      (by decide) (by decide) (by decide)⟩

set_option maxRecDepth 100000 in
/-- C9 at the concrete input of end-to-end scenario 5: the KB `{R(5)}` updated with
`{R'(5), S(7)}` yields `SortRules = [S, R']` for either order in which the
update is visited. -/
theorem updateIncremental_stable_override_witness :
    (rbOf [demoRule]).Kc.Consistent ∧ KeyedByName (updateOf [ruleR2, ruleS]).RuleEntities ∧
    sortRulesAfter (updateIncremental exactGrowth (updateOf [ruleR2, ruleS])
      (rbOf [demoRule])) = some [ruleS, ruleR2] ∧
    sortRulesAfter (updateIncremental exactGrowth (updateOf [ruleS, ruleR2])
      (rbOf [demoRule])) = some [ruleS, ruleR2] ∧
    ∃ rb1, updateIncremental exactGrowth (updateOf [ruleR2, ruleS]) (rbOf [demoRule]) =
        .ok rb1 ∧
      (∀ name, name ∈ rb1.Kc.RuleEntities.keys ↔
        name ∈ (rbOf [demoRule]).Kc.RuleEntities.keys ∨
          name ∈ (updateOf [ruleR2, ruleS]).RuleEntities.keys) ∧
      (∀ q ∈ (updateOf [ruleR2, ruleS]).RuleEntities,
        rb1.Kc.RuleEntities.get q.1 = some q.2) ∧
      (∀ name, name ∉ (updateOf [ruleR2, ruleS]).RuleEntities.keys →
        rb1.Kc.RuleEntities.get name = (rbOf [demoRule]).Kc.RuleEntities.get name) ∧
      rb1.Kc.SortRules.filter
          (fun e => !((updateOf [ruleR2, ruleS]).RuleEntities.has e.RuleName)) =
        (rbOf [demoRule]).Kc.SortRules.filter
          (fun e => !((updateOf [ruleR2, ruleS]).RuleEntities.has e.RuleName)) :=
  ⟨by decide, by decide, by decide, by decide,
    updateIncremental_stable_override exactGrowth (updateOf [ruleR2, ruleS])
      (rbOf [demoRule]) (by decide) (by decide)⟩

/-! ## Insertion of one new rule, for every search -/

theorem insertRuleWith_BinarySearch (spare : Growth) (s : Slice) (v : RuleEntity) :
    insertRuleWith BinarySearch spare s v = insertRule spare s v := rfl

theorem mergeStepWith_BinarySearch (spare : Growth) (st : MergeState)
    (kv : String × RuleEntity) :
    mergeStepWith BinarySearch spare st kv = mergeStep spare st kv := rfl

theorem mergeLoopWith_BinarySearch (spare : Growth) (l : List (String × RuleEntity)) :
    ∀ st, mergeLoopWith BinarySearch spare l st = mergeLoop spare l st := by
  induction l with
  | nil => intro st; rfl
  | cons kv t ih =>
    intro st
    simp only [mergeLoopWith, mergeLoop, mergeStepWith_BinarySearch]
    cases mergeStep spare st kv with
    | ok st1 => exact ih st1
    | panic => rfl
    | spin => rfl

theorem updateIncrementalWith_BinarySearch (spare : Growth) (kc : KnowledgeContext)
    (rb : RuleBuilder) :
    updateIncrementalWith BinarySearch spare kc rb = updateIncremental spare kc rb := by
  simp only [updateIncrementalWith, updateIncremental, mergeLoopWith_BinarySearch]

theorem insertRuleWith_spec (search : Search) (spare : Growth) (s : Slice) (v : RuleEntity)
    (h : s.len ≤ s.buf.length) (hpos : insertPosWith search s.elems v.Salience ≤ s.len) :
    ∃ r, insertRuleWith search spare s v = .ok r ∧
      r.1.elems = s.elems.take (insertPosWith search s.elems v.Salience) ++
        v :: s.elems.drop (insertPosWith search s.elems v.Salience) := by
  have hpos2 : insertPosWith search s.elems v.Salience ≤ s.buf.length := le_trans hpos h
  obtain ⟨a1, -, -, -⟩ := appendAt_spec spare s (insertPosWith search s.elems v.Salience)
    (v :: s.elems.drop (insertPosWith search s.elems v.Salience)) hpos2
  simp only [insertRuleWith, hpos, hpos2, and_self, if_true]
  refine ⟨_, rfl, ?_⟩
  rw [a1, ← s.take_elems _ hpos]

theorem updateIncrementalWith_single (search : Search) (spare : Growth) (rb : RuleBuilder)
    (v : RuleEntity) (hnew : rb.Kc.RuleEntities.get v.RuleName = none)
    (hpos : insertPosWith search rb.Kc.SortRules v.Salience ≤ rb.Kc.SortRules.length) :
    ∃ rb1, updateIncrementalWith search spare (updateOf [v]) rb = .ok rb1 ∧
      rb1.Kc.SortRules =
        rb.Kc.SortRules.take (insertPosWith search rb.Kc.SortRules v.Salience) ++
          v :: rb.Kc.SortRules.drop (insertPosWith search rb.Kc.SortRules v.Salience) := by
  have hS : (⟨rb.Kc.SortRules, rb.Kc.SortRules.length⟩ : Slice).elems = rb.Kc.SortRules := by
    simp [Slice.elems]
  obtain ⟨r, hr, he⟩ := insertRuleWith_spec search spare
    ⟨rb.Kc.SortRules, rb.Kc.SortRules.length⟩ v (le_refl _) (by rw [hS]; exact hpos)
  rw [hS] at he
  simp only [updateIncrementalWith, updateOf, rulesMap, List.map_cons, List.map_nil,
    mergeLoopWith, mergeStepWith, hnew, hr]
  exact ⟨_, rfl, he⟩

/-- C10 (amended). For every function taken for `tool.BinarySearch`, every KB
and every update of a single rule whose name is not in the KB, with
`(low, mid)` the pair the search returns for the KB's `SortRules` and the new
rule's salience, and the position read from it within the sequence: the update
returns, and the new rule is inserted at `mid` if `mid != 0` and at `low` if
`mid == 0`. Hence, when `mid` is the first position with equal salience and
is not 0, the new rule stands immediately before all existing equal-salience
rules; and when `mid` is 0, no rule has equal salience and `low` is the first
position with strictly lower salience, it stands at `low`, after every rule of
higher salience and before every rule of lower salience that follows. -/
theorem updateIncremental_inserts_at_mid_or_low (search : Search) (spare : Growth)
    (rb : RuleBuilder) (v : RuleEntity)
    (hnew : rb.Kc.RuleEntities.get v.RuleName = none)
    (hpos : insertPosWith search rb.Kc.SortRules v.Salience ≤ rb.Kc.SortRules.length) :
    ∃ rb1, updateIncrementalWith search spare (updateOf [v]) rb = .ok rb1 ∧
      ((search rb.Kc.SortRules v.Salience).2 ≠ 0 →
        rb1.Kc.SortRules =
          rb.Kc.SortRules.take (search rb.Kc.SortRules v.Salience).2 ++
            v :: rb.Kc.SortRules.drop (search rb.Kc.SortRules v.Salience).2) ∧
      ((search rb.Kc.SortRules v.Salience).2 = 0 →
        rb1.Kc.SortRules =
          rb.Kc.SortRules.take (search rb.Kc.SortRules v.Salience).1 ++
            v :: rb.Kc.SortRules.drop (search rb.Kc.SortRules v.Salience).1) ∧
      ((search rb.Kc.SortRules v.Salience).2 ≠ 0 →
        IsFirstEqual rb.Kc.SortRules v.Salience (search rb.Kc.SortRules v.Salience).2 →
        ∃ A e t, rb1.Kc.SortRules = A ++ v :: e :: t ∧
          A.length = (search rb.Kc.SortRules v.Salience).2 ∧
          (∀ a ∈ A, a.Salience ≠ v.Salience) ∧ e.Salience = v.Salience) ∧
      ((search rb.Kc.SortRules v.Salience).2 = 0 →
        IsFirstLower rb.Kc.SortRules v.Salience (search rb.Kc.SortRules v.Salience).1 →
        (∀ e ∈ rb.Kc.SortRules, e.Salience ≠ v.Salience) →
        ∃ A B, rb1.Kc.SortRules = A ++ v :: B ∧
          A.length = (search rb.Kc.SortRules v.Salience).1 ∧
          (∀ a ∈ A, v.Salience < a.Salience) ∧
          (∀ e t, B = e :: t → e.Salience < v.Salience)) := by
  obtain ⟨rb1, hrun, hsort⟩ := updateIncrementalWith_single search spare rb v hnew hpos
  have hmid : (search rb.Kc.SortRules v.Salience).2 ≠ 0 →
      rb1.Kc.SortRules =
        rb.Kc.SortRules.take (search rb.Kc.SortRules v.Salience).2 ++
          v :: rb.Kc.SortRules.drop (search rb.Kc.SortRules v.Salience).2 := by
    intro h
    rw [hsort]
    simp only [insertPosWith, h, if_false]
  have hlow : (search rb.Kc.SortRules v.Salience).2 = 0 →
      rb1.Kc.SortRules =
        rb.Kc.SortRules.take (search rb.Kc.SortRules v.Salience).1 ++
          v :: rb.Kc.SortRules.drop (search rb.Kc.SortRules v.Salience).1 := by
    intro h
    rw [hsort]
    simp only [insertPosWith, h, if_true]
  refine ⟨rb1, hrun, hmid, hlow, ?_, ?_⟩
  · intro h ⟨hany, hfirst⟩
    obtain ⟨e, t, hdrop, he⟩ := findIdx_any _ _ hany
    refine ⟨rb.Kc.SortRules.take (search rb.Kc.SortRules v.Salience).2, e, t, ?_, ?_, ?_, ?_⟩
    · rw [hmid h]
      congr 2
      rw [hfirst]
      exact hdrop
    · have hlen : (search rb.Kc.SortRules v.Salience).2 ≤ rb.Kc.SortRules.length := by
        simpa only [insertPosWith, h, if_false] using hpos
      simp [List.length_take, hlen]
    · intro a ha
      rw [hfirst] at ha
      have := take_findIdx_not _ _ a ha
      simpa using this
    · simpa using he
  · intro h hfirst hne
    refine ⟨rb.Kc.SortRules.take (search rb.Kc.SortRules v.Salience).1,
      rb.Kc.SortRules.drop (search rb.Kc.SortRules v.Salience).1, hlow h, ?_, ?_, ?_⟩
    · have hlen : (search rb.Kc.SortRules v.Salience).1 ≤ rb.Kc.SortRules.length := by
        simpa only [insertPosWith, h, if_true] using hpos
      simp [List.length_take, hlen]
    · intro a ha
      have hmem : a ∈ rb.Kc.SortRules := List.mem_of_mem_take ha
      have hne1 := hne a hmem
      unfold IsFirstLower at hfirst
      rw [hfirst] at ha
      have := take_findIdx_not _ _ a ha
      simp only [decide_eq_false_iff_not, not_lt] at this
      omega
    · intro e t hB
      unfold IsFirstLower at hfirst
      rw [hfirst] at hB
      rcases drop_findIdx_head (fun e => decide (e.Salience < v.Salience)) rb.Kc.SortRules
        with h0 | ⟨hd, tl, h1, hp⟩
      · rw [h0] at hB; cases hB
      · rw [h1] at hB
        cases hB
        simpa using hp

set_option maxRecDepth 100000 in
/-- C10 (amended) at concrete inputs. The KB `[S(7), A(5)]` and the new rule
`B(5)`, with the search of spec section 4.2: it returns `(2, 1)`, `mid = 1` is
the first position with equal salience, and `SortRules` becomes `[S, B, A]`.
The KB `[A(5)]` and the new rule `B(5)`, with the binary search that returns
at the first hit: it returns `(0, 0)`, and the new rule is inserted at
`low = 0`: `SortRules` becomes `[B, A]`. -/
theorem updateIncremental_inserts_at_mid_or_low_witness :
    (rbOf [ruleS, ruleA]).Kc.RuleEntities.get ruleB.RuleName = none ∧
    insertPosWith BinarySearch (rbOf [ruleS, ruleA]).Kc.SortRules ruleB.Salience ≤
      (rbOf [ruleS, ruleA]).Kc.SortRules.length ∧
    BinarySearch [ruleS, ruleA] ruleB.Salience = (2, 1) ∧
    IsFirstEqual [ruleS, ruleA] ruleB.Salience 1 ∧
    (∃ rb1, updateIncrementalWith BinarySearch exactGrowth (updateOf [ruleB])
        (rbOf [ruleS, ruleA]) = .ok rb1 ∧
      rb1.Kc.SortRules = [ruleS, ruleB, ruleA]) ∧
    (rbOf [ruleA]).Kc.RuleEntities.get ruleB.RuleName = none ∧
    insertPosWith textbookSearch (rbOf [ruleA]).Kc.SortRules ruleB.Salience ≤
      (rbOf [ruleA]).Kc.SortRules.length ∧
    textbookSearch [ruleA] ruleB.Salience = (0, 0) ∧
    (∃ rb2, updateIncrementalWith textbookSearch exactGrowth (updateOf [ruleB])
        (rbOf [ruleA]) = .ok rb2 ∧
      rb2.Kc.SortRules = [ruleB, ruleA]) := by
  refine ⟨by decide, by decide, by decide, by decide, ?_, by decide, by decide, by decide, ?_⟩
  · obtain ⟨rb1, hrun, hmid, -, -, -⟩ :=
      updateIncremental_inserts_at_mid_or_low BinarySearch exactGrowth (rbOf [ruleS, ruleA])
        ruleB (by decide) (by decide)
    exact ⟨rb1, hrun, (hmid (by decide)).trans (by decide)⟩
  · obtain ⟨rb2, hrun, -, hlow, -, -⟩ :=
      updateIncremental_inserts_at_mid_or_low textbookSearch exactGrowth (rbOf [ruleA])
        ruleB (by decide) (by decide)
    exact ⟨rb2, hrun, (hlow (by decide)).trans (by decide)⟩

set_option maxRecDepth 100000 in
/-- C10 (counterexample). The KB `[A(5), A2(5), A3(5)]`, sorted, is updated
with the single new rule `B(5)`; the first position with equal salience is 0.
With the search of spec section 4.2, which returns `(low, mid) = (3, 0)`, the
code reads `mid == 0` as "no equal salience" and inserts at `low`: `SortRules`
becomes `[A, A2, A3, B]`. With the binary search that returns at the first
hit, which returns `mid = 1`, `SortRules` becomes `[A, B, A2, A3]`. Neither is
`[B, A, A2, A3]`, the new rule before all existing equal-salience rules. -/
theorem updateIncremental_not_before_equal_salience_rules :
    (rbOf [ruleA, ruleA2, ruleA3]).Kc.RuleEntities.get ruleB.RuleName = none ∧
    IsFirstEqual [ruleA, ruleA2, ruleA3] ruleB.Salience 0 ∧
    IsFirstLower [ruleA, ruleA2, ruleA3] ruleB.Salience 3 ∧
    BinarySearch [ruleA, ruleA2, ruleA3] ruleB.Salience = (3, 0) ∧
    sortRulesAfter (updateIncremental exactGrowth (updateOf [ruleB])
      (rbOf [ruleA, ruleA2, ruleA3])) = some [ruleA, ruleA2, ruleA3, ruleB] ∧
    textbookSearch [ruleA, ruleA2, ruleA3] ruleB.Salience = (0, 1) ∧
    sortRulesAfter (updateIncrementalWith textbookSearch exactGrowth (updateOf [ruleB])
      (rbOf [ruleA, ruleA2, ruleA3])) = some [ruleA, ruleB, ruleA2, ruleA3] := by
  decide

/-! ## Replacement at equal salience -/

theorem equalSalience_foldl (l : List (String × RuleEntity)) : ∀ K : KnowledgeContext,
    Inv K → (∀ p ∈ l, p.2.RuleName = p.1) → (GoMap.keys l).Nodup →
    (∀ q ∈ l, ∃ vm, K.RuleEntities.get q.1 = some vm ∧ q.2.Salience = vm.Salience) →
    (l.foldl mergeStepL K).SortRules.map RuleEntity.RuleName =
        K.SortRules.map RuleEntity.RuleName ∧
      (l.foldl mergeStepL K).SortRulesIndexMap = K.SortRulesIndexMap := by
  induction l with
  | nil => intro K _ _ _ _; exact ⟨rfl, rfl⟩
  | cons kv t ih =>
    intro K hinv hl hnd hq
    simp only [GoMap.keys, List.map_cons, List.nodup_cons] at hnd
    have hkv := hl kv (List.mem_cons_self _ _)
    obtain ⟨vm0, hg0, hs0⟩ := hq kv (List.mem_cons_self _ _)
    have hstep : (mergeStepL K kv).SortRules.map RuleEntity.RuleName =
          K.SortRules.map RuleEntity.RuleName ∧
        (mergeStepL K kv).SortRulesIndexMap = K.SortRulesIndexMap := by
      rcases mergeStepL_cases K kv hinv hkv with ⟨vm, A, B, hg, hS, _, hS1, hI1⟩ |
        ⟨vm, A, B, hg, _, hne, _, _⟩ | ⟨hg, _, _⟩
      · have hvm : vm.RuleName = kv.1 := hinv.2.1 _ _ hg
        refine ⟨?_, hI1⟩
        rw [hS1, hS]
        simp [hkv, hvm]
      · rw [hg0] at hg
        cases hg
        exact absurd hs0 hne
      · rw [hg0] at hg
        cases hg
    rw [List.foldl_cons]
    obtain ⟨h1, h2⟩ := ih (mergeStepL K kv) (Inv_mergeStepL K kv hinv hkv)
      (fun p hp => hl p (List.mem_cons_of_mem _ hp)) hnd.2 (by
        intro q hqt
        obtain ⟨vm, hg, hs⟩ := hq q (List.mem_cons_of_mem _ hqt)
        refine ⟨vm, ?_, hs⟩
        have hne : q.1 ≠ kv.1 := by
          intro h
          apply hnd.1
          rw [← h]
          exact List.mem_map.2 ⟨q, hqt, rfl⟩
        rw [mergeStepL_entities, GoMap.get_set_ne _ _ _ _ hne]
        exact hg)
    exact ⟨h1.trans hstep.1, h2.trans hstep.2⟩

/-- C11. Equal-salience replacement keeps the previous position. For every
growth policy of `append`, every rule builder whose KB is consistent and every
update (a Go map keyed by rule name, visited in any order) in which each rule
has the name and the salience of an existing rule, `updateIncremental` returns
and afterwards the sequence of rule names in `SortRules` and the map
`SortRulesIndexMap` are what they were, and at the index of each replaced name
`SortRules` holds the update's entity. -/
theorem updateIncremental_equal_salience_in_place (spare : Growth) (kc : KnowledgeContext)
    (rb : RuleBuilder) (hrb : rb.Kc.Consistent) (hkc : KeyedByName kc.RuleEntities)
    (hq : ∀ q ∈ kc.RuleEntities,
      ∃ vm, rb.Kc.RuleEntities.get q.1 = some vm ∧ q.2.Salience = vm.Salience) :
    ∃ rb1, updateIncremental spare kc rb = .ok rb1 ∧
      rb1.Kc.SortRules.map RuleEntity.RuleName = rb.Kc.SortRules.map RuleEntity.RuleName ∧
      rb1.Kc.SortRulesIndexMap = rb.Kc.SortRulesIndexMap ∧
      ∀ q ∈ kc.RuleEntities,
        (rb.Kc.SortRulesIndexMap.get q.1).bind (fun i => rb1.Kc.SortRules[i]?) = some q.2 := by
  have hinv := Inv_of_Consistent _ hrb
  have hfold := equalSalience_foldl kc.RuleEntities rb.Kc hinv hkc.2 hkc.1 hq
  have hinv1 := Inv_foldl kc.RuleEntities rb.Kc hinv hkc.2
  refine ⟨_, updateIncremental_eq spare kc rb hinv hkc.2, hfold.1, hfold.2, ?_⟩
  intro q hqm
  simp only
  obtain ⟨hnd1, hkey1, hperm1, hmem1, hidx1⟩ := hinv1
  have hget : (kc.RuleEntities.foldl mergeStepL rb.Kc).RuleEntities.get q.1 = some q.2 := by
    rw [entities_foldl]
    exact foldl_set_get_of_mem _ _ hkc.1 q hqm
  have hin : q.1 ∈ (kc.RuleEntities.foldl mergeStepL rb.Kc).SortRules.map
      RuleEntity.RuleName := (hperm1.mem_iff).2 (GoMap.mem_keys_of_get _ _ _ hget)
  obtain ⟨e, he, hname⟩ := List.mem_map.1 hin
  have heq : e = q.2 := by
    have := hmem1 e he
    rw [hname, hget] at this
    exact (Option.some.inj this).symm
  obtain ⟨i, hi⟩ := List.mem_iff_getElem?.1 he
  have hI := hidx1 i e.RuleName (by rw [List.getElem?_map, hi]; rfl)
  rw [hname, hfold.2] at hI
  rw [hI, Option.some_bind, hi, heq]

set_option maxRecDepth 100000 in
/-- C11 at a concrete input: the KB `[S(7), A(5), R(5), C(3)]` updated with `R`
and `C` again, at their saliences 5 and 3 and with new bodies. -/
theorem updateIncremental_equal_salience_in_place_witness :
    (rbOf [ruleS, ruleA, demoRule, ruleC]).Kc.Consistent ∧
    KeyedByName (updateOf [ruleC2, ruleR2]).RuleEntities ∧
    sortRulesAfter (updateIncremental exactGrowth (updateOf [ruleC2, ruleR2])
      (rbOf [ruleS, ruleA, demoRule, ruleC])) = some [ruleS, ruleA, ruleR2, ruleC2] ∧
    ∃ rb1, updateIncremental exactGrowth (updateOf [ruleC2, ruleR2])
        (rbOf [ruleS, ruleA, demoRule, ruleC]) = .ok rb1 ∧
      rb1.Kc.SortRules.map RuleEntity.RuleName =
        (rbOf [ruleS, ruleA, demoRule, ruleC]).Kc.SortRules.map RuleEntity.RuleName ∧
      rb1.Kc.SortRulesIndexMap = (rbOf [ruleS, ruleA, demoRule, ruleC]).Kc.SortRulesIndexMap ∧
      ∀ q ∈ (updateOf [ruleC2, ruleR2]).RuleEntities,
        ((rbOf [ruleS, ruleA, demoRule, ruleC]).Kc.SortRulesIndexMap.get q.1).bind
          (fun i => rb1.Kc.SortRules[i]?) = some q.2 :=
  ⟨by decide, by decide, by decide,
    updateIncremental_equal_salience_in_place exactGrowth (updateOf [ruleC2, ruleR2])
      (rbOf [ruleS, ruleA, demoRule, ruleC]) (by decide) (by decide) (by decide)⟩

/-! ## Acquire and release -/

theorem perm_cons_eraseIdx (l : List gengineWrapper) (i : Nat) (w : gengineWrapper)
    (h : l[i]? = some w) : l.Perm (w :: l.eraseIdx i) := by
  induction l generalizing i with
  | nil => simp at h
  | cons x t ih =>
    cases i with
    | zero =>
      simp only [List.getElem?_cons_zero, Option.some.injEq] at h
      subst h
      simp
    | succ i =>
      simp only [List.getElem?_cons_succ] at h
      simp only [List.eraseIdx_cons_succ]
      exact (List.Perm.cons x (ih i h)).trans (List.Perm.swap w x _)

theorem getGengine_core (gp : GenginePool) (gw : gengineWrapper) (rest : List gengineWrapper)
    (h : gp.freeGengines = gw :: rest) :
    gp.getGengine = .ok (gw, { gp with freeGengines := rest }) := by
  simp only [GenginePool.getGengine, h]

theorem getGengine_overflow (gp : GenginePool) (gw : gengineWrapper)
    (rest : List gengineWrapper) (h0 : gp.freeGengines = [])
    (h : gp.additionGengines = gw :: rest) :
    gp.getGengine = .ok (gw, { gp with additionGengines := rest }) := by
  simp only [GenginePool.getGengine, h0, h]

theorem getGengine_spin (gp : GenginePool) (h0 : gp.freeGengines = [])
    (h : gp.additionGengines = []) : gp.getGengine = .spin := by
  simp only [GenginePool.getGengine, h0, h]

theorem RunInv_step (gp0 : GenginePool) (r : PoolRun) (op : PoolOp) (h : RunInv gp0 r) :
    RunInv gp0 (r.step op) := by
  obtain ⟨h1, h2, h3, h4⟩ := h
  cases op with
  | acquire =>
    rcases hf : r.gp.freeGengines with _ | ⟨gw, rest⟩
    · rcases ha : r.gp.additionGengines with _ | ⟨gw, rest⟩
      · simp only [PoolRun.step, getGengine_spin _ hf ha]
        exact ⟨h1, h2, h3, h4⟩
      · simp only [PoolRun.step, getGengine_overflow _ _ _ hf ha]
        rw [ha] at h2 h4
        have hgw : gw.addition = true := h4 gw (List.mem_cons_self _ _)
        refine ⟨?_, ?_, ?_, ?_⟩
        · simp only [List.filter_cons, hgw, Bool.not_true, Bool.false_eq_true, if_false]
          exact h1
        · simp only [List.filter_cons, hgw, if_true]
          exact List.perm_middle.trans (by simpa using h2)
        · exact h3
        · intro w hw
          exact h4 w (List.mem_cons_of_mem _ hw)
    · simp only [PoolRun.step, getGengine_core _ _ _ hf]
      rw [hf] at h1 h3
      have hgw : gw.addition = false := h3 gw (List.mem_cons_self _ _)
      refine ⟨?_, ?_, ?_, h4⟩
      · simp only [List.filter_cons, hgw, Bool.not_false, if_true]
        exact List.perm_middle.trans (by simpa using h1)
      · simp only [List.filter_cons, hgw, Bool.false_eq_true, if_false]
        exact h2
      · intro w hw
        exact h3 w (List.mem_cons_of_mem _ hw)
  | release i =>
    simp only [PoolRun.step]
    cases hi : r.held[i]? with
    | none => exact ⟨h1, h2, h3, h4⟩
    | some gw =>
      have hp := perm_cons_eraseIdx r.held i gw hi
      have hpf := hp.filter fun w => !w.addition
      have hpa := hp.filter fun w => w.addition
      cases hgw : gw.addition with
      | true =>
        simp only [List.filter_cons, hgw, Bool.not_true, Bool.false_eq_true, if_false] at hpf
        simp only [List.filter_cons, hgw, if_true] at hpa
        simp only [GenginePool.putGengineLocked, hgw, if_true]
        refine ⟨?_, ?_, h3, ?_⟩
        · exact (List.Perm.append_left _ hpf.symm).trans h1
        · refine List.Perm.trans ?_ h2
          rw [List.append_assoc]
          exact List.Perm.append_left _ (by simpa using hpa.symm)
        · intro w hw
          rcases List.mem_append.1 hw with hw | hw
          · exact h4 w hw
          · simp only [List.mem_singleton] at hw
            rw [hw]; exact hgw
      | false =>
        simp only [List.filter_cons, hgw, Bool.not_false, if_true] at hpf
        simp only [List.filter_cons, hgw, Bool.false_eq_true, if_false] at hpa
        simp only [GenginePool.putGengineLocked, hgw, Bool.false_eq_true, if_false]
        refine ⟨?_, ?_, ?_, h4⟩
        · refine List.Perm.trans ?_ h1
          rw [List.append_assoc]
          exact List.Perm.append_left _ (by simpa using hpf.symm)
        · exact (List.Perm.append_left _ hpa.symm).trans h2
        · intro w hw
          rcases List.mem_append.1 hw with hw | hw
          · exact h3 w hw
          · simp only [List.mem_singleton] at hw
            rw [hw]; exact hgw

theorem RunInv_foldl (gp0 : GenginePool) (ops : List PoolOp) : ∀ r : PoolRun,
    RunInv gp0 r → RunInv gp0 (ops.foldl PoolRun.step r) := by
  induction ops with
  | nil => intro r h; exact h
  | cons op t ih => intro r h; exact ih _ (RunInv_step gp0 r op h)

theorem NewGenginePool_kinds (build : Builder) (poolMinLen poolMaxLen em : Int)
    (rulesStr : String) (apiOuter : GoMap Iface) (gp0 : GenginePool)
    (h : NewGenginePool build poolMinLen poolMaxLen em rulesStr apiOuter = .ok gp0) :
    (∀ w ∈ gp0.freeGengines, w.addition = false) ∧
    (∀ w ∈ gp0.additionGengines, w.addition = true) := by
  unfold NewGenginePool at h
  split at h
  · cases h
  · split at h
    · cases h
    · split at h
      · cases h
      · split at h
        · cases h
        · cases h
          constructor
          · intro w hw
            simp only [List.mem_map] at hw
            obtain ⟨_, _, rfl⟩ := hw
            rfl
          · intro w hw
            simp only [List.mem_map] at hw
            obtain ⟨_, _, rfl⟩ := hw
            rfl


/-- C12. Acquire and release over the pool state, in the sequential view. With
a non-empty core list `getGengine` returns the first core instance and removes
only it, the overflow list and everything else staying as it is; with an empty
core list and a non-empty overflow list it returns the first overflow instance
and removes only it; `putGengineLocked(w)` appends `w` to the overflow list
when `w.addition` is true and to the core list otherwise. Hence, from a freshly
constructed pool and after any sequence of acquires and of releases of held
instances: each sub-pool together with the held instances of its kind holds
the instances it was built with, the core list holds only core instances and
the overflow list only overflow instances, and once every acquired instance is
released each sub-pool holds the same instances as at the start. -/
theorem acquire_release_subpools (build : Builder) (poolMinLen poolMaxLen em : Int)
    (rulesStr : String) (apiOuter : GoMap Iface) (gp0 : GenginePool) (ops : List PoolOp)
    (hnew : NewGenginePool build poolMinLen poolMaxLen em rulesStr apiOuter = .ok gp0) :
    (∀ (gp : GenginePool) (gw : gengineWrapper) (rest : List gengineWrapper),
      gp.freeGengines = gw :: rest →
      gp.getGengine = .ok (gw, { gp with freeGengines := rest })) ∧
    (∀ (gp : GenginePool) (gw : gengineWrapper) (rest : List gengineWrapper),
      gp.freeGengines = [] → gp.additionGengines = gw :: rest →
      gp.getGengine = .ok (gw, { gp with additionGengines := rest })) ∧
    (∀ (gp : GenginePool) (w : gengineWrapper),
      (w.addition = true →
        gp.putGengineLocked w = { gp with additionGengines := gp.additionGengines ++ [w] }) ∧
      (w.addition = false →
        gp.putGengineLocked w = { gp with freeGengines := gp.freeGengines ++ [w] })) ∧
    ((ops.foldl PoolRun.step ⟨gp0, []⟩).gp.freeGengines ++
      (ops.foldl PoolRun.step ⟨gp0, []⟩).held.filter fun w => !w.addition).Perm
        gp0.freeGengines ∧
    ((ops.foldl PoolRun.step ⟨gp0, []⟩).gp.additionGengines ++
      (ops.foldl PoolRun.step ⟨gp0, []⟩).held.filter fun w => w.addition).Perm
        gp0.additionGengines ∧
    (∀ w ∈ (ops.foldl PoolRun.step ⟨gp0, []⟩).gp.freeGengines, w.addition = false) ∧
    (∀ w ∈ (ops.foldl PoolRun.step ⟨gp0, []⟩).gp.additionGengines, w.addition = true) ∧
    ((ops.foldl PoolRun.step ⟨gp0, []⟩).held = [] →
      (ops.foldl PoolRun.step ⟨gp0, []⟩).gp.freeGengines.Perm gp0.freeGengines ∧
      (ops.foldl PoolRun.step ⟨gp0, []⟩).gp.additionGengines.Perm gp0.additionGengines) := by
  have hk := NewGenginePool_kinds build poolMinLen poolMaxLen em rulesStr apiOuter gp0 hnew
  have h0 : RunInv gp0 ⟨gp0, []⟩ := by
    refine ⟨?_, ?_, hk.1, hk.2⟩ <;> simp
  obtain ⟨h1, h2, h3, h4⟩ := RunInv_foldl gp0 ops _ h0
  refine ⟨getGengine_core, getGengine_overflow, ?_, h1, h2, h3, h4, ?_⟩
  · intro gp w
    constructor
    · intro hw
      simp only [GenginePool.putGengineLocked, hw, if_true]
    · intro hw
      simp only [GenginePool.putGengineLocked, hw, Bool.false_eq_true, if_false]
  · intro hheld
    rw [hheld] at h1 h2
    simp only [List.filter_nil, List.append_nil] at h1 h2
    exact ⟨h1, h2⟩

set_option maxRecDepth 100000 in
/-- C12 at a concrete input: on the pool `NewGenginePool(1, 2, 1, "rule R",
{"x": 7})` an instance is acquired (the core instance with tag 0) and released
again; both lists are as at the start. A second run acquires both instances
and releases the core one first, then the overflow one. -/
theorem acquire_release_subpools_witness :
    NewGenginePool demoBuilder 1 2 SORT_MODEL "rule R" [("x", some 7)] =
      .ok (demoPool SORT_MODEL) ∧
    ([PoolOp.acquire, .release 0].foldl PoolRun.step ⟨demoPool SORT_MODEL, []⟩) =
      ⟨demoPool SORT_MODEL, []⟩ ∧
    ([PoolOp.acquire, .acquire, .release 1, .release 0].foldl PoolRun.step
      ⟨demoPool SORT_MODEL, []⟩) = ⟨demoPool SORT_MODEL, []⟩ ∧
    (([PoolOp.acquire, .release 0].foldl PoolRun.step ⟨demoPool SORT_MODEL, []⟩).held = [] →
      ([PoolOp.acquire, .release 0].foldl PoolRun.step
        ⟨demoPool SORT_MODEL, []⟩).gp.freeGengines.Perm (demoPool SORT_MODEL).freeGengines ∧
      ([PoolOp.acquire, .release 0].foldl PoolRun.step
        ⟨demoPool SORT_MODEL, []⟩).gp.additionGengines.Perm
          (demoPool SORT_MODEL).additionGengines) :=
  ⟨rfl, by decide, by decide,
    (acquire_release_subpools demoBuilder 1 2 SORT_MODEL "rule R" [("x", some 7)]
      (demoPool SORT_MODEL) [PoolOp.acquire, .release 0] rfl).2.2.2.2.2.2.2⟩

/-! ## Incremental update of a cleared pool -/

theorem getKcs_ok (parse : Builder) (ruleStr : String) (kc : KnowledgeContext)
    (h : getKc parse ruleStr = .ok kc) (n : Nat) :
    getKcs parse ruleStr n = .ok (List.replicate n kc) := by
  induction n with
  | zero => rfl
  | succ n ih => simp [getKcs, h, ih, List.replicate_succ]

theorem ClearPoolRules_ruleBuilder (gp gp1 : GenginePool) (h : gp.ClearPoolRules = .ok gp1) :
    gp1.ruleBuilder = none ∧ gp1.clear = true ∧ gp1.max = gp.max := by
  unfold GenginePool.ClearPoolRules at h
  split at h
  · cases h; exact ⟨rfl, rfl, rfl⟩
  · cases h
  · cases h

theorem UpdatePooledRulesIncremental_nil_builder (spare : Growth) (visit : Visit)
    (parse : Builder) (gp : GenginePool) (ruleStr : String) (kc : KnowledgeContext)
    (hkc : getKc parse ruleStr = .ok kc) (hnil : gp.ruleBuilder = none) :
    gp.UpdatePooledRulesIncremental spare visit parse ruleStr = .panic := by
  simp only [GenginePool.UpdatePooledRulesIncremental, hkc, getKcs_ok parse ruleStr kc hkc, hnil]

set_option maxRecDepth 100000 in
/-- C13 (code evaluated at the failing input). The pool `NewGenginePool(1, 2,
1, "rule R", {"x": 7})` is cleared with `ClearPoolRules`, which leaves the
authoritative rule builder nil. The source "rule R" parses to one rule, and
`UpdatePooledRulesIncremental("rule R")` on the cleared pool panics: it
dereferences the nil rule builder. The same call on the pool before the clear
returns nil, and on the cleared pool `GetRulesNumber` and `IsExist`, which test
for nil, return 0 and false, and `UpdatePooledRules("rule R")` returns nil and
leaves one rule. -/
theorem UpdatePooledRulesIncremental_after_clear_panics :
    getKc demoBuilder "rule R" = .ok demoKc ∧
    Go.bind (demoPool SORT_MODEL).ClearPoolRules
      (fun gp => Go.ok (gp.ruleBuilder, gp.clear)) = .ok (none, true) ∧
    Go.bind (demoPool SORT_MODEL).ClearPoolRules
      (fun gp => gp.UpdatePooledRulesIncremental exactGrowth listedOrder demoBuilder "rule R") =
        .panic ∧
    Go.bind ((demoPool SORT_MODEL).UpdatePooledRulesIncremental exactGrowth listedOrder
      demoBuilder "rule R") (fun r => Go.ok (r.2, r.1.clear, r.1.GetRulesNumber)) =
        .ok (none, false, 1) ∧
    Go.bind (demoPool SORT_MODEL).ClearPoolRules
      (fun gp => Go.ok (gp.GetRulesNumber, gp.IsExist "R")) = .ok (0, false) ∧
    Go.bind (demoPool SORT_MODEL).ClearPoolRules
      (fun gp => Go.ok ((gp.UpdatePooledRules demoBuilder "rule R").2,
        (gp.UpdatePooledRules demoBuilder "rule R").1.GetRulesNumber)) = .ok (none, 1) :=
  ⟨rfl, by decide, by decide, by decide, by decide, by decide⟩

/-! ## Visiting order of the update -/

theorem GoMap.perm_of_get_eq (m1 m2 : GoMap RuleEntity) (h1 : m1.keys.Nodup)
    (h2 : m2.keys.Nodup) (h : ∀ k, m1.get k = m2.get k) : List.Perm m1 m2 := by
  have n1 : List.Nodup m1 := List.Nodup.of_map Prod.fst h1
  have n2 : List.Nodup m2 := List.Nodup.of_map Prod.fst h2
  rw [List.perm_ext_iff_of_nodup n1 n2]
  intro p
  constructor
  · intro hp
    have := GoMap.get_of_mem m1 p.1 p.2 h1 hp
    rw [h] at this
    exact GoMap.mem_of_get m2 p.1 p.2 this
  · intro hp
    have := GoMap.get_of_mem m2 p.1 p.2 h2 hp
    rw [← h] at this
    exact GoMap.mem_of_get m1 p.1 p.2 this

theorem foldl_set_get_perm (l1 l2 : List (String × RuleEntity)) (E : GoMap RuleEntity)
    (hnd : (GoMap.keys l1).Nodup) (hperm : l2.Perm l1) (name : String) :
    (l1.foldl (fun E q => GoMap.set E q.1 q.2) E).get name =
      (l2.foldl (fun E q => GoMap.set E q.1 q.2) E).get name := by
  have hkeys : (GoMap.keys l2).Perm (GoMap.keys l1) := hperm.map Prod.fst
  have hnd2 : (GoMap.keys l2).Nodup := (hkeys.nodup_iff).2 hnd
  by_cases hin : name ∈ GoMap.keys l1
  · obtain ⟨q, hq, hname⟩ := List.mem_map.1 hin
    rw [← hname, foldl_set_get_of_mem l1 E hnd q hq,
      foldl_set_get_of_mem l2 E hnd2 q ((hperm.mem_iff).2 hq)]
  · have hin2 : name ∉ GoMap.keys l2 := fun h => hin ((hkeys.mem_iff).1 h)
    rw [foldl_set_get_of_not_mem l1 E name hin, foldl_set_get_of_not_mem l2 E name hin2]

theorem salience_eq_of_perm (l1 l2 : List RuleEntity) (hp : l1.Perm l2)
    (h1 : SortedBySalience l1) (h2 : SortedBySalience l2) :
    l1.map RuleEntity.Salience = l2.map RuleEntity.Salience := by
  have s1 : List.Sorted (fun a b : Int => b ≤ a) (l1.map RuleEntity.Salience) :=
    (List.pairwise_map (f := RuleEntity.Salience) (R := fun a b => b ≤ a)).2 h1
  have s2 : List.Sorted (fun a b : Int => b ≤ a) (l2.map RuleEntity.Salience) :=
    (List.pairwise_map (f := RuleEntity.Salience) (R := fun a b => b ≤ a)).2 h2
  exact List.eq_of_perm_of_sorted (hp.map _) s1 s2

/-- Two visiting orders of one update, merged into one consistent KB in
priority order, give the same rules in priority order up to ties. -/
theorem foldl_same_up_to_ties (l1 l2 : List (String × RuleEntity)) (K : KnowledgeContext)
    (hinv : Inv K) (hs : SortedBySalience K.SortRules) (hk : KeyedByName l1)
    (hperm : l2.Perm l1) :
    SameUpToTies (l1.foldl mergeStepL K) (l2.foldl mergeStepL K) ∧
    SortedBySalience (l1.foldl mergeStepL K).SortRules ∧
    SortedBySalience (l2.foldl mergeStepL K).SortRules ∧
    Inv (l1.foldl mergeStepL K) ∧ Inv (l2.foldl mergeStepL K) := by
  have hk2 : ∀ p ∈ l2, p.2.RuleName = p.1 := fun p hp => hk.2 p ((hperm.mem_iff).1 hp)
  have i1 := Inv_foldl l1 K hinv hk.2
  have i2 := Inv_foldl l2 K hinv hk2
  have s1 := sorted_foldl l1 K hinv hk.2 hs
  have s2 := sorted_foldl l2 K hinv hk2 hs
  have hget : ∀ name, (l1.foldl mergeStepL K).RuleEntities.get name =
      (l2.foldl mergeStepL K).RuleEntities.get name := by
    intro name
    rw [entities_foldl, entities_foldl]
    exact foldl_set_get_perm l1 l2 _ hk.1 hperm name
  have hE : List.Perm (l1.foldl mergeStepL K).RuleEntities (l2.foldl mergeStepL K).RuleEntities :=
    GoMap.perm_of_get_eq _ _ i1.1 i2.1 hget
  have hS : (l1.foldl mergeStepL K).SortRules.Perm (l2.foldl mergeStepL K).SortRules :=
    ((Consistent_of_Inv _ i1).2.1.trans (hE.map Prod.snd)).trans
      (Consistent_of_Inv _ i2).2.1.symm
  exact ⟨⟨hget, hS, salience_eq_of_perm _ _ hS s1 s2⟩, s1, s2, i1, i2⟩


theorem KeyedByName_of_perm (l1 l2 : GoMap RuleEntity) (h : KeyedByName l1)
    (hperm : l2.Perm l1) : KeyedByName l2 :=
  ⟨((hperm.map Prod.fst).nodup_iff).2 h.1, fun p hp => h.2 p ((hperm.mem_iff).1 hp)⟩

theorem updateInstances_spec (spare : Growth) (visit : Visit) (kcs : List KnowledgeContext)
    (Good Post : RuleBuilder → Prop)
    (hstep : ∀ (j : Nat) (kcj : KnowledgeContext) (r : RuleBuilder), kcs[j]? = some kcj → Good r →
      ∃ r1, updateIncremental spare
        { kcj with RuleEntities := visit (j + 1) kcj.RuleEntities } r = .ok r1 ∧ Post r1)
    (n : Nat) : ∀ (i : Nat) (rbs : List RuleBuilder), i + n ≤ rbs.length →
      i + n ≤ kcs.length → (∀ j r, i ≤ j → rbs[j]? = some r → Good r) →
      ∃ rbs1, updateInstances spare visit kcs n i rbs = .ok rbs1 ∧
        rbs1.length = rbs.length ∧
        ∀ j r, rbs1[j]? = some r →
          (j < i → rbs[j]? = some r) ∧ (i ≤ j → j < i + n → Post r) := by
  induction n with
  | zero =>
    intro i rbs _ _ _
    refine ⟨rbs, rfl, rfl, ?_⟩
    intro j r hj
    exact ⟨fun _ => hj, fun h1 h2 => by omega⟩
  | succ n ih =>
    intro i rbs h1 h2 hgood
    have hi1 : i < rbs.length := by omega
    have hi2 : i < kcs.length := by omega
    obtain ⟨r1, hr1, hpost⟩ := hstep i kcs[i] rbs[i] (List.getElem?_eq_getElem hi2)
      (hgood i rbs[i] (le_refl _) (List.getElem?_eq_getElem hi1))
    obtain ⟨rbs1, e1, e2, e3⟩ := ih (i + 1) (rbs.set i r1)
      (by rw [List.length_set]; omega) (by omega) (by
        intro j r hij hj
        rw [List.getElem?_set_ne (by omega)] at hj
        exact hgood j r (by omega) hj)
    refine ⟨rbs1, ?_, ?_, ?_⟩
    · simp only [updateInstances, List.getElem?_eq_getElem hi1, List.getElem?_eq_getElem hi2,
        hr1, e1]
    · rw [e2, List.length_set]
    · intro j r hj
      obtain ⟨a, b⟩ := e3 j r hj
      constructor
      · intro hlt
        have := a (by omega)
        rw [List.getElem?_set_ne (by omega)] at this
        exact this
      · intro hle hlt
        by_cases hji : j = i
        · have := a (by omega)
          rw [hji, List.getElem?_set_self hi1] at this
          cases this
          exact hpost
        · exact b (by omega) (by omega)

theorem UpdatePooledRulesIncremental_up_to_ties (spare : Growth) (visit : Visit)
    (parse : Builder) (gp : GenginePool) (ruleStr : String) (kc : KnowledgeContext)
    (rb : RuleBuilder) (hrb : gp.ruleBuilder = some rb)
    (hsame : ∀ r ∈ gp.rbSlice, r.Kc = rb.Kc) (hlen : gp.rbSlice.length = gp.max.toNat)
    (hcons : rb.Kc.Consistent) (hs : SortedBySalience rb.Kc.SortRules)
    (hkc : getKc parse ruleStr = .ok kc) (hk : KeyedByName kc.RuleEntities)
    (hvisit : ∀ i, (visit i kc.RuleEntities).Perm kc.RuleEntities) :
    ∃ gp1 rb1, gp.UpdatePooledRulesIncremental spare visit parse ruleStr = .ok (gp1, none) ∧
      gp1.ruleBuilder = some rb1 ∧ gp1.clear = false ∧
      gp1.rbSlice.length = gp.rbSlice.length ∧
      SortedBySalience rb1.Kc.SortRules ∧ rb1.Kc.Consistent ∧
      ∀ r ∈ gp1.rbSlice,
        SameUpToTies rb1.Kc r.Kc ∧ SortedBySalience r.Kc.SortRules ∧ r.Kc.Consistent := by
  have hinv := Inv_of_Consistent _ hcons
  have hk0 := KeyedByName_of_perm _ _ hk (hvisit 0)
  have hmain := updateIncremental_eq spare
    { kc with RuleEntities := visit 0 kc.RuleEntities } rb hinv hk0.2
  have hstep : ∀ (j : Nat) (kcj : KnowledgeContext) (r : RuleBuilder),
      (List.replicate gp.max.toNat kc)[j]? = some kcj → r.Kc = rb.Kc →
      ∃ r1, updateIncremental spare
          { kcj with RuleEntities := visit (j + 1) kcj.RuleEntities } r = .ok r1 ∧
        (SameUpToTies ((visit 0 kc.RuleEntities).foldl mergeStepL rb.Kc) r1.Kc ∧
          SortedBySalience r1.Kc.SortRules ∧ r1.Kc.Consistent) := by
    intro j kcj r hj hr
    have hkcj : kcj = kc := by
      have := List.getElem?_mem hj
      exact List.eq_of_mem_replicate this
    subst hkcj
    have hkj := KeyedByName_of_perm _ _ hk (hvisit (j + 1))
    have hinvr : Inv r.Kc := by rw [hr]; exact hinv
    refine ⟨_, updateIncremental_eq spare
      { kcj with RuleEntities := visit (j + 1) kcj.RuleEntities } r hinvr hkj.2, ?_⟩
    obtain ⟨t1, _, t3, _, t5⟩ := foldl_same_up_to_ties (visit 0 kcj.RuleEntities)
      (visit (j + 1) kcj.RuleEntities) rb.Kc hinv hs hk0
      ((hvisit (j + 1)).trans (hvisit 0).symm)
    simp only [hr]
    exact ⟨t1, t3, Consistent_of_Inv _ t5⟩
  obtain ⟨rbs1, e1, e2, e3⟩ := updateInstances_spec spare visit
    (List.replicate gp.max.toNat kc) (fun r => r.Kc = rb.Kc) _ hstep gp.max.toNat 0 gp.rbSlice
    (by omega) (by simp) (fun j r _ hj => hsame r (List.getElem?_mem hj))
  simp only [GenginePool.UpdatePooledRulesIncremental, hkc, getKcs_ok parse ruleStr kc hkc,
    hrb, hmain, e1]
  refine ⟨_, _, rfl, rfl, rfl, e2, ?_, ?_, ?_⟩
  · exact sorted_foldl _ _ hinv hk0.2 hs
  · exact Consistent_of_Inv _ (Inv_foldl _ _ hinv hk0.2)
  · intro r hr
    obtain ⟨j, hj⟩ := List.mem_iff_getElem?.1 hr
    have hjlt : j < rbs1.length := by
      rcases Nat.lt_or_ge j rbs1.length with h | h
      · exact h
      · rw [List.getElem?_eq_none h] at hj; cases hj
    exact (e3 j r hj).2 (Nat.zero_le _) (by rw [e2] at hjlt; omega)


set_option maxRecDepth 100000 in
/-- C14 (counterexample). The consistent, priority-ordered KB `[S(7)]` is
updated with the two new rules `B(5)` and `D(5)`. Visited as `B, D` the update
gives `SortRules = [S, D, B]`; visited as `D, B` it gives `[S, B, D]`, with a
different `SortRulesIndexMap`. On the pool `NewGenginePool(1, 2, 1, "rule S",
nil)`, `UpdatePooledRulesIncremental("rule B rule D")` with the map of
instance 1 visited in the other order leaves the authoritative KB and instance
0 with `[S, D, B]` and instance 1 with `[S, B, D]`. -/
theorem updateIncremental_depends_on_visiting_order :
    (rbOf [ruleS]).Kc.Consistent ∧ SortedBySalience (rbOf [ruleS]).Kc.SortRules ∧
    (updateOf [ruleD, ruleB]).RuleEntities.Perm (updateOf [ruleB, ruleD]).RuleEntities ∧
    sortRulesAfter (updateIncremental exactGrowth (updateOf [ruleB, ruleD]) (rbOf [ruleS])) =
      some [ruleS, ruleD, ruleB] ∧
    sortRulesAfter (updateIncremental exactGrowth (updateOf [ruleD, ruleB]) (rbOf [ruleS])) =
      some [ruleS, ruleB, ruleD] ∧
    indexMapAfter (updateIncremental exactGrowth (updateOf [ruleB, ruleD]) (rbOf [ruleS])) =
      some [("S", 0), ("D", 1), ("B", 2)] ∧
    indexMapAfter (updateIncremental exactGrowth (updateOf [ruleD, ruleB]) (rbOf [ruleS])) =
      some [("S", 0), ("B", 1), ("D", 2)] ∧
    ruleOrders (tiePool.UpdatePooledRulesIncremental exactGrowth reversedForInstanceOne
      tieBuilder "rule B rule D") =
        some (some ["S", "D", "B"], [["S", "D", "B"], ["S", "B", "D"]]) := by
  decide

/-- C14 (amended). For every growth policy of `append`, every rule builder
whose KB is consistent and in priority order, and any two visiting orders of
the same update, `updateIncremental` returns for both and the two results hold
the same entity under every name, have `SortRules` that are rearrangements of
one another and in priority order, hence the same sequence of saliences, and
are each consistent (each `SortRulesIndexMap` fits its own `SortRules`); only
the order among rules of equal salience can differ. Hence, on a pool whose
authoritative KB and per-instance KBs are this KB, for every visiting order of
each loop run, `UpdatePooledRulesIncremental` of a source with at least one
rule returns nil, the pool is not cleared, and the authoritative KB and every
per-instance KB hold the same rules in priority order up to the order among
rules of equal salience. -/
theorem updateIncremental_order_up_to_ties (spare : Growth) (kc1 kc2 : KnowledgeContext)
    (rb : RuleBuilder) (hrb : rb.Kc.Consistent) (hs : SortedBySalience rb.Kc.SortRules)
    (hk : KeyedByName kc1.RuleEntities) (hperm : kc2.RuleEntities.Perm kc1.RuleEntities) :
    (∃ rb1 rb2, updateIncremental spare kc1 rb = .ok rb1 ∧
      updateIncremental spare kc2 rb = .ok rb2 ∧ SameUpToTies rb1.Kc rb2.Kc ∧
      SortedBySalience rb1.Kc.SortRules ∧ SortedBySalience rb2.Kc.SortRules ∧
      rb1.Kc.Consistent ∧ rb2.Kc.Consistent) ∧
    (∀ (visit : Visit) (parse : Builder) (gp : GenginePool) (ruleStr : String)
        (kc : KnowledgeContext),
      gp.ruleBuilder = some rb → (∀ r ∈ gp.rbSlice, r.Kc = rb.Kc) →
      gp.rbSlice.length = gp.max.toNat → getKc parse ruleStr = .ok kc →
      KeyedByName kc.RuleEntities → (∀ i, (visit i kc.RuleEntities).Perm kc.RuleEntities) →
      ∃ gp1 rb1, gp.UpdatePooledRulesIncremental spare visit parse ruleStr = .ok (gp1, none) ∧
        gp1.ruleBuilder = some rb1 ∧ gp1.clear = false ∧
        gp1.rbSlice.length = gp.rbSlice.length ∧
        SortedBySalience rb1.Kc.SortRules ∧ rb1.Kc.Consistent ∧
        ∀ r ∈ gp1.rbSlice,
          SameUpToTies rb1.Kc r.Kc ∧ SortedBySalience r.Kc.SortRules ∧ r.Kc.Consistent) := by
  have hinv := Inv_of_Consistent _ hrb
  have hk2 := KeyedByName_of_perm _ _ hk hperm
  constructor
  · obtain ⟨t1, t2, t3, t4, t5⟩ :=
      foldl_same_up_to_ties kc1.RuleEntities kc2.RuleEntities rb.Kc hinv hs hk hperm
    exact ⟨_, _, updateIncremental_eq spare kc1 rb hinv hk.2,
      updateIncremental_eq spare kc2 rb hinv hk2.2, t1, t2, t3,
      Consistent_of_Inv _ t4, Consistent_of_Inv _ t5⟩
  · intro visit parse gp ruleStr kc h1 h2 h3 h4 h5 h6
    exact UpdatePooledRulesIncremental_up_to_ties spare visit parse gp ruleStr kc rb
      h1 h2 h3 hrb hs h4 h5 h6

theorem reversedForInstanceOne_perm (m : GoMap RuleEntity) (i : Nat) :
    (reversedForInstanceOne i m).Perm m := by
  unfold reversedForInstanceOne
  split
  · exact List.reverse_perm m
  · exact List.Perm.refl m

set_option maxRecDepth 100000 in
/-- C14 (amended) at the concrete input of the counterexample: the KB `[S(7)]`,
the update `B(5), D(5)` in its two visiting orders, and the pool
`NewGenginePool(1, 2, 1, "rule S", nil)` with the map of instance 1 visited in
the other order. -/
theorem updateIncremental_order_up_to_ties_witness :
    (rbOf [ruleS]).Kc.Consistent ∧ SortedBySalience (rbOf [ruleS]).Kc.SortRules ∧
    KeyedByName (updateOf [ruleB, ruleD]).RuleEntities ∧
    (updateOf [ruleD, ruleB]).RuleEntities.Perm (updateOf [ruleB, ruleD]).RuleEntities ∧
    (∃ rb1 rb2, updateIncremental exactGrowth (updateOf [ruleB, ruleD]) (rbOf [ruleS]) =
        .ok rb1 ∧
      updateIncremental exactGrowth (updateOf [ruleD, ruleB]) (rbOf [ruleS]) = .ok rb2 ∧
      SameUpToTies rb1.Kc rb2.Kc ∧
      SortedBySalience rb1.Kc.SortRules ∧ SortedBySalience rb2.Kc.SortRules ∧
      rb1.Kc.Consistent ∧ rb2.Kc.Consistent) ∧
    ∃ gp1 rb1, tiePool.UpdatePooledRulesIncremental exactGrowth reversedForInstanceOne
        tieBuilder "rule B rule D" = .ok (gp1, none) ∧
      gp1.ruleBuilder = some rb1 ∧ gp1.clear = false ∧
      gp1.rbSlice.length = tiePool.rbSlice.length ∧
      SortedBySalience rb1.Kc.SortRules ∧ rb1.Kc.Consistent ∧
      ∀ r ∈ gp1.rbSlice,
        SameUpToTies rb1.Kc r.Kc ∧ SortedBySalience r.Kc.SortRules ∧ r.Kc.Consistent :=
  ⟨by decide, by decide, by decide, by decide,
    (updateIncremental_order_up_to_ties exactGrowth (updateOf [ruleB, ruleD])
      (updateOf [ruleD, ruleB]) (rbOf [ruleS]) (by decide) (by decide) (by decide)
      (by decide)).1,
    (updateIncremental_order_up_to_ties exactGrowth (updateOf [ruleB, ruleD])
      (updateOf [ruleD, ruleB]) (rbOf [ruleS]) (by decide) (by decide) (by decide)
      (by decide)).2 reversedForInstanceOne tieBuilder tiePool "rule B rule D"
      (kcOf [ruleB, ruleD]) (by decide) (by decide) (by decide) rfl (by decide)
      (fun i => reversedForInstanceOne_perm _ i)⟩

end Gengine
